import Mathlib

/-!
# µOS++ scheduler lists (`os-lists.cpp`)

A shallow embedding of the intrusive circular double linked lists of the
µOS++ RTOS (`Double_list`, `Waiting_threads_list`, `Clock_timestamps_list`
and their nodes) and a verification of their ordering and linkage
properties.

Objects live in one `Memory`.  Nodes, lists, threads and timers are named by
their address, a natural number; `nullptr` is `none`.  Priorities and
timestamps are only compared, and `count_` is only compared, incremented by
one per linked node and decremented by one above zero, so they are natural
numbers here: a count cannot exceed the number of node objects in memory, and
thus does not wrap.

An operation returns `Except Fault Memory`: the memory after the call, or the
fault that ended it.  Loops take a bound on their number of steps (`fuel`);
the theorems show which bound is enough.
-/

namespace os.rtos

/-! ## Data model -/

/-- Modelled from the spec: the scheduling states `thread::state` are declared
in the header `os.h`, which is not among the sources; the specification lists
"at minimum ready, running, suspended, destroyed".  The list code only tests
for `destroyed`. -/
inductive state_t
  | ready
  | running
  | suspended
  | destroyed
deriving DecidableEq

/-- Ways in which an operation can end without returning. -/
inductive Fault
  /-- a null pointer was dereferenced -/
  | null_pointer
  /-- an `assert` did not hold -/
  | assertion
  /-- the step budget given to a loop of the model was used up -/
  | fuel
deriving DecidableEq

/-- Calls made to the collaborators of the lists, in the order they happen. -/
inductive Call
  /-- a call of `Thread::resume` on the thread at this address -/
  | resume (thread : Nat)
  /-- a call of `Timer::interrupt_service_routine` on the timer at this address -/
  | interrupt_service_routine (timer : Nat)
deriving DecidableEq

/-- The two concrete classes derived from `Timestamp_node`. -/
inductive node_class
  | timeout_thread_node
  | timer_node
deriving DecidableEq

/-- The objects the list code reads and writes.

* `prev`, `next`: the members of `Double_list_links`, per node;
* `list`, `timestamp`: the members of `Timestamp_node` set by its constructor;
* `thread`: the `Thread&` of a `Waiting_thread_node` or `Timeout_thread_node`;
* `timer`: the `Timer&` of a `Timer_node`; `cls` picks the `action` override;
* `head_`, `count_`: the members of `Double_list`, per list;
* `sched_prio`, `sched_state`: what the accessors of each thread return;
* `calls`: the calls made so far to `resume` and to timer routines. -/
structure Memory where
  prev : Nat → Option Nat
  next : Nat → Option Nat
  list : Nat → Nat
  timestamp : Nat → Nat
  thread : Nat → Nat
  timer : Nat → Nat
  cls : Nat → node_class
  head_ : Nat → Option Nat
  count_ : Nat → Nat
  sched_prio : Nat → Nat
  sched_state : Nat → state_t
  calls : List Call

/-- Dereference of a pointer: a fault on `nullptr`. -/
def deref (p : Option Nat) : Except Fault Nat :=
  match p with
  | none => .error .null_pointer
  | some a => .ok a

/-- The routine of a timer is outside the lists: it is any transformer of the
memory, indexed by the timer's address. -/
abbrev Isr := Nat → Memory → Except Fault Memory

/-! ## `Double_list` -/

namespace Double_list

/-- The body of `Double_list::clear`: `head_ = nullptr; count_ = 0;`. -/
def clear (self : Nat) (s : Memory) : Memory :=
  { s with head_ := Function.update s.head_ self none,
           count_ := Function.update s.count_ self 0 }

/-- Modelled from the spec: `Double_list::empty` is declared in the header
`os-lists.h`, which is not among the sources; the specification gives it as
"returns `count == 0`". -/
def empty (self : Nat) (s : Memory) : Bool :=
  s.count_ self == 0

/-- Modelled from the spec: `head ()` of the list classes is declared in the
header `os-lists.h`, which is not among the sources; the specification gives it
as "returns the head node", that is the pointer `head_`. -/
def head (self : Nat) (s : Memory) : Option Nat :=
  s.head_ self

/-- The body of `Double_list::remove`. -/
def remove (self node : Nat) (s : Memory) : Except Fault Memory :=
  -- Check if not already removed.
  if s.next node = none then
    .ok s
  else do
    let s ← (
      if s.count_ self > 1 then do
        -- Move head to next node, this one will vanish.
        let s := if s.head_ self = some node then
          { s with head_ := Function.update s.head_ self (s.next node) } else s
        -- Make neighbours point to each other.
        let p ← deref (s.prev node)
        let s := { s with next := Function.update s.next p (s.next node) }
        let n ← deref (s.next node)
        let s := { s with prev := Function.update s.prev n (s.prev node) }
        pure { s with count_ := Function.update s.count_ self (s.count_ self - 1) }
      else if s.count_ self = 1 then
        pure (clear self s)
      else
        pure s)
    -- Nullify both pointers in the removed node.
    let s := { s with prev := Function.update s.prev node none }
    pure { s with next := Function.update s.next node none }

end Double_list

/-! ## `Waiting_threads_list` -/

namespace Waiting_threads_list

/-- The loop `while (prio > after->thread.sched_prio ()) after = after->prev;`
of `add`.  Returns the final `after`; `fuel` bounds the number of
assignments. -/
def add_loop (s : Memory) (prio : Nat) : Nat → Nat → Except Fault Nat
  | fuel, after =>
    if prio > s.sched_prio (s.thread after) then
      match fuel with
      | 0 => .error .fuel
      | fuel + 1 => do
        let after ← deref (s.prev after)
        add_loop s prio fuel after
    else
      .ok after

/-- The body of `Waiting_threads_list::add`; `fuel` bounds the steps of its
loop. -/
def add (fuel : Nat) (self node : Nat) (s : Memory) : Except Fault Memory :=
  if s.head_ self = none then
    -- Make the node point to itself.
    let s := { s with prev := Function.update s.prev node (some node) }
    let s := { s with next := Function.update s.next node (some node) }
    let s := { s with head_ := Function.update s.head_ self (some node) }
    .ok { s with count_ := Function.update s.count_ self 1 }
  else do
    let prio := s.sched_prio (s.thread node)
    let h ← deref (s.head_ self)
    let after ← deref (s.prev h)
    let (s, after) ← (
      if prio ≤ s.sched_prio (s.thread after) then
        -- Insert at the end of the list.
        pure (s, after)
      else do
        let hd ← deref (Double_list.head self s)
        if prio > s.sched_prio (s.thread hd) then
          -- Insert at the beginning of the list and update the new head.
          pure ({ s with head_ := Function.update s.head_ self (some node) }, after)
        else do
          -- Insert in the middle of the list.
          let after ← add_loop s prio fuel after
          pure (s, after))
    -- Make the new node point to its neighbours.
    let s := { s with prev := Function.update s.prev node (some after) }
    let s := { s with next := Function.update s.next node (s.next after) }
    -- Make the neighbours point to the node.
    let n ← deref (s.next after)
    let s := { s with prev := Function.update s.prev n (some node) }
    let s := { s with next := Function.update s.next after (some node) }
    pure { s with count_ := Function.update s.count_ self (s.count_ self + 1) }

/-- The body of `Waiting_threads_list::resume_one`.  The critical section
only masks interrupts and has no counterpart here; `assert(thread != nullptr)`
cannot fail as `thread` is the address of a member. -/
def resume_one (self : Nat) (s : Memory) : Except Fault Memory :=
  -- If the list is empty, silently return.
  if Double_list.empty self s then
    .ok s
  else do
    let h ← deref (Double_list.head self s)
    let thread := s.thread h
    let s ← Double_list.remove self h s
    if s.sched_state thread ≠ state_t.destroyed then
      pure { s with calls := s.calls ++ [Call.resume thread] }
    else
      pure s

/-- The body of `Waiting_threads_list::resume_all`; `fuel` bounds the number
of iterations of `while (!empty ())`. -/
def resume_all (self : Nat) : Nat → Memory → Except Fault Memory
  | fuel, s =>
    if !Double_list.empty self s then
      match fuel with
      | 0 => .error .fuel
      | fuel + 1 => do
        let s ← resume_one self s
        resume_all self fuel s
    else
      .ok s

end Waiting_threads_list

/-! ## Timestamp nodes -/

/-- The body of `Timeout_thread_node::action`. -/
def Timeout_thread_node.action (this : Nat) (s : Memory) : Except Fault Memory := do
  let th := s.thread this
  let s ← Double_list.remove (s.list this) this s
  if s.sched_state th ≠ state_t.destroyed then
    pure { s with calls := s.calls ++ [Call.resume th] }
  else
    pure s

/-- The body of `Timer_node::action`: the call of the routine is recorded and
then the routine `isr` runs. -/
def Timer_node.action (isr : Isr) (this : Nat) (s : Memory) : Except Fault Memory := do
  let s ← Double_list.remove (s.list this) this s
  let s := { s with calls := s.calls ++ [Call.interrupt_service_routine (s.timer this)] }
  isr (s.timer this) s

/-- The virtual call `node->action ()`, dispatched on the class of the
node. -/
def Timestamp_node.action (isr : Isr) (this : Nat) (s : Memory) : Except Fault Memory :=
  match s.cls this with
  | .timeout_thread_node => Timeout_thread_node.action this s
  | .timer_node => Timer_node.action isr this s

/-! ## `Clock_timestamps_list` -/

namespace Clock_timestamps_list

/-- The loop `while (timestamp < after->timestamp) after = after->prev;` of
`add`.  Returns the final `after`; `fuel` bounds the number of assignments. -/
def add_loop (s : Memory) (timestamp : Nat) : Nat → Nat → Except Fault Nat
  | fuel, after =>
    if timestamp < s.timestamp after then
      match fuel with
      | 0 => .error .fuel
      | fuel + 1 => do
        let after ← deref (s.prev after)
        add_loop s timestamp fuel after
    else
      .ok after

/-- The body of `Clock_timestamps_list::add`; `fuel` bounds the steps of its
loop.  With `ndebug` the `assert` is compiled out. -/
def add (ndebug : Bool) (fuel : Nat) (self node : Nat) (s : Memory) :
    Except Fault Memory :=
  if s.head_ self = none then
    -- Make the node point to itself.
    let s := { s with prev := Function.update s.prev node (some node) }
    let s := { s with next := Function.update s.next node (some node) }
    let s := { s with head_ := Function.update s.head_ self (some node) }
    .ok { s with count_ := Function.update s.count_ self 1 }
  else do
    let timestamp := s.timestamp node
    let h ← deref (s.head_ self)
    let after ← deref (s.prev h)
    let (s, after) ← (
      if timestamp ≥ s.timestamp after then
        -- Insert at the end of the list.
        pure (s, after)
      else do
        let hd ← deref (Double_list.head self s)
        if timestamp < s.timestamp hd then
          -- Insert at the beginning of the list and update the new head.
          pure ({ s with head_ := Function.update s.head_ self (some node) }, after)
        else do
          -- Insert in the middle of the list.
          let after ← add_loop s timestamp fuel after
          pure (s, after))
    let s := { s with count_ := Function.update s.count_ self (s.count_ self + 1) }
    if !ndebug && s.timestamp after == 0 then
      .error .assertion
    else do
      -- Make the new node point to its neighbours.
      let s := { s with prev := Function.update s.prev node (some after) }
      let s := { s with next := Function.update s.next node (s.next after) }
      -- Make the neighbours point to the node.
      let n ← deref (s.next after)
      let s := { s with prev := Function.update s.prev n (some node) }
      pure { s with next := Function.update s.next after (some node) }

/-- The body of `Clock_timestamps_list::check_timestamp`; `fuel` bounds the
number of actions run by the loop. -/
def check_timestamp (isr : Isr) (self : Nat) (now : Nat) : Nat → Memory → Except Fault Memory
  | fuel, s =>
    if !Double_list.empty self s then do
      let h ← deref (s.head_ self)
      let head_ts := s.timestamp h
      if now ≥ head_ts then
        match fuel with
        | 0 => .error .fuel
        | fuel + 1 => do
          let hd ← deref (Double_list.head self s)
          let s ← Timestamp_node.action isr hd s
          check_timestamp isr self now fuel s
      else
        .ok s
    else
      .ok s

end Clock_timestamps_list

/-! ## Starting memory and traversal -/

/-- A memory in which every node is unlinked, every list is empty and no call
has been made yet. -/
def Memory.init (thread : Nat → Nat) (sched_prio : Nat → Nat) (timestamp : Nat → Nat) : Memory :=
  { prev := fun _ => none, next := fun _ => none, list := fun _ => 0,
    timestamp := timestamp, thread := thread, timer := fun _ => 0,
    cls := fun _ => .timeout_thread_node,
    head_ := fun _ => none, count_ := fun _ => 0,
    sched_prio := sched_prio, sched_state := fun _ => .ready, calls := [] }

/-- The nodes met by starting at `p` and following `next` for `k` nodes. -/
def follow (s : Memory) : Nat → Option Nat → Option (List Nat)
  | 0, _ => some []
  | _ + 1, none => none
  | k + 1, some n => (follow s k (s.next n)).map (n :: ·)

/-- Head-to-tail traversal of a list: `count_` nodes starting at `head_`. -/
def traverse (self : Nat) (s : Memory) : Option (List Nat) :=
  follow s (s.count_ self) (s.head_ self)

/-- The memory an operation returned, or `d` when it ended in a fault. -/
def run (r : Except Fault Memory) (d : Memory) : Memory :=
  match r with
  | .ok s => s
  | .error _ => d

/-! ## Well-formed lists, described by the sequence of their nodes -/

/-- Node `b` is the successor of node `a` and `a` the predecessor of `b`. -/
def Adj (s : Memory) (a b : Nat) : Prop :=
  s.next a = some b ∧ s.prev b = some a

instance Adj.decidable (s : Memory) : DecidableRel (Adj s) :=
  fun a b => inferInstanceAs (Decidable (s.next a = some b ∧ s.prev b = some a))

/-- The nodes `l`, in this order, are linked into one ring: each is followed
by the next one and the last one by the first. -/
def Circular (s : Memory) (l : List Nat) : Prop :=
  List.Chain' (Adj s) (l ++ l.take 1)

/-- Decision of the links along a list of nodes, by evaluation. -/
def Adj.decideChain (s : Memory) : (l : List Nat) → Decidable (List.Chain' (Adj s) l)
  | [] => isTrue List.chain'_nil
  | [a] => isTrue (List.chain'_singleton a)
  | a :: b :: l =>
    match Adj.decidable s a b, Adj.decideChain s (b :: l) with
    | isTrue h₁, isTrue h₂ => isTrue (List.chain'_cons.2 ⟨h₁, h₂⟩)
    | isFalse h₁, _ => isFalse (fun h => h₁ (List.chain'_cons.1 h).1)
    | isTrue _, isFalse h₂ => isFalse (fun h => h₂ (List.chain'_cons.1 h).2)

instance Circular.decidable (s : Memory) (l : List Nat) : Decidable (Circular s l) :=
  Adj.decideChain s (l ++ l.take 1)

/-- List `self` is well formed and holds exactly the nodes `l`, head first. -/
def Holds (s : Memory) (self : Nat) (l : List Nat) : Prop :=
  l.Nodup ∧ Circular s l ∧ s.head_ self = l.head? ∧ s.count_ self = l.length

instance Holds.decidable (s : Memory) (self : Nat) (l : List Nat) : Decidable (Holds s self l) :=
  inferInstanceAs (Decidable (_ ∧ _ ∧ _ ∧ _))

/-- List `self` is well formed with the nodes `l`, and no node outside `l` is
linked. -/
def Owns (s : Memory) (self : Nat) (l : List Nat) : Prop :=
  Holds s self l ∧ ∀ n, s.next n ≠ none → n ∈ l

/-- What an operation on list `self` over the nodes `l` leaves alone: the
links of every node outside `l`, the other lists, the constant members of the
nodes and the threads. -/
structure Frame (lst : Nat) (l : List Nat) (s s' : Memory) : Prop where
  next : ∀ z, z ∉ l → s'.next z = s.next z
  prev : ∀ z, z ∉ l → s'.prev z = s.prev z
  head_ : ∀ o, o ≠ lst → s'.head_ o = s.head_ o
  count_ : ∀ o, o ≠ lst → s'.count_ o = s.count_ o
  list : s'.list = s.list
  timestamp : s'.timestamp = s.timestamp
  thread : s'.thread = s.thread
  timer : s'.timer = s.timer
  cls : s'.cls = s.cls
  sched_prio : s'.sched_prio = s.sched_prio
  sched_state : s'.sched_state = s.sched_state

/-! ## The common structure of the two `add` functions, used in the proofs -/

/-- The backward walk shared by the two `add` functions: step to `prev` while
the new node has to `go` before `after`. -/
def walk_back (s : Memory) (go : Nat → Bool) : Nat → Nat → Except Fault Nat
  | fuel, after =>
    if go after then
      match fuel with
      | 0 => .error .fuel
      | fuel + 1 => do
        let after ← deref (s.prev after)
        walk_back s go fuel after
    else
      .ok after

/-- The choice of the place of a new node in a non-empty list, shared by the
two `add` functions: whether the node becomes the head, and the node `after`
which it is linked. -/
def position (go : Nat → Bool) (fuel : Nat) (self : Nat) (s : Memory) :
    Except Fault (Bool × Nat) := do
  let h ← deref (s.head_ self)
  let after ← deref (s.prev h)
  if !go after then
    pure (false, after)
  else if go h then
    pure (true, after)
  else do
    let after ← walk_back s go fuel after
    pure (false, after)

/-- The writes that link `node` after `after` and count it, shared by the two
`add` functions. -/
def link (self node after : Nat) (front : Bool) (s : Memory) : Except Fault Memory := do
  let s := if front then { s with head_ := Function.update s.head_ self (some node) } else s
  let s := { s with prev := Function.update s.prev node (some after) }
  let s := { s with next := Function.update s.next node (s.next after) }
  let n ← deref (s.next after)
  let s := { s with prev := Function.update s.prev n (some node) }
  let s := { s with next := Function.update s.next after (some node) }
  pure { s with count_ := Function.update s.count_ self (s.count_ self + 1) }

/-- The first node of an empty list. -/
def link_first (self node : Nat) (s : Memory) : Memory :=
  { s with prev := Function.update s.prev node (some node),
           next := Function.update s.next node (some node),
           head_ := Function.update s.head_ self (some node),
           count_ := Function.update s.count_ self 1 }

/-- Where a new node ends up among the nodes `l₁ ++ l₂` of a list, in terms
of the test `go` of the `add` that placed it: before the old head, which it
goes before, or right after a node it does not go before and in front of
nodes it goes before. -/
def Placed (go : Nat → Bool) (l₁ l₂ : List Nat) : Prop :=
  (l₁ = [] ∧ ∀ x ∈ l₂.head?, go x = true) ∨
    (l₁ ≠ [] ∧ (∀ x ∈ l₁.getLast?, go x = false) ∧ ∀ x ∈ l₂, go x = true)

/-! ## Sequences of operations -/

/-- The memories reached from an empty list `self`, all nodes unlinked, by
`Waiting_threads_list::add` of unlinked nodes, `Double_list::remove` of nodes
that are unlinked or in the list, and changes of the priority of threads none
of whose nodes is linked. -/
inductive Waiting_reach (self : Nat) : Memory → Prop
  | init {s : Memory} : (∀ n, s.next n = none) → s.head_ self = none → s.count_ self = 0 →
      Waiting_reach self s
  | add {s s' : Memory} (fuel n : Nat) : Waiting_reach self s → s.next n = none →
      Waiting_threads_list.add fuel self n s = .ok s' → Waiting_reach self s'
  | remove {s s' : Memory} (n : Nat) : Waiting_reach self s →
      (s.next n = none ∨ ∃ l, traverse self s = some l ∧ n ∈ l) →
      Double_list.remove self n s = .ok s' → Waiting_reach self s'
  | set_prio {s : Memory} (t p : Nat) : Waiting_reach self s →
      (∀ n, s.thread n = t → s.next n = none) →
      Waiting_reach self { s with sched_prio := Function.update s.sched_prio t p }

/-- The memories reached from an empty list `self`, all nodes unlinked, by
calls of `Clock_timestamps_list::add` of unlinked nodes that return, and
`Double_list::remove` of nodes that are unlinked or in the list. -/
inductive Clock_reach (self : Nat) : Memory → Prop
  | init {s : Memory} : (∀ n, s.next n = none) → s.head_ self = none → s.count_ self = 0 →
      Clock_reach self s
  | add {s s' : Memory} (ndebug : Bool) (fuel n : Nat) : Clock_reach self s → s.next n = none →
      Clock_timestamps_list.add ndebug fuel self n s = .ok s' → Clock_reach self s'
  | remove {s s' : Memory} (n : Nat) : Clock_reach self s →
      (s.next n = none ∨ ∃ l, traverse self s = some l ∧ n ∈ l) →
      Double_list.remove self n s = .ok s' → Clock_reach self s'

/-- The memories reached from an empty list `self`, all nodes unlinked, by
either `add` of unlinked nodes and `Double_list::remove` of nodes that are
unlinked or in the list. -/
inductive Reach (self : Nat) : Memory → Prop
  | init {s : Memory} : (∀ n, s.next n = none) → s.head_ self = none → s.count_ self = 0 →
      Reach self s
  | waiting_add {s s' : Memory} (fuel n : Nat) : Reach self s → s.next n = none →
      Waiting_threads_list.add fuel self n s = .ok s' → Reach self s'
  | clock_add {s s' : Memory} (ndebug : Bool) (fuel n : Nat) : Reach self s → s.next n = none →
      Clock_timestamps_list.add ndebug fuel self n s = .ok s' → Reach self s'
  | remove {s s' : Memory} (n : Nat) : Reach self s →
      (s.next n = none ∨ ∃ l, traverse self s = some l ∧ n ∈ l) →
      Double_list.remove self n s = .ok s' → Reach self s'

/-- The `resume` calls due to the nodes `l`: one for each node whose thread
is not destroyed, in order. -/
def resumes (s : Memory) (l : List Nat) : List Call :=
  (l.filter (fun x => decide (s.sched_state (s.thread x) ≠ state_t.destroyed))).map
    (fun x => Call.resume (s.thread x))

/-- A timer routine that returns and only touches the threads and the record
of calls: the links, the lists and the constant members of the nodes are as
before. -/
def Isr.Quiet (isr : Isr) : Prop :=
  ∀ t s, ∃ s', isr t s = .ok s' ∧ s'.prev = s.prev ∧ s'.next = s.next ∧
    s'.head_ = s.head_ ∧ s'.count_ = s.count_ ∧ s'.list = s.list ∧
    s'.timestamp = s.timestamp ∧ s'.cls = s.cls ∧ s'.thread = s.thread ∧ s'.timer = s.timer

/-! ## Length of the ring -/

/-- The number of `next` steps from node `cur` until node `h` is met, with at
most `fuel` steps. -/
def steps_to (s : Memory) (h : Nat) : Nat → Nat → Option Nat
  | 0, _ => none
  | fuel + 1, cur =>
    match s.next cur with
    | none => none
    | some n => if n = h then some 1 else (steps_to s h fuel n).map (· + 1)

/-- The number of nodes met from the head of list `self` by following `next`
until the head is met again; 0 for an empty list. -/
def ring_size (self : Nat) (s : Memory) (fuel : Nat) : Option Nat :=
  match s.head_ self with
  | none => some 0
  | some h => steps_to s h fuel h

/-! ## Example memories -/

/-- Example memory: thread `n` is the thread of node `n`; the priorities of
threads 0, 1, 2 are 5, 10, 5. -/
def ex_w0 : Memory :=
  Memory.init (fun n => n) (fun t => if t = 1 then 10 else 5) (fun _ => 0)

/-- Example memory: node 0 added to the waiting list 0 of `ex_w0`. -/
def ex_w1 : Memory := run (Waiting_threads_list.add 0 0 0 ex_w0) ex_w0

/-- Example memory: node 1 added to the waiting list 0 of `ex_w1`. -/
def ex_w2 : Memory := run (Waiting_threads_list.add 1 0 1 ex_w1) ex_w0

/-- Example memory: node 2 added to the waiting list 0 of `ex_w2`. -/
def ex_w3 : Memory := run (Waiting_threads_list.add 2 0 2 ex_w2) ex_w0

/-- Example memory: node 0 removed from list 0 of `ex_w3`. -/
def ex_w4 : Memory := run (Double_list.remove 0 0 ex_w3) ex_w0

/-- Example memory: the timestamps of the nodes 0, 1, 2, 3 are 10, 20, 20,
30; all are timeout nodes of list 0 with threads that are ready. -/
def ex_c0 : Memory :=
  Memory.init (fun n => n) (fun _ => 0)
    (fun n => if n = 0 then 10 else if n = 3 then 30 else 20)

/-- Example memory: node 3 added to the clock list 0 of `ex_c0`. -/
def ex_c1 : Memory := run (Clock_timestamps_list.add false 0 0 3 ex_c0) ex_c0

/-- Example memory: node 0 added to the clock list 0 of `ex_c1`. -/
def ex_c2 : Memory := run (Clock_timestamps_list.add false 1 0 0 ex_c1) ex_c0

/-- Example memory: node 1 added to the clock list 0 of `ex_c2`. -/
def ex_c3 : Memory := run (Clock_timestamps_list.add false 2 0 1 ex_c2) ex_c0

/-- Example memory: node 2 added to the clock list 0 of `ex_c3`. -/
def ex_c4 : Memory := run (Clock_timestamps_list.add false 3 0 2 ex_c3) ex_c0

/-- A routine that does nothing. -/
def ex_isr : Isr := fun _ s => .ok s

/-- Example memory: the memory `ex_w1`, whose waiting list 0 holds node 0
only, with every thread destroyed. -/
def ex_d1 : Memory := { ex_w1 with sched_state := fun _ => state_t.destroyed }

/-- Example memory: thread `n` is the thread of node `n`; the priorities of
threads 0, 1, 2 are 8, 4, 6. -/
def ex_q0 : Memory :=
  Memory.init (fun n => n) (fun t => if t = 0 then 8 else if t = 1 then 4 else 6) (fun _ => 0)

/-- Example memory: node 0 added to the waiting list 0 of `ex_q0`. -/
def ex_q1 : Memory := run (Waiting_threads_list.add 0 0 0 ex_q0) ex_q0

/-- Example memory: node 1 added to the waiting list 0 of `ex_q1`. -/
def ex_q2 : Memory := run (Waiting_threads_list.add 1 0 1 ex_q1) ex_q0

/-- Example memory: node 2 added to the waiting list 0 of `ex_q2`. -/
def ex_q3 : Memory := run (Waiting_threads_list.add 2 0 2 ex_q2) ex_q0

/-- Example memory: thread `n` is the thread of node `n`; the priorities of
threads 0, 1, 2 are 10, 5, 5 and the timestamps of nodes 0, 1, 2 are 10, 20,
30. -/
def ex_m0 : Memory :=
  Memory.init (fun n => n) (fun t => if t = 0 then 10 else 5)
    (fun n => if n = 0 then 10 else if n = 1 then 20 else 30)

/-- Example memory: node 0 added to the waiting list 0 of `ex_m0`. -/
def ex_m1 : Memory := run (Waiting_threads_list.add 0 0 0 ex_m0) ex_m0

/-- Example memory: node 1 added to the waiting list 0 of `ex_m1`. -/
def ex_m2 : Memory := run (Waiting_threads_list.add 1 0 1 ex_m1) ex_m0

/-- Example memory: node 2 added to the waiting list 0 of `ex_m2`. -/
def ex_m3 : Memory := run (Waiting_threads_list.add 2 0 2 ex_m2) ex_m0

/-- Example memory: every node is a timer node of list 0; node `n` belongs to
timer `n`; the timestamp of node 0 is 100 and that of the other nodes 150. -/
def ex_t0 : Memory :=
  { Memory.init (fun n => n) (fun _ => 0) (fun n => if n = 0 then 100 else 150) with
    cls := fun _ => node_class.timer_node, timer := fun n => n }

/-- Example memory: node 0 added to the clock list 0 of `ex_t0`. -/
def ex_t1 : Memory := run (Clock_timestamps_list.add false 0 0 0 ex_t0) ex_t0

/-- Example routine: every timer re-arms by adding node 1 to the clock list
0. -/
def ex_rearm : Isr := fun _ s => Clock_timestamps_list.add false 1 0 1 s

/-- A run of `Clock_timestamps_list::add` calls on list `self` that return,
each of a node unlinked at the time, with no removal in between. -/
inductive Clock_adds (self : Nat) : Memory → Memory → Prop
  | refl (s : Memory) : Clock_adds self s s
  | step {s s' s'' : Memory} (ndebug : Bool) (fuel n : Nat) : Clock_adds self s s' →
      s'.next n = none → Clock_timestamps_list.add ndebug fuel self n s' = .ok s'' →
      Clock_adds self s s''

/-- The actions of the nodes `l` invoked one after the other, in the order of
`l`. -/
def actions (isr : Isr) : List Nat → Memory → Except Fault Memory
  | [], s => .ok s
  | n :: l, s => do
    let s ← Timestamp_node.action isr n s
    actions isr l s

/-- The nodes `ns` added one by one, in this order, with
`Waiting_threads_list::add`; the loop of each call is given `count_` steps. -/
def add_seq (self : Nat) : List Nat → Memory → Except Fault Memory
  | [], s => .ok s
  | n :: ns, s => do
    let s ← Waiting_threads_list.add (s.count_ self) self n s
    add_seq self ns s

/-- The stable sort of a sequence by descending priority, after the words of
the specification: the sequence sorted by non-increasing priority, equal
priorities keeping their order in the sequence.  It is computed by the
insertion sort of the library, which puts each element before the first
later element of at most its priority. -/
def stable_sort_desc (prio : Nat → Nat) (ns : List Nat) : List Nat :=
  ns.insertionSort (fun a b => prio a ≥ prio b)

/-- Example memory: thread `n` is the thread of node `n`; the priorities of
threads 0, 1, 2, 3, 4 are 5, 10, 5, 7, 10. -/
def ex_p0 : Memory :=
  Memory.init (fun n => n)
    (fun t => if t = 0 then 5 else if t = 1 then 10 else if t = 2 then 5 else
      if t = 3 then 7 else 10) (fun _ => 0)

/-- Example memory: the timestamp of node 0 is 0, of every other node 5. -/
def ex_z0 : Memory :=
  Memory.init (fun n => n) (fun _ => 0) (fun n => if n = 0 then 0 else 5)

/-- Example memory: node 0 added to the clock list 0 of `ex_z0`. -/
def ex_z1 : Memory := run (Clock_timestamps_list.add false 0 0 0 ex_z0) ex_z0

/-- Example memory: the timestamps of the nodes 0, 1, 2 are 0, 0, 7, of
every other node 5. -/
def ex_y0 : Memory :=
  Memory.init (fun n => n) (fun _ => 0)
    (fun n => if n = 0 then 0 else if n = 1 then 0 else if n = 2 then 7 else 5)

/-- Example memory: node 2 added to the clock list 0 of `ex_y0`. -/
def ex_y1 : Memory := run (Clock_timestamps_list.add false 0 0 2 ex_y0) ex_y0

/-- Example memory: node 0 added to the clock list 0 of `ex_y1`. -/
def ex_y2 : Memory := run (Clock_timestamps_list.add false 1 0 0 ex_y1) ex_y0

/-- Example memory: node 1 added to the clock list 0 of `ex_y2`. -/
def ex_y3 : Memory := run (Clock_timestamps_list.add true 2 0 1 ex_y2) ex_y0

/-- Example memory: node 2, the tail of the waiting list 0 of `ex_w3`, added
to that list once more. -/
def ex_r4 : Memory := run (Waiting_threads_list.add 0 0 2 ex_w3) ex_w0

/-- Example memory: node 3, the tail of the clock list 0 of `ex_c4`, added to
that list once more. -/
def ex_r5 : Memory := run (Clock_timestamps_list.add false 0 0 3 ex_c4) ex_c0

/-- Example memory: node 1 added to the waiting list 1 of `ex_w1`, whose list
0 holds node 0. -/
def ex_ab : Memory := run (Waiting_threads_list.add 0 1 1 ex_w1) ex_w0

/-- Example memory: node 1, of list 1, removed through list 0 of `ex_ab`. -/
def ex_ax : Memory := run (Double_list.remove 0 1 ex_ab) ex_w0

/-- Example memory: node 3 added to the waiting list 1 of `ex_w3`, whose list
0 holds the nodes 1, 0, 2. -/
def ex_b3 : Memory := run (Waiting_threads_list.add 0 1 3 ex_w3) ex_w0

/-- Example memory: the memory `ex_c4`, whose clock list 0 holds the nodes 0,
1, 2, 3, with thread 1 destroyed. -/
def ex_k4 : Memory :=
  { ex_c4 with sched_state := fun t => if t = 1 then state_t.destroyed else state_t.ready }

/-- Example memory: the action of the timeout node 1 run in `ex_k4`. -/
def ex_k5 : Memory := run (Timeout_thread_node.action 1 ex_k4) ex_c0

/-- Example memory: the action of the timeout node 2 run in `ex_k4`. -/
def ex_k6 : Memory := run (Timeout_thread_node.action 2 ex_k4) ex_c0

/-- The body of `Clock_timestamps_list::check_timestamp` with a record of the
invocations of `head ()->action ()`: next to the memory it returns the nodes
whose action the loop has invoked, in the order of the invocations.  The memory
is the one that `check_timestamp` returns. -/
def Clock_timestamps_list.check_timestamp_log (isr : Isr) (self : Nat) (now : Nat) :
    Nat → Memory → Except Fault (List Nat × Memory)
  | fuel, s =>
    if !Double_list.empty self s then do
      let h ← deref (s.head_ self)
      let head_ts := s.timestamp h
      if now ≥ head_ts then
        match fuel with
        | 0 => .error .fuel
        | fuel + 1 => do
          let hd ← deref (Double_list.head self s)
          let s ← Timestamp_node.action isr hd s
          let r ← Clock_timestamps_list.check_timestamp_log isr self now fuel s
          pure (hd :: r.1, r.2)
      else
        .ok ([], s)
    else
      .ok ([], s)

/-- A timer routine that spares the due nodes of the clock list `self`: run
on a well-formed list in timestamp order it returns, and the list is again
well formed and in timestamp order, with the same nodes of timestamp up to
`now` in the same order; the stored lists and the classes of the nodes are as
before.  The routine may add nodes with a later timestamp, as a timer that
re-arms does, and may change the threads, the other lists and the record of
calls. -/
def Isr.Spares (self now : Nat) (isr : Isr) : Prop :=
  ∀ t s l, Holds s self l → l.Pairwise (fun u v => s.timestamp u ≤ s.timestamp v) →
    ∃ s' l', isr t s = .ok s' ∧ Holds s' self l' ∧
      l'.Pairwise (fun u v => s'.timestamp u ≤ s'.timestamp v) ∧
      l'.filter (fun x => decide (s'.timestamp x ≤ now)) =
        l.filter (fun x => decide (s.timestamp x ≤ now)) ∧
      s'.list = s.list ∧ s'.cls = s.cls

/-- Example routine: every timer re-arms node `m`, by adding it to the clock
list `self`, if the node is unlinked and its timestamp is after `now`. -/
def ex_periodic (self now m : Nat) : Isr := fun _ s =>
  if s.next m = none ∧ now < s.timestamp m then
    Clock_timestamps_list.add true (s.count_ self) self m s
  else
    .ok s

/-- Example memory: the action of the timer node 0 run on the clock list 0 of
`ex_t1`, which holds that node only, with the routine that re-arms node 1, of
timestamp 150. -/
def ex_t2 : Memory := run (Timestamp_node.action (ex_periodic 0 100 1) 0 ex_t1) ex_t0

/-- Example memory: timer nodes of list 0; the timestamps of the nodes 0 and
3 are 10 and 150, of every other node 20. -/
def ex_u0 : Memory :=
  { Memory.init (fun n => n) (fun _ => 0)
      (fun n => if n = 0 then 10 else if n = 3 then 150 else 20) with
    cls := fun _ => node_class.timer_node, timer := fun n => n }

/-- Example memory: node 0 added to the clock list 0 of `ex_u0`. -/
def ex_u1 : Memory := run (Clock_timestamps_list.add false 0 0 0 ex_u0) ex_u0

/-- Example memory: node 1 added to the clock list 0 of `ex_u1`. -/
def ex_u2 : Memory := run (Clock_timestamps_list.add false 1 0 1 ex_u1) ex_u0

/-- Example memory: node 2 added to the clock list 0 of `ex_u2`. -/
def ex_u3 : Memory := run (Clock_timestamps_list.add false 2 0 2 ex_u2) ex_u0

/-- Example memory: the action of the timer node 0 run in `ex_u3`, with the
routine that re-arms node 3. -/
def ex_u4 : Memory := run (Timestamp_node.action (ex_periodic 0 20 3) 0 ex_u3) ex_u0

/-- Example memory: the action of the timer node 1 run in `ex_u4`. -/
def ex_u5 : Memory := run (Timestamp_node.action (ex_periodic 0 20 3) 1 ex_u4) ex_u0

/-- Example memory: the action of the timer node 2 run in `ex_u5`. -/
def ex_u6 : Memory := run (Timestamp_node.action (ex_periodic 0 20 3) 2 ex_u5) ex_u0

/-! # Theorems -/

/-! ## Rings of nodes -/

/-- The empty sequence is a ring. -/
theorem circular_nil (s : Memory) : Circular s [] := by
  simp [Circular]

/-- A ring that starts at `x` is a chain from `x` back to `x`. -/
theorem circular_cons {s : Memory} {x : Nat} {xs : List Nat} :
    Circular s (x :: xs) ↔ List.Chain' (Adj s) (x :: xs ++ [x]) := by
  simp [Circular]

/-- A ring read from another starting node is the same ring. -/
theorem circular_rotate {s : Memory} (l₁ l₂ : List Nat) (h : Circular s (l₁ ++ l₂)) :
    Circular s (l₂ ++ l₁) := by
  cases l₁ with
  | nil => simpa using h
  | cons a t₁ =>
    cases l₂ with
    | nil => simpa using h
    | cons b t₂ =>
      have h1 : List.Chain' (Adj s) ((a :: t₁) ++ b :: (t₂ ++ [a])) := by
        simpa [Circular] using h
      rw [List.chain'_split] at h1
      have h2 : List.Chain' (Adj s) ((b :: t₂) ++ a :: (t₁ ++ [b])) := by
        rw [List.chain'_split]
        exact ⟨by simpa using h1.2, by simpa using h1.1⟩
      simpa [Circular] using h2

/-- A chain of links survives writes that touch neither the `next` of its nodes but the
last nor the `prev` of its nodes but the first. -/
theorem chain'_frame {s s' : Memory} : ∀ {l : List Nat}, List.Chain' (Adj s) l →
    (∀ z ∈ l.dropLast, s'.next z = s.next z) → (∀ z ∈ l.tail, s'.prev z = s.prev z) →
    List.Chain' (Adj s') l
  | [], _, _, _ => List.chain'_nil
  | [_], _, _, _ => List.chain'_singleton _
  | a :: b :: l, h, hn, hp => by
    rw [List.chain'_cons] at h ⊢
    refine ⟨⟨?_, ?_⟩, chain'_frame h.2 ?_ ?_⟩
    · rw [hn a (by simp)]; exact h.1.1
    · rw [hp b (by simp)]; exact h.1.2
    · intro z hz; exact hn z (by simp [List.dropLast] at hz ⊢; exact Or.inr hz)
    · intro z hz; exact hp z (by simp at hz ⊢; exact Or.inr hz)

/-- The successor of the last node of a ring is its first node. -/
theorem circular_head_adj {s : Memory} {m : List Nat} {a b : Nat}
    (hc : Circular s (m ++ [a])) (hb : s.next a = some b) : (m ++ [a]).head? = some b := by
  cases m with
  | nil =>
    simp [Circular] at hc
    have := hc.1; rw [hb] at this; simpa using this.symm
  | cons x m' =>
    have h1 : List.Chain' (Adj s) ((x :: m') ++ a :: [x]) := by simpa [Circular] using hc
    rw [List.chain'_split] at h1
    have := (List.chain'_pair.1 h1.2).1
    rw [hb] at this; simpa using this.symm

/-- Linking a new node behind the last node `a` of a ring, by the writes of `add`, gives the
ring with the node appended. -/
theorem circular_insert {s s' : Memory} {m : List Nat} {a n b : Nat}
    (hc : Circular s (m ++ [a])) (hnd : (m ++ [a]).Nodup) (hn : n ∉ m ++ [a])
    (hb : s.next a = some b)
    (hnext : s'.next = Function.update (Function.update s.next n (s.next a)) a (some n))
    (hprev : s'.prev = Function.update (Function.update s.prev n (some a)) b (some n)) :
    Circular s' (m ++ [a, n]) := by
  have hna : n ≠ a := by intro h; apply hn; simp [h]
  cases m with
  | nil =>
    simp [Circular] at hc
    have hba : b = a := by have := hc.1; rw [hb] at this; simpa using this
    subst hba
    simp [Circular, Adj, hnext, hprev, hna, hb, Function.update]
  | cons x m' =>
    have h1 : List.Chain' (Adj s) ((x :: m') ++ a :: [x]) := by simpa [Circular] using hc
    rw [List.chain'_split] at h1
    have hax := List.chain'_pair.1 h1.2
    have hbx : b = x := by have := hax.1; rw [hb] at this; simpa using this
    subst hbx
    have hnb : n ≠ b := by intro h; apply hn; simp [h]
    have hab : a ≠ b := by
      intro h; subst h; simp at hnd
    have h2 : List.Chain' (Adj s') ((b :: m') ++ [a]) := by
      apply chain'_frame h1.1
      · intro z hz
        have hz' : z ∈ b :: m' := by
          have : ((b :: m') ++ [a]).dropLast = b :: m' := List.dropLast_concat
          rw [this] at hz; exact hz
        have hza : z ≠ a := by
          rintro rfl
          have := List.nodup_append.1 hnd
          exact this.2.2 hz' (by simp)
        have hzn : z ≠ n := by
          rintro rfl; apply hn; simp at hz' ⊢; tauto
        simp [hnext, Function.update, hza, hzn]
      · intro z hz
        have hz' : z ∈ m' ++ [a] := by simpa using hz
        have hzb : z ≠ b := by
          rintro rfl
          have : z ∉ m' ++ [a] := (List.nodup_cons.1 (by simpa using hnd)).1
          exact this hz'
        have hzn : z ≠ n := by
          rintro rfl; apply hn; simp at hz' ⊢; tauto
        simp [hprev, Function.update, hzb, hzn]
    have h3 : List.Chain' (Adj s') ((b :: m') ++ a :: [n, b]) := by
      rw [List.chain'_split]
      refine ⟨h2, ?_⟩
      simp [Adj, hnext, hprev, Function.update, hna, hnb, hab, hb]
    simpa [Circular] using h3

/-- Unlinking the last node of a ring of at least two nodes, by the writes of `remove`,
gives the ring of the other nodes. -/
theorem circular_remove {s : Memory} (s' : Memory) {m : List Nat} {p n b : Nat}
    (hc : Circular s (m ++ [p, n])) (hnd : (m ++ [p, n]).Nodup)
    (hb : s.next n = some b)
    (hnext : s'.next = Function.update (Function.update s.next p (s.next n)) n none)
    (hprev : s'.prev = Function.update (Function.update s.prev b (s.prev n)) n none) :
    Circular s' (m ++ [p]) := by
  have hpn : p ≠ n := by
    intro h; subst h; simp [List.nodup_append] at hnd
  have hhd : (m ++ [p] ++ [n]).head? = some b :=
    circular_head_adj (by simpa using hc) hb
  cases m with
  | nil =>
    simp at hhd; subst hhd
    have h1 : List.Chain' (Adj s) [p, n, p] := by simpa [Circular] using hc
    simp [Adj] at h1
    simp [Circular, Adj, hnext, hprev, Function.update, hpn, h1]
  | cons x m' =>
    simp at hhd; subst hhd
    have h1 : List.Chain' (Adj s) ((x :: m') ++ p :: [n, x]) := by simpa [Circular] using hc
    rw [List.chain'_split] at h1
    have h1' : Adj s p n ∧ Adj s n x := by simpa using h1.2
    have hxn : x ≠ n := by
      intro h; subst h; simp at hnd
    have hxp : x ≠ p := by
      intro h; subst h; simp at hnd
    have h2 : List.Chain' (Adj s') ((x :: m') ++ [p]) := by
      apply chain'_frame h1.1
      · intro z hz
        have hz' : z ∈ x :: m' := by
          have : ((x :: m') ++ [p]).dropLast = x :: m' := List.dropLast_concat
          rw [this] at hz; exact hz
        have hzp : z ≠ p := by
          rintro rfl
          have := List.nodup_append.1 hnd
          exact this.2.2 hz' (by simp)
        have hzn : z ≠ n := by
          rintro rfl
          have := List.nodup_append.1 hnd
          exact this.2.2 hz' (by simp)
        simp [hnext, Function.update, hzp, hzn]
      · intro z hz
        have hz' : z ∈ m' ++ [p] := by simpa using hz
        have hzx : z ≠ x := by
          rintro rfl
          have : z ∉ m' ++ [p, n] := (List.nodup_cons.1 (by simpa using hnd)).1
          apply this; simp at hz' ⊢; tauto
        have hzn : z ≠ n := by
          rintro rfl
          simp [List.nodup_append] at hnd hz'
          tauto
        simp [hprev, Function.update, hzx, hzn]
    have h3 : List.Chain' (Adj s') ((x :: m') ++ p :: [x]) := by
      rw [List.chain'_split]
      refine ⟨h2, ?_⟩
      simp [Adj, hnext, hprev, Function.update, hpn, hxn, hxp, h1'.1.2, h1'.2.1]
    simpa [Circular] using h3

/-! ## `Double_list::remove` on a well-formed list -/

/-- The last two nodes of a ring are linked. -/
theorem circular_adj_last {s : Memory} {m : List Nat} {p n : Nat}
    (hc : Circular s (m ++ [p, n])) : Adj s p n := by
  have h1 : List.Chain' (Adj s) (m ++ p :: (n :: (m ++ [p, n]).take 1)) := by
    simpa [Circular] using hc
  rw [List.chain'_split] at h1
  exact (List.chain'_cons.1 h1.2).1

/-- The last node of a ring is linked to the first. -/
theorem circular_wrap {s : Memory} {m : List Nat} {n b : Nat}
    (hc : Circular s (m ++ [n])) (hb : (m ++ [n]).head? = some b) : Adj s n b := by
  have ht : (m ++ [n]).take 1 = [b] := by
    cases m with
    | nil => simpa using hb
    | cons x m' => simpa using hb
  have h1 : List.Chain' (Adj s) (m ++ n :: [b]) := by
    have := hc; unfold Circular at this; rw [ht] at this; simpa using this
  rw [List.chain'_split] at h1
  exact List.chain'_pair.1 h1.2

/-- A `remove` of a node whose `next` is null returns at once. -/
theorem remove_unlinked {s : Memory} {self n : Nat} (h : s.next n = none) :
    Double_list.remove self n s = .ok s := by
  simp [Double_list.remove, h]

/-- The result of `remove` when `count_` is 1. -/
theorem remove_single {s : Memory} {self n : Nat} (hn : s.next n ≠ none)
    (hc : s.count_ self = 1) :
    Double_list.remove self n s = .ok
      { s with head_ := Function.update s.head_ self none,
               count_ := Function.update s.count_ self 0,
               prev := Function.update s.prev n none,
               next := Function.update s.next n none } := by
  simp [Double_list.remove, hn, hc, Double_list.clear, bind, Except.bind, pure, Except.pure]

/-- The result of `remove` when `count_` is greater than 1. -/
theorem remove_many {s : Memory} {self n p b : Nat} (hb : s.next n = some b)
    (hp : s.prev n = some p) (hpn : p ≠ n) (hc : 1 < s.count_ self) :
    Double_list.remove self n s = .ok
      { s with head_ := if s.head_ self = some n then Function.update s.head_ self (some b)
                        else s.head_,
               count_ := Function.update s.count_ self (s.count_ self - 1),
               prev := Function.update (Function.update s.prev b (some p)) n none,
               next := Function.update (Function.update s.next p (some b)) n none } := by
  by_cases hh : s.head_ self = some n
  · simp [Double_list.remove, hb, hp, hc, hh, deref, bind, Except.bind, pure, Except.pure,
      Function.update, hpn.symm]
  · simp [Double_list.remove, hb, hp, hc, hh, deref, bind, Except.bind, pure, Except.pure,
      Function.update, hpn.symm]

/-- Nothing changed is a frame. -/
theorem Frame.refl (self : Nat) (l : List Nat) (s : Memory) : Frame self l s s :=
  ⟨fun _ _ => rfl, fun _ _ => rfl, fun _ _ => rfl, fun _ _ => rfl,
    rfl, rfl, rfl, rfl, rfl, rfl, rfl⟩

/-- Frames compose. -/
theorem Frame.trans {self : Nat} {l : List Nat} {s s' s'' : Memory}
    (h₁ : Frame self l s s') (h₂ : Frame self l s' s'') : Frame self l s s'' where
  next z hz := (h₂.next z hz).trans (h₁.next z hz)
  prev z hz := (h₂.prev z hz).trans (h₁.prev z hz)
  head_ o ho := (h₂.head_ o ho).trans (h₁.head_ o ho)
  count_ o ho := (h₂.count_ o ho).trans (h₁.count_ o ho)
  list := h₂.list.trans h₁.list
  timestamp := h₂.timestamp.trans h₁.timestamp
  thread := h₂.thread.trans h₁.thread
  timer := h₂.timer.trans h₁.timer
  cls := h₂.cls.trans h₁.cls
  sched_prio := h₂.sched_prio.trans h₁.sched_prio
  sched_state := h₂.sched_state.trans h₁.sched_state

/-- A frame over fewer nodes is a frame over more. -/
theorem Frame.mono {self : Nat} {l l' : List Nat} {s s' : Memory}
    (h : Frame self l s s') (hl : ∀ z, z ∈ l → z ∈ l') : Frame self l' s s' :=
  { h with next := fun z hz => h.next z (fun hm => hz (hl z hm)),
           prev := fun z hz => h.prev z (fun hm => hz (hl z hm)) }

/-- A member of a well-formed list is linked to a member behind it. -/
theorem holds_adj_next {s : Memory} {self : Nat} {l : List Nat} (h : Holds s self l)
    {n : Nat} (hn : n ∈ l) : ∃ b, b ∈ l ∧ Adj s n b := by
  obtain ⟨l₁, l₂, rfl⟩ := List.append_of_mem hn
  have hc : Circular s ((l₂ ++ l₁) ++ [n]) := by
    have := circular_rotate (l₁ ++ [n]) (l₂) (by simpa using h.2.1)
    simpa using this
  cases hm : (l₂ ++ l₁ ++ [n]).head? with
  | none => simp at hm
  | some b =>
    refine ⟨b, ?_, circular_wrap hc hm⟩
    have := List.mem_of_mem_head? hm
    simp at this ⊢; tauto

/-- The `next` of a member of a well-formed list is a member. -/
theorem holds_next_ne_none {s : Memory} {self : Nat} {l : List Nat} (h : Holds s self l)
    {n : Nat} (hn : n ∈ l) : ∃ b, b ∈ l ∧ s.next n = some b := by
  obtain ⟨b, hb, hadj⟩ := holds_adj_next h hn
  exact ⟨b, hb, hadj.1⟩

/-- A member of a well-formed list is linked to a member before it. -/
theorem holds_adj_prev {s : Memory} {self : Nat} {l : List Nat} (h : Holds s self l)
    {n : Nat} (hn : n ∈ l) : ∃ p, p ∈ l ∧ Adj s p n := by
  obtain ⟨l₁, l₂, rfl⟩ := List.append_of_mem hn
  have hc : Circular s (n :: (l₂ ++ l₁)) := by
    have := circular_rotate (l₁) (n :: l₂) h.2.1
    simpa using this
  rcases List.eq_nil_or_concat' (l₂ ++ l₁) with hm | ⟨m, p, hm⟩
  · rw [hm] at hc
    exact ⟨n, by simp, circular_wrap (m := []) hc rfl⟩
  · rw [hm] at hc
    have hc' : Circular s ((n :: m) ++ [p]) := by simpa using hc
    refine ⟨p, ?_, circular_wrap hc' rfl⟩
    have : p ∈ l₂ ++ l₁ := by rw [hm]; simp
    simp at this ⊢; tauto

/-- The `prev` of a member of a well-formed list is a member. -/
theorem holds_prev_ne_none {s : Memory} {self : Nat} {l : List Nat} (h : Holds s self l)
    {n : Nat} (hn : n ∈ l) : ∃ p, p ∈ l ∧ s.prev n = some p := by
  obtain ⟨p, hp, hadj⟩ := holds_adj_prev h hn
  exact ⟨p, hp, hadj.2⟩

/-- Removal of a member: the list holds the other nodes in the same order and
the removed node is unlinked. -/
theorem remove_member {s : Memory} {self : Nat} {l : List Nat} (h : Holds s self l)
    {n : Nat} (hn : n ∈ l) :
    ∃ s', Double_list.remove self n s = .ok s' ∧ Holds s' self (l.erase n) ∧
      s'.next n = none ∧ s'.prev n = none ∧ Frame self l s s' ∧ s'.calls = s.calls := by
  obtain ⟨hnd, hcirc, hhead, hcount⟩ := h
  obtain ⟨l₁, l₂, rfl⟩ := List.append_of_mem hn
  have hn1 : n ∉ l₁ := by
    intro hm; simp [List.nodup_append] at hnd; tauto
  have hn2 : n ∉ l₂ := by
    intro hm; simp [List.nodup_append] at hnd; tauto
  have herase : (l₁ ++ n :: l₂).erase n = l₁ ++ l₂ := by
    rw [List.erase_append_right _ hn1]; simp
  rw [herase]
  have hrot : Circular s ((l₂ ++ l₁) ++ [n]) := by
    have := circular_rotate (l₁ ++ [n]) (l₂) (by simpa using hcirc)
    simpa using this
  have hndrot : ((l₂ ++ l₁) ++ [n]).Nodup := by
    have h1 : ((l₁ ++ [n]) ++ l₂).Nodup := by simpa using hnd
    have h2 := List.nodup_append_comm.1 h1
    simpa using h2
  rcases List.eq_nil_or_concat' (l₂ ++ l₁) with hm | ⟨m, p, hm⟩
  · -- the only node of the list
    have h1 : l₁ = [] := by
      cases l₁ <;> simp_all
    have h2 : l₂ = [] := by
      cases l₂ <;> simp_all
    subst h1; subst h2
    have hadj : Adj s n n := circular_wrap (m := []) (by simpa using hcirc) rfl
    refine ⟨_, remove_single (by simp [hadj.1]) (by simpa using hcount), ?_, ?_, ?_, ?_, rfl⟩
    · simp [Holds, circular_nil]
    · simp
    · simp
    · constructor <;> simp <;> intro z hz <;> simp [Function.update, hz]
  · rw [hm] at hrot hndrot
    have hpn : Adj s p n := circular_adj_last (by simpa using hrot)
    cases hhd : (m ++ [p] ++ [n]).head? with
    | none => simp at hhd
    | some b =>
      have hnb : Adj s n b := circular_wrap hrot hhd
      have hpne : p ≠ n := by
        intro e; subst e; simp [List.nodup_append] at hndrot
      have hcnt : 1 < s.count_ self := by
        have : (l₂ ++ l₁).length = m.length + 1 := by rw [hm]; simp
        simp at this hcount; omega
      refine ⟨_, remove_many hnb.1 hpn.2 hpne hcnt, ?_, ?_, ?_, ?_, rfl⟩
      · refine ⟨?_, ?_, ?_, ?_⟩
        · exact herase ▸ hnd.erase n
        · have hc' : Circular _ (m ++ [p]) :=
            circular_remove ({ s with
                head_ := if s.head_ self = some n then Function.update s.head_ self (some b)
                          else s.head_,
                count_ := Function.update s.count_ self (s.count_ self - 1),
                prev := Function.update (Function.update s.prev b (some p)) n none,
                next := Function.update (Function.update s.next p (some b)) n none })
              (by simpa using hrot) (by simpa using hndrot) hnb.1
              (by simp [hnb.1]) (by simp [hpn.2])
          rw [← hm] at hc'
          exact circular_rotate _ _ hc'
        · have hb' : (l₂ ++ l₁ ++ [n]).head? = some b := by rw [hm]; exact hhd
          cases l₁ with
          | nil =>
            have : l₂.head? = some b := by
              cases l₂ with
              | nil => simp at hm
              | cons x t => simpa using hb'
            simp at hhead
            simp [hhead, this]
          | cons x t =>
            have hx : x ≠ n := by
              intro e; subst e; simp at hn1
            simp at hhead
            simp [hhead, hx]
        · simp at hcount ⊢; omega
      · simp
      · simp
      · constructor <;> simp
        · intro z hz1 hzn hz2
          have hzp : z ≠ p := by
            intro e; subst e
            have : z ∈ l₂ ++ l₁ := by rw [hm]; simp
            simp at this; tauto
          simp [Function.update, hzn, hzp]
        · intro z hz1 hzn hz2
          have hzb : z ≠ b := by
            intro e; subst e
            have := List.mem_of_mem_head? hhd
            rw [← hm] at this
            simp at this; tauto
          simp [Function.update, hzn, hzb]
        · intro o ho
          split <;> simp [Function.update, ho]
        · intro o ho
          simp [Function.update, ho]

/-! ## The two `add` functions on a well-formed list -/

/-- The loop of `Waiting_threads_list::add` is the shared backward walk. -/
theorem wadd_loop_eq (s : Memory) (prio : Nat) : ∀ (fuel after : Nat),
    Waiting_threads_list.add_loop s prio fuel after =
      walk_back s (fun a => decide (prio > s.sched_prio (s.thread a))) fuel after
  | 0, after => by
    unfold Waiting_threads_list.add_loop walk_back; simp
  | fuel + 1, after => by
    unfold Waiting_threads_list.add_loop walk_back
    simp only [decide_eq_true_eq]
    split
    · cases h : deref (s.prev after) with
      | error e => rfl
      | ok a => simp [bind, Except.bind, wadd_loop_eq s prio fuel a]
    · rfl

/-- The loop of `Clock_timestamps_list::add` is the shared backward walk. -/
theorem cadd_loop_eq (s : Memory) (ts : Nat) : ∀ (fuel after : Nat),
    Clock_timestamps_list.add_loop s ts fuel after =
      walk_back s (fun a => decide (ts < s.timestamp a)) fuel after
  | 0, after => by
    unfold Clock_timestamps_list.add_loop walk_back; simp
  | fuel + 1, after => by
    unfold Clock_timestamps_list.add_loop walk_back
    simp only [decide_eq_true_eq]
    split
    · cases h : deref (s.prev after) with
      | error e => rfl
      | ok a => simp [bind, Except.bind, cadd_loop_eq s ts fuel a]
    · rfl

/-- The function `Waiting_threads_list::add` in terms of the shared `position` and `link`. -/
theorem wadd_eq (fuel self node : Nat) (s : Memory) :
    Waiting_threads_list.add fuel self node s =
      if s.head_ self = none then .ok (link_first self node s)
      else
        (position (fun a => decide (s.sched_prio (s.thread node) > s.sched_prio (s.thread a)))
          fuel self s) >>= fun r => link self node r.2 r.1 s := by
  unfold Waiting_threads_list.add
  by_cases hh : s.head_ self = none
  · rw [if_pos hh, if_pos hh]; rfl
  · rw [if_neg hh, if_neg hh]
    obtain ⟨h, hh⟩ := Option.ne_none_iff_exists'.1 hh
    simp only [hh, deref, position, Double_list.head, wadd_loop_eq, bind, Except.bind, pure,
      Except.pure]
    cases hp : s.prev h with
    | none => rfl
    | some t =>
      simp only []
      by_cases h1 : s.sched_prio (s.thread node) ≤ s.sched_prio (s.thread t)
      · simp [h1, link, deref, bind, Except.bind, pure, Except.pure]
      · by_cases h2 : s.sched_prio (s.thread node) > s.sched_prio (s.thread h)
        · simp [h1, h2, link, deref, bind, Except.bind, pure, Except.pure, not_le.1 h1]
        · simp only [h1, h2, not_le.1 h1]
          simp
          cases walk_back s (fun a => decide (s.sched_prio (s.thread a) <
              s.sched_prio (s.thread node))) fuel t with
          | error e => rfl
          | ok a => simp [link, deref, bind, Except.bind, pure, Except.pure]

/-- The function `Clock_timestamps_list::add` in terms of the shared `position` and `link`,
with its assertion in between. -/
theorem cadd_eq (ndebug : Bool) (fuel self node : Nat) (s : Memory) :
    Clock_timestamps_list.add ndebug fuel self node s =
      if s.head_ self = none then .ok (link_first self node s)
      else
        (position (fun a => decide (s.timestamp node < s.timestamp a)) fuel self s) >>=
          fun r => if !ndebug && s.timestamp r.2 == 0 then .error .assertion
            else link self node r.2 r.1 s := by
  unfold Clock_timestamps_list.add
  by_cases hh : s.head_ self = none
  · rw [if_pos hh, if_pos hh]; rfl
  · rw [if_neg hh, if_neg hh]
    obtain ⟨h, hh⟩ := Option.ne_none_iff_exists'.1 hh
    simp only [hh, deref, position, Double_list.head, cadd_loop_eq, bind, Except.bind, pure,
      Except.pure]
    cases hp : s.prev h with
    | none => rfl
    | some t =>
      simp only []
      by_cases h1 : s.timestamp node ≥ s.timestamp t
      · by_cases ha : (!ndebug && s.timestamp t == 0) = true
        · simp [h1, ha]
        · simp [h1, ha, link, deref, bind, Except.bind, pure, Except.pure]
      · by_cases h2 : s.timestamp node < s.timestamp h
        · by_cases ha : (!ndebug && s.timestamp t == 0) = true
          · simp [h1, h2, ha, not_le.1 h1]
          · simp [h1, h2, ha, link, deref, bind, Except.bind, pure, Except.pure, not_le.1 h1]
        · simp only [h1, h2, not_le.1 h1]
          simp
          cases walk_back s (fun a => decide (s.timestamp node < s.timestamp a)) fuel t with
          | error e => rfl
          | ok a => simp [link, deref, bind, Except.bind, pure, Except.pure]

/-- The backward walk over nodes `w` the new node goes before, each linked by `prev` to the
next one, stops at the node `a` behind them within `w.length` steps. -/
theorem walk_back_spec {s : Memory} {go : Nat → Bool} {a : Nat} (ha : go a = false) :
    ∀ (w : List Nat) (fuel : Nat),
      List.Chain' (fun x y => s.prev x = some y) (w ++ [a]) → (∀ x ∈ w, go x = true) →
      w.length ≤ fuel → walk_back s go fuel (w.head?.getD a) = .ok a
  | [], fuel, _, _, _ => by
    unfold walk_back; simp [ha]
  | x :: w, 0, _, _, hf => by simp at hf
  | x :: w, fuel + 1, hc, hgo, hf => by
    have hx : go x = true := hgo x (by simp)
    have hc' : List.Chain' (fun x y => s.prev x = some y) (x :: (w ++ [a])) := by simpa using hc
    rw [List.chain'_cons'] at hc'
    have hp : s.prev x = some (w.head?.getD a) := by
      apply hc'.1
      cases w <;> simp
    have ih := walk_back_spec ha w fuel hc'.2 (fun y hy => hgo y (by simp [hy]))
      (by simpa using hf)
    unfold walk_back
    simp [hx, hp, deref, bind, Except.bind, ih]

/-- A list with a node the new node does not go before splits at the last such node. -/
theorem exists_last_stop (go : Nat → Bool) : ∀ (l : List Nat), (∃ x ∈ l, go x = false) →
    ∃ l₁ a l₂, l = l₁ ++ a :: l₂ ∧ go a = false ∧ ∀ x ∈ l₂, go x = true
  | [], h => by simp at h
  | x :: l, h => by
    by_cases hl : ∃ y ∈ l, go y = false
    · obtain ⟨l₁, a, l₂, rfl, ha, h2⟩ := exists_last_stop go l hl
      exact ⟨x :: l₁, a, l₂, rfl, ha, h2⟩
    · refine ⟨[], x, l, rfl, ?_, ?_⟩
      · obtain ⟨y, hy, hgy⟩ := h
        rcases List.mem_cons.1 hy with rfl | hy'
        · exact hgy
        · exact absurd ⟨y, hy', hgy⟩ hl
      · intro y hy
        by_contra hg
        exact hl ⟨y, hy, by simpa using hg⟩

/-- The place chosen in a well-formed non-empty list: the node `after` is a
member; either the new node becomes the head, in which case `after` is the
tail and the new node goes before the old head, or `after` is the last node
the new node does not go before. -/
theorem position_spec {s : Memory} {self : Nat} {l : List Nat} (h : Holds s self l)
    (hne : l ≠ []) (go : Nat → Bool) {fuel : Nat} (hf : l.length ≤ fuel + 1) :
    ∃ front a l₁ l₂, position go fuel self s = .ok (front, a) ∧ l = l₁ ++ a :: l₂ ∧
      (front = true → l₂ = [] ∧ ∀ x ∈ l.head?, go x = true) ∧
      (front = false → go a = false ∧ ∀ x ∈ l₂, go x = true) := by
  obtain ⟨hnd, hcirc, hhead, hcount⟩ := h
  rcases List.eq_nil_or_concat' l with hl | ⟨q, t, hl⟩
  · exact absurd hl hne
  · subst hl
    cases hhd : (q ++ [t]).head? with
    | none => simp at hhd
    | some hd =>
      have hwrap : Adj s t hd := circular_wrap hcirc hhd
      rw [hhd] at hhead
      by_cases h1 : go t = true
      · by_cases h2 : go hd = true
        · refine ⟨true, t, q, [], ?_, rfl, ?_, ?_⟩
          · simp [position, hhead, hwrap.2, deref, bind, Except.bind, pure, Except.pure, h1, h2]
          · intro _; exact ⟨rfl, by simp [h2]⟩
          · intro hc; simp at hc
        · have hex : ∃ x ∈ q ++ [t], go x = false :=
            ⟨hd, List.mem_of_mem_head? hhd, by simpa using h2⟩
          obtain ⟨l₁, a, l₂, hl, ha, hl₂⟩ := exists_last_stop go _ hex
          have hch : List.Chain' (Adj s) (q ++ [t]) := by
            have := hcirc; unfold Circular at this
            exact this.left_of_append
          have hch2 : List.Chain' (Adj s) (a :: l₂) := by
            rw [hl] at hch; exact hch.right_of_append
          have hch3 : List.Chain' (fun x y => s.prev x = some y) (l₂.reverse ++ [a]) := by
            have h3 : List.Chain' (flip (Adj s)) ((a :: l₂).reverse) :=
              List.chain'_reverse.2 (by simpa [flip] using hch2)
            have h4 : List.Chain' (flip (Adj s)) (l₂.reverse ++ [a]) := by simpa using h3
            exact h4.imp (fun x y hxy => hxy.2)
          have hstart : l₂.reverse.head?.getD a = t := by
            rcases List.eq_nil_or_concat' l₂ with e | ⟨q', t', e⟩
            · subst e
              have : q ++ [t] = l₁ ++ [a] := hl
              have := List.append_inj_right' this rfl
              simp at this ⊢; exact this.symm
            · subst e
              have : q ++ [t] = (l₁ ++ a :: q') ++ [t'] := by simpa using hl
              have := List.append_inj_right' this rfl
              simp at this ⊢; exact this.symm
          have hlen : l₂.reverse.length ≤ fuel := by
            have : (q ++ [t]).length = (l₁ ++ a :: l₂).length := by rw [hl]
            simp at this hf ⊢; omega
          have hw := walk_back_spec (s := s) ha l₂.reverse fuel hch3
            (fun x hx => hl₂ x (by simpa using hx)) hlen
          rw [hstart] at hw
          refine ⟨false, a, l₁, l₂, ?_, hl, ?_, ?_⟩
          · simp [position, hhead, hwrap.2, deref, bind, Except.bind, pure, Except.pure, h1, h2,
              hw]
          · intro hc; simp at hc
          · intro _; exact ⟨ha, hl₂⟩
      · refine ⟨false, t, q, [], ?_, rfl, ?_, ?_⟩
        · simp [position, hhead, hwrap.2, deref, bind, Except.bind, pure, Except.pure, h1]
        · intro hc; simp at hc
        · intro _; exact ⟨by simpa using h1, by simp⟩

/-- The result of the writes of `link` when `after` has a successor. -/
theorem link_eval {s : Memory} {self n a b : Nat} (front : Bool) (hb : s.next a = some b)
    (hna : n ≠ a) :
    link self n a front s = .ok
      { s with head_ := if front then Function.update s.head_ self (some n) else s.head_,
               prev := Function.update (Function.update s.prev n (some a)) b (some n),
               next := Function.update (Function.update s.next n (some b)) a (some n),
               count_ := Function.update s.count_ self (s.count_ self + 1) } := by
  cases front <;>
    simp [link, hb, deref, bind, Except.bind, pure, Except.pure, Function.update, hna.symm]

/-- Linking an unlinked node after a member `a`: the node follows `a` in the
ring; when it becomes the head it is listed first. -/
theorem link_spec {s : Memory} {self : Nat} {l₁ l₂ : List Nat} {a n : Nat}
    (h : Holds s self (l₁ ++ a :: l₂)) (hn : n ∉ l₁ ++ a :: l₂) (front : Bool)
    (hfront : front = true → l₂ = []) :
    ∃ s', link self n a front s = .ok s' ∧
      Holds s' self (if front then n :: (l₁ ++ [a]) else l₁ ++ a :: n :: l₂) ∧
      Frame self (n :: (l₁ ++ a :: l₂)) s s' ∧ s'.calls = s.calls := by
  obtain ⟨hnd, hcirc, hhead, hcount⟩ := h
  have hna : n ≠ a := by
    intro e; apply hn; simp [e]
  have hn1 : n ∉ l₁ := fun hm => hn (by simp [hm])
  have hn2 : n ∉ l₂ := fun hm => hn (by simp [hm])
  have hrot : Circular s ((l₂ ++ l₁) ++ [a]) := by
    have := circular_rotate (l₁ ++ [a]) (l₂) (by simpa using hcirc)
    simpa using this
  have hndrot : ((l₂ ++ l₁) ++ [a]).Nodup := by
    have h1 : ((l₁ ++ [a]) ++ l₂).Nodup := by simpa using hnd
    have h2 := List.nodup_append_comm.1 h1
    simpa using h2
  cases hhd : (l₂ ++ l₁ ++ [a]).head? with
  | none => simp at hhd
  | some b =>
    have hab : Adj s a b := circular_wrap hrot hhd
    have hbl : b ∈ l₁ ++ a :: l₂ := by
      have := List.mem_of_mem_head? hhd
      simp at this ⊢; tauto
    have hnrot : n ∉ (l₂ ++ l₁) ++ [a] := by
      simp [hn1, hn2, hna]
    have hcirc' : Circular
        { s with head_ := if front then Function.update s.head_ self (some n) else s.head_,
                 prev := Function.update (Function.update s.prev n (some a)) b (some n),
                 next := Function.update (Function.update s.next n (some b)) a (some n),
                 count_ := Function.update s.count_ self (s.count_ self + 1) }
        ((l₂ ++ l₁) ++ [a, n]) :=
      circular_insert hrot hndrot hnrot hab.1 (by simp [hab.1]) (by simp)
    refine ⟨_, link_eval front hab.1 hna, ?_, ?_, rfl⟩
    · cases front with
      | true =>
        have hl₂ : l₂ = [] := hfront rfl
        subst hl₂
        simp only [if_true]
        refine ⟨?_, ?_, ?_, ?_⟩
        · apply List.nodup_cons.2
          refine ⟨by simpa using ⟨hn1, hna⟩, by simpa using hnd⟩
        · have := circular_rotate (l₁ ++ [a]) ([n]) (by simpa using hcirc')
          simpa using this
        · simp
        · simp at hcount ⊢; omega
      | false =>
        simp only [Bool.false_eq_true, if_false]
        refine ⟨?_, ?_, ?_, ?_⟩
        · have h1 : (l₁ ++ a :: l₂).Nodup := hnd
          simp [List.nodup_append, hn1, hn2, hna, Ne.symm hna] at h1 ⊢
          tauto
        · have := circular_rotate (l₂) (l₁ ++ [a, n]) (by simpa using hcirc')
          simpa using this
        · simp [hhead]
        · simp at hcount ⊢; omega
    · constructor <;> simp
      · intro z hzn hz1 hza hz2
        simp [Function.update, hzn, hza]
      · intro z hzn hz1 hza hz2
        have hzb : z ≠ b := by
          intro e; subst e; simp at hbl; tauto
        simp [Function.update, hzn, hzb]
      · intro o ho
        split <;> simp [Function.update, ho]
      · intro o ho
        simp [Function.update, ho]

/-- The first node of a list forms a ring of one node. -/
theorem link_first_spec (s : Memory) (self : Nat) (n : Nat) :
    Holds (link_first self n s) self [n] ∧ Frame self [n] s (link_first self n s) ∧
      (link_first self n s).calls = s.calls := by
  refine ⟨⟨by simp, ?_, by simp [link_first], by simp [link_first]⟩, ?_, rfl⟩
  · simp [Circular, Adj, link_first]
  · constructor <;> simp [link_first]
    · intro z hz; simp [Function.update, hz]
    · intro z hz; simp [Function.update, hz]
    · intro o ho; simp [Function.update, ho]
    · intro o ho; simp [Function.update, ho]

/-- The shared part of `add` on a well-formed non-empty list returns, and inserts the node
at a place described by `Placed`. -/
theorem place_spec {s : Memory} {self : Nat} {l : List Nat} (h : Holds s self l)
    (hne : l ≠ []) {n : Nat} (hn : n ∉ l) (go : Nat → Bool) {fuel : Nat}
    (hf : l.length ≤ fuel + 1) :
    ∃ front a s' l₁ l₂, position go fuel self s = .ok (front, a) ∧
      link self n a front s = .ok s' ∧ a ∈ l ∧ l = l₁ ++ l₂ ∧ Holds s' self (l₁ ++ n :: l₂) ∧
      Frame self (n :: l) s s' ∧ s'.calls = s.calls ∧ Placed go l₁ l₂ := by
  obtain ⟨front, a, l₁, l₂, hpos, hl, hfr, hnf⟩ := position_spec h hne go hf
  subst hl
  obtain ⟨s', hlink, hholds, hframe, hcalls⟩ :=
    link_spec h hn front (fun hf => (hfr hf).1)
  cases front with
  | true =>
    obtain ⟨hl₂, hgo⟩ := hfr rfl
    subst hl₂
    refine ⟨true, a, s', [], l₁ ++ [a], hpos, hlink, by simp, by simp, ?_, hframe, hcalls, ?_⟩
    · simpa using hholds
    · exact Or.inl ⟨rfl, hgo⟩
  | false =>
    obtain ⟨hga, hgo⟩ := hnf rfl
    refine ⟨false, a, s', l₁ ++ [a], l₂, hpos, hlink, by simp, by simp, ?_, hframe, hcalls, ?_⟩
    · simpa using hholds
    · exact Or.inr ⟨by simp, by simpa using hga, hgo⟩

/-- The effect of `Waiting_threads_list::add` on a well-formed list. -/
theorem wadd_spec {s : Memory} {self : Nat} {l : List Nat} (h : Holds s self l)
    {n : Nat} (hn : n ∉ l) (fuel : Nat) (hf : l.length ≤ fuel + 1) :
    ∃ s' l₁ l₂, Waiting_threads_list.add fuel self n s = .ok s' ∧ l = l₁ ++ l₂ ∧
      Holds s' self (l₁ ++ n :: l₂) ∧ Frame self (n :: l) s s' ∧ s'.calls = s.calls ∧
      Placed (fun a => decide (s.sched_prio (s.thread n) > s.sched_prio (s.thread a))) l₁ l₂ := by
  rw [wadd_eq]
  cases l with
  | nil =>
    have hh : s.head_ self = none := by simpa using h.2.2.1
    obtain ⟨h1, h2, h3⟩ := link_first_spec s self n
    rw [if_pos hh]
    exact ⟨_, [], [], rfl, rfl, h1, h2, h3, Or.inl ⟨rfl, by simp⟩⟩
  | cons x xs =>
    have hh : s.head_ self ≠ none := by
      have := h.2.2.1; simp at this; simp [this]
    rw [if_neg hh]
    obtain ⟨front, a, s', l₁, l₂, hpos, hlink, -, hl, hholds, hframe, hcalls, hpl⟩ :=
      place_spec h (by simp) hn
        (fun a => decide (s.sched_prio (s.thread n) > s.sched_prio (s.thread a))) hf
    refine ⟨s', l₁, l₂, ?_, hl, hholds, hframe, hcalls, hpl⟩
    simp [hpos, bind, Except.bind, hlink]

/-- The effect of `Clock_timestamps_list::add` on a well-formed list: the
place is found without a fault; the call then either fails its assertion, on
a node `after` with timestamp zero, or links the node. -/
theorem cadd_spec {s : Memory} {self : Nat} {l : List Nat} (h : Holds s self l)
    {n : Nat} (hn : n ∉ l) (ndebug : Bool) (fuel : Nat) (hf : l.length ≤ fuel + 1) :
    (∃ s' l₁ l₂, Clock_timestamps_list.add ndebug fuel self n s = .ok s' ∧ l = l₁ ++ l₂ ∧
      Holds s' self (l₁ ++ n :: l₂) ∧ Frame self (n :: l) s s' ∧ s'.calls = s.calls ∧
      Placed (fun a => decide (s.timestamp n < s.timestamp a)) l₁ l₂) ∨
    (Clock_timestamps_list.add ndebug fuel self n s = .error .assertion ∧ ndebug = false ∧
      ∃ a ∈ l, s.timestamp a = 0) := by
  rw [cadd_eq]
  cases l with
  | nil =>
    have hh : s.head_ self = none := by simpa using h.2.2.1
    obtain ⟨h1, h2, h3⟩ := link_first_spec s self n
    rw [if_pos hh]
    exact Or.inl ⟨_, [], [], rfl, rfl, h1, h2, h3, Or.inl ⟨rfl, by simp⟩⟩
  | cons x xs =>
    have hh : s.head_ self ≠ none := by
      have := h.2.2.1; simp at this; simp [this]
    rw [if_neg hh]
    obtain ⟨front, a, s', l₁, l₂, hpos, hlink, ha, hl, hholds, hframe, hcalls, hpl⟩ :=
      place_spec h (by simp) hn (fun a => decide (s.timestamp n < s.timestamp a)) hf
    by_cases hassert : (!ndebug && s.timestamp a == 0) = true
    · right
      simp at hassert
      refine ⟨?_, hassert.1, a, ha, hassert.2⟩
      simp [hpos, bind, Except.bind, hassert]
    · left
      refine ⟨s', l₁, l₂, ?_, hl, hholds, hframe, hcalls, hpl⟩
      simp only [hpos, bind, Except.bind]
      rw [if_neg hassert]; exact hlink

/-! ## Fuel and traversal -/

/-- More fuel does not change the result of the backward walk. -/
theorem walk_back_mono {s : Memory} {go : Nat → Bool} {r : Nat} :
    ∀ (f f' a : Nat), walk_back s go f a = .ok r → f ≤ f' → walk_back s go f' a = .ok r
  | 0, f', a, h, _ => by
    unfold walk_back at h ⊢
    by_cases hg : go a = true
    · simp [hg] at h
    · simpa [hg] using h
  | f + 1, 0, a, _, hle => by simp at hle
  | f + 1, f' + 1, a, h, hle => by
    unfold walk_back at h ⊢
    by_cases hg : go a = true
    · simp only [hg, if_true] at h ⊢
      cases hp : deref (s.prev a) with
      | error e => simp [hp, bind, Except.bind] at h
      | ok p =>
        simp only [hp, bind, Except.bind] at h ⊢
        exact walk_back_mono f f' p h (by omega)
    · simpa [hg] using h

/-- More fuel does not change the place chosen. -/
theorem position_mono {s : Memory} {go : Nat → Bool} {self : Nat} {r : Bool × Nat}
    {f f' : Nat} (h : position go f self s = .ok r) (hle : f ≤ f') :
    position go f' self s = .ok r := by
  unfold position at h ⊢
  cases hd : deref (s.head_ self) with
  | error e => simp [hd, bind, Except.bind] at h
  | ok x =>
    cases hp : deref (s.prev x) with
    | error e => simp [hd, hp, bind, Except.bind] at h
    | ok t =>
      simp only [hd, hp, bind, Except.bind] at h ⊢
      by_cases h1 : (!go t) = true
      · simpa [h1] using h
      · by_cases h2 : go x = true
        · simpa [h1, h2] using h
        · simp only [h1, h2, if_false, Bool.false_eq_true] at h ⊢
          cases hw : walk_back s go f t with
          | error e => simp [hw] at h
          | ok a =>
            rw [walk_back_mono f f' t hw hle]
            simpa [hw] using h

/-- More fuel does not change the result of `Waiting_threads_list::add`. -/
theorem wadd_mono {s s' : Memory} {self n f f' : Nat}
    (h : Waiting_threads_list.add f self n s = .ok s') (hle : f ≤ f') :
    Waiting_threads_list.add f' self n s = .ok s' := by
  rw [wadd_eq] at h ⊢
  by_cases hh : s.head_ self = none
  · simpa [hh] using h
  · simp only [hh, if_false] at h ⊢
    cases hp : position (fun a => decide (s.sched_prio (s.thread n) > s.sched_prio (s.thread a)))
        f self s with
    | error e => simp [hp, bind, Except.bind] at h
    | ok r =>
      rw [position_mono hp hle]
      simpa [hp, bind, Except.bind] using h

/-- More fuel does not change the result of `Clock_timestamps_list::add`. -/
theorem cadd_mono {s s' : Memory} {ndebug : Bool} {self n f f' : Nat}
    (h : Clock_timestamps_list.add ndebug f self n s = .ok s') (hle : f ≤ f') :
    Clock_timestamps_list.add ndebug f' self n s = .ok s' := by
  rw [cadd_eq] at h ⊢
  by_cases hh : s.head_ self = none
  · simpa [hh] using h
  · simp only [hh, if_false] at h ⊢
    cases hp : position (fun a => decide (s.timestamp n < s.timestamp a)) f self s with
    | error e => simp [hp, bind, Except.bind] at h
    | ok r =>
      rw [position_mono hp hle]
      simpa [hp, bind, Except.bind] using h

/-- Following `next` along a chain of links meets its nodes in order. -/
theorem follow_chain {s : Memory} : ∀ (l : List Nat) (x : Nat), List.Chain' (Adj s) (x :: l) →
    follow s (l.length + 1) (some x) = some (x :: l)
  | [], x, _ => by simp [follow]
  | y :: l, x, h => by
    rw [List.chain'_cons] at h
    have ih := follow_chain l y h.2
    simp only [List.length_cons] at ih ⊢
    rw [follow, h.1.1, ih]; rfl

/-- A well-formed list is traversed in the order of its nodes. -/
theorem holds_traverse {s : Memory} {self : Nat} {l : List Nat} (h : Holds s self l) :
    traverse self s = some l := by
  obtain ⟨-, hcirc, hhead, hcount⟩ := h
  unfold traverse
  cases l with
  | nil => simp [hcount, follow]
  | cons x xs =>
    have hch : List.Chain' (Adj s) (x :: xs) := by
      have := hcirc; unfold Circular at this
      exact this.left_of_append
    rw [hcount, hhead]
    exact follow_chain xs x hch

/-- A list holds one sequence of nodes only. -/
theorem holds_unique {s : Memory} {self : Nat} {l l' : List Nat} (h : Holds s self l)
    (h' : Holds s self l') : l = l' := by
  have h1 := holds_traverse h
  have h2 := holds_traverse h'
  rw [h1] at h2; exact Option.some.inj h2

/-! ## Invariants of the reachable memories -/

/-- A memory with all nodes unlinked and an empty list `self`. -/
theorem owns_init {s : Memory} {self : Nat} (h1 : ∀ n, s.next n = none)
    (h2 : s.head_ self = none) (h3 : s.count_ self = 0) : Owns s self [] :=
  ⟨⟨List.nodup_nil, circular_nil s, by simpa using h2, by simpa using h3⟩,
    fun n hn => absurd (h1 n) hn⟩

/-- An unlinked node is not in the list. -/
theorem owns_not_mem {s : Memory} {self : Nat} {l : List Nat} (h : Owns s self l) {n : Nat}
    (hn : s.next n = none) : n ∉ l := by
  intro hm
  obtain ⟨b, -, hb⟩ := holds_next_ne_none h.1 hm
  rw [hn] at hb; cases hb

/-- The step of `Waiting_threads_list::add` for the invariant `Owns`. -/
theorem owns_waiting_add {s s' : Memory} {self : Nat} {l : List Nat} (h : Owns s self l)
    {fuel n : Nat} (hn : s.next n = none)
    (hadd : Waiting_threads_list.add fuel self n s = .ok s') :
    ∃ l₁ l₂, l = l₁ ++ l₂ ∧ Owns s' self (l₁ ++ n :: l₂) ∧ Frame self (n :: l) s s' ∧
      s'.calls = s.calls ∧
      Placed (fun a => decide (s.sched_prio (s.thread n) > s.sched_prio (s.thread a))) l₁ l₂ := by
  have hnl := owns_not_mem h hn
  obtain ⟨s'', l₁, l₂, hadd', hl, hholds, hframe, hcalls, hpl⟩ :=
    wadd_spec h.1 hnl (max fuel l.length) (by omega)
  have := wadd_mono hadd (le_max_left fuel l.length)
  rw [this] at hadd'
  cases hadd'
  refine ⟨l₁, l₂, hl, ⟨hholds, ?_⟩, hframe, hcalls, hpl⟩
  intro z hz
  by_cases hzl : z ∈ n :: l
  · subst hl; simp at hzl ⊢; tauto
  · rw [hframe.next z hzl] at hz
    exact absurd (h.2 z hz) (fun hm => hzl (by simp [hm]))

/-- The step of `Clock_timestamps_list::add` for the invariant `Owns`. -/
theorem owns_clock_add {s s' : Memory} {self : Nat} {l : List Nat} (h : Owns s self l)
    {ndebug : Bool} {fuel n : Nat} (hn : s.next n = none)
    (hadd : Clock_timestamps_list.add ndebug fuel self n s = .ok s') :
    ∃ l₁ l₂, l = l₁ ++ l₂ ∧ Owns s' self (l₁ ++ n :: l₂) ∧ Frame self (n :: l) s s' ∧
      s'.calls = s.calls ∧
      Placed (fun a => decide (s.timestamp n < s.timestamp a)) l₁ l₂ := by
  have hnl := owns_not_mem h hn
  have hm := cadd_mono hadd (le_max_left fuel l.length)
  rcases cadd_spec h.1 hnl ndebug (max fuel l.length) (by omega) with
    ⟨s'', l₁, l₂, hadd', hl, hholds, hframe, hcalls, hpl⟩ | ⟨herr, -⟩
  · rw [hm] at hadd'
    cases hadd'
    refine ⟨l₁, l₂, hl, ⟨hholds, ?_⟩, hframe, hcalls, hpl⟩
    intro z hz
    by_cases hzl : z ∈ n :: l
    · subst hl; simp at hzl ⊢; tauto
    · rw [hframe.next z hzl] at hz
      exact absurd (h.2 z hz) (fun hm => hzl (by simp [hm]))
  · rw [hm] at herr; cases herr

/-- The step of `Double_list::remove` for the invariant `Owns`. -/
theorem owns_remove {s s' : Memory} {self : Nat} {l : List Nat} (h : Owns s self l)
    {n : Nat} (hrem : Double_list.remove self n s = .ok s') :
    Owns s' self (l.erase n) ∧ Frame self l s s' ∧ s'.calls = s.calls ∧ s'.next n = none := by
  by_cases hn : s.next n = none
  · rw [remove_unlinked hn] at hrem
    cases hrem
    have hnl := owns_not_mem h hn
    rw [List.erase_of_not_mem hnl]
    exact ⟨h, Frame.refl _ _ _, rfl, hn⟩
  · have hm := h.2 n hn
    obtain ⟨s'', hrem', hholds, hnext, -, hframe, hcalls⟩ := remove_member h.1 hm
    rw [hrem] at hrem'
    cases hrem'
    refine ⟨⟨hholds, ?_⟩, hframe, hcalls, hnext⟩
    intro z hz
    by_cases hzl : z ∈ l
    · have hzn : z ≠ n := by
        rintro rfl; exact hz hnext
      exact (List.mem_erase_of_ne hzn).2 hzl
    · rw [hframe.next z hzl] at hz
      exact absurd (h.2 z hz) hzl

/-- In a sorted list a node placed by `add` has before it only nodes it does not go before and
behind it only nodes it goes before. -/
theorem placed_split {R : Nat → Nat → Prop} {go : Nat → Bool} {l₁ l₂ : List Nat}
    (H1 : ∀ x y, R x y → go x = true → go y = true)
    (hp : (l₁ ++ l₂).Pairwise R) (hpl : Placed go l₁ l₂) :
    (∀ x ∈ l₁, go x = false) ∧ (∀ x ∈ l₂, go x = true) := by
  rcases hpl with ⟨rfl, hgo⟩ | ⟨hne, hlast, hgo⟩
  · refine ⟨by simp, ?_⟩
    cases l₂ with
    | nil => simp
    | cons h t =>
      have hh : go h = true := hgo h (by simp)
      intro x hx
      rcases List.mem_cons.1 hx with rfl | hx'
      · exact hh
      · exact H1 h x (List.rel_of_pairwise_cons (by simpa using hp) hx') hh
  · refine ⟨?_, hgo⟩
    rcases List.eq_nil_or_concat' l₁ with e | ⟨q, a, e⟩
    · exact absurd e hne
    · subst e
      have ha : go a = false := hlast a (by simp)
      intro x hx
      rcases List.mem_append.1 hx with hq | hxa
      · by_contra hg
        have hgx : go x = true := by simpa using hg
        have hR : R x a := by
          have h1 : (q ++ [a]).Pairwise R := (List.pairwise_append.1 hp).1
          exact (List.pairwise_append.1 h1).2.2 x hq a (by simp)
        rw [H1 x a hR hgx] at ha; cases ha
      · simp at hxa; subst hxa; exact ha

/-- A sorted list with a node placed by `add` is sorted. -/
theorem placed_pairwise {R : Nat → Nat → Prop} {go : Nat → Bool} {l₁ l₂ : List Nat} {n : Nat}
    (H1 : ∀ x y, R x y → go x = true → go y = true)
    (H2 : ∀ x, go x = true → R n x) (H3 : ∀ x, go x = false → R x n)
    (hp : (l₁ ++ l₂).Pairwise R) (hpl : Placed go l₁ l₂) :
    (l₁ ++ n :: l₂).Pairwise R := by
  obtain ⟨h1, h2⟩ := placed_split H1 hp hpl
  rw [List.pairwise_append] at hp ⊢
  refine ⟨hp.1, List.pairwise_cons.2 ⟨fun y hy => H2 y (h2 y hy), hp.2.1⟩, ?_⟩
  intro x hx y hy
  rcases List.mem_cons.1 hy with rfl | hy'
  · exact H3 x (h1 x hx)
  · exact hp.2.2 x hx y hy'

/-- The function `Waiting_threads_list::add` keeps the list sorted by priority and puts the
node behind the nodes of at least its priority. -/
theorem waiting_add_sorted {s s' : Memory} {self : Nat} {l : List Nat} (h : Owns s self l)
    (hs : l.Pairwise (fun u v => s.sched_prio (s.thread u) ≥ s.sched_prio (s.thread v)))
    {fuel n : Nat} (hn : s.next n = none)
    (hadd : Waiting_threads_list.add fuel self n s = .ok s') :
    ∃ l₁ l₂, l = l₁ ++ l₂ ∧ Owns s' self (l₁ ++ n :: l₂) ∧
      (l₁ ++ n :: l₂).Pairwise
        (fun u v => s'.sched_prio (s'.thread u) ≥ s'.sched_prio (s'.thread v)) ∧
      (∀ x ∈ l₁, s.sched_prio (s.thread x) ≥ s.sched_prio (s.thread n)) ∧
      (∀ x ∈ l₂, s.sched_prio (s.thread x) < s.sched_prio (s.thread n)) ∧
      Frame self (n :: l) s s' ∧ s'.calls = s.calls := by
  obtain ⟨l₁, l₂, hl, howns, hframe, hcalls, hpl⟩ := owns_waiting_add h hn hadd
  subst hl
  have H1 : ∀ x y, s.sched_prio (s.thread x) ≥ s.sched_prio (s.thread y) →
      (fun a => decide (s.sched_prio (s.thread n) > s.sched_prio (s.thread a))) x = true →
      (fun a => decide (s.sched_prio (s.thread n) > s.sched_prio (s.thread a))) y = true := by
    intro x y hxy hx; simp at hx ⊢; omega
  obtain ⟨h1, h2⟩ := placed_split H1 hs hpl
  refine ⟨l₁, l₂, rfl, howns, ?_, ?_, ?_, hframe, hcalls⟩
  · rw [hframe.sched_prio, hframe.thread]
    exact placed_pairwise H1 (fun x hx => by simp at hx; omega)
      (fun x hx => by simp at hx; omega) hs hpl
  · intro x hx; have := h1 x hx; simp at this; omega
  · intro x hx; have := h2 x hx; simp at this; omega

/-- The function `Clock_timestamps_list::add` keeps the list sorted by timestamp and puts the
node behind the nodes of at most its timestamp. -/
theorem clock_add_sorted {s s' : Memory} {self : Nat} {l : List Nat} (h : Owns s self l)
    (hs : l.Pairwise (fun u v => s.timestamp u ≤ s.timestamp v))
    {ndebug : Bool} {fuel n : Nat} (hn : s.next n = none)
    (hadd : Clock_timestamps_list.add ndebug fuel self n s = .ok s') :
    ∃ l₁ l₂, l = l₁ ++ l₂ ∧ Owns s' self (l₁ ++ n :: l₂) ∧
      (l₁ ++ n :: l₂).Pairwise (fun u v => s'.timestamp u ≤ s'.timestamp v) ∧
      (∀ x ∈ l₁, s.timestamp x ≤ s.timestamp n) ∧
      (∀ x ∈ l₂, s.timestamp n < s.timestamp x) ∧
      Frame self (n :: l) s s' ∧ s'.calls = s.calls := by
  obtain ⟨l₁, l₂, hl, howns, hframe, hcalls, hpl⟩ := owns_clock_add h hn hadd
  subst hl
  have H1 : ∀ x y, s.timestamp x ≤ s.timestamp y →
      (fun a => decide (s.timestamp n < s.timestamp a)) x = true →
      (fun a => decide (s.timestamp n < s.timestamp a)) y = true := by
    intro x y hxy hx; simp at hx ⊢; omega
  obtain ⟨h1, h2⟩ := placed_split H1 hs hpl
  refine ⟨l₁, l₂, rfl, howns, ?_, ?_, ?_, hframe, hcalls⟩
  · rw [hframe.timestamp]
    exact placed_pairwise H1 (fun x hx => by simp at hx; omega)
      (fun x hx => by simp at hx; omega) hs hpl
  · intro x hx; have := h1 x hx; simp at this; omega
  · intro x hx; have := h2 x hx; simp at this; omega

/-- In a memory reached through the waiting-list operations the list is well
formed, no other node is linked, and priorities do not increase from head to
tail. -/
theorem waiting_reach_inv {self : Nat} {s : Memory} (h : Waiting_reach self s) :
    ∃ l, Owns s self l ∧
      l.Pairwise (fun u v => s.sched_prio (s.thread u) ≥ s.sched_prio (s.thread v)) := by
  induction h with
  | init h1 h2 h3 => exact ⟨[], owns_init h1 h2 h3, List.Pairwise.nil⟩
  | add fuel n _ hn hadd ih =>
    obtain ⟨l, howns, hs⟩ := ih
    obtain ⟨l₁, l₂, -, howns', hs', -⟩ := waiting_add_sorted howns hs hn hadd
    exact ⟨_, howns', hs'⟩
  | remove n _ _ hrem ih =>
    obtain ⟨l, howns, hs⟩ := ih
    obtain ⟨howns', hframe, -, -⟩ := owns_remove howns hrem
    refine ⟨_, howns', ?_⟩
    rw [hframe.sched_prio, hframe.thread]
    exact hs.sublist (List.erase_sublist n l)
  | set_prio t p _ hfree ih =>
    obtain ⟨l, howns, hs⟩ := ih
    refine ⟨l, howns, ?_⟩
    have hne : ∀ u ∈ l, _ := fun u hu => holds_next_ne_none howns.1 hu
    refine hs.imp_of_mem ?_
    intro u v hu hv huv
    have hut : _ ≠ t := fun e => by
      obtain ⟨b, -, hb⟩ := hne u hu
      rw [hfree u e] at hb; cases hb
    have hvt : _ ≠ t := fun e => by
      obtain ⟨b, -, hb⟩ := hne v hv
      rw [hfree v e] at hb; cases hb
    simpa [Function.update, hut, hvt] using huv

/-- In a memory reached through the clock-list operations the list is well formed, no other
node is linked, and timestamps do not decrease from head to tail. -/
theorem clock_reach_inv {self : Nat} {s : Memory} (h : Clock_reach self s) :
    ∃ l, Owns s self l ∧ l.Pairwise (fun u v => s.timestamp u ≤ s.timestamp v) := by
  induction h with
  | init h1 h2 h3 => exact ⟨[], owns_init h1 h2 h3, List.Pairwise.nil⟩
  | add ndebug fuel n _ hn hadd ih =>
    obtain ⟨l, howns, hs⟩ := ih
    obtain ⟨l₁, l₂, -, howns', hs', -⟩ := clock_add_sorted howns hs hn hadd
    exact ⟨_, howns', hs'⟩
  | remove n _ _ hrem ih =>
    obtain ⟨l, howns, hs⟩ := ih
    obtain ⟨howns', hframe, -, -⟩ := owns_remove howns hrem
    refine ⟨_, howns', ?_⟩
    rw [hframe.timestamp]
    exact hs.sublist (List.erase_sublist n l)

/-- In a memory reached through add and remove the list is well formed and no other node is
linked. -/
theorem reach_inv {self : Nat} {s : Memory} (h : Reach self s) : ∃ l, Owns s self l := by
  induction h with
  | init h1 h2 h3 => exact ⟨[], owns_init h1 h2 h3⟩
  | waiting_add fuel n _ hn hadd ih =>
    obtain ⟨l, howns⟩ := ih
    obtain ⟨l₁, l₂, -, howns', -⟩ := owns_waiting_add howns hn hadd
    exact ⟨_, howns'⟩
  | clock_add ndebug fuel n _ hn hadd ih =>
    obtain ⟨l, howns⟩ := ih
    obtain ⟨l₁, l₂, -, howns', -⟩ := owns_clock_add howns hn hadd
    exact ⟨_, howns'⟩
  | remove n _ _ hrem ih =>
    obtain ⟨l, howns⟩ := ih
    exact ⟨_, (owns_remove howns hrem).1⟩

/-! ## Ordering of the waiting list: C1, C2, C3 -/

/-- The example memory `ex_w0` is a starting memory. -/
theorem ex_w0_reach : Waiting_reach 0 ex_w0 :=
  .init (fun _ => rfl) rfl rfl

/-- The example memory `ex_w1` is reached by one add. -/
theorem ex_w1_reach : Waiting_reach 0 ex_w1 :=
  @Waiting_reach.add 0 ex_w0 ex_w1 0 0 ex_w0_reach rfl rfl

/-- The example memory `ex_w2` is reached by two adds. -/
theorem ex_w2_reach : Waiting_reach 0 ex_w2 :=
  @Waiting_reach.add 0 ex_w1 ex_w2 1 1 ex_w1_reach (by decide) rfl

/-- The example memory `ex_w3` is reached by three adds. -/
theorem ex_w3_reach : Waiting_reach 0 ex_w3 :=
  @Waiting_reach.add 0 ex_w2 ex_w3 2 2 ex_w2_reach (by decide) rfl

/-- C1 (priority ordering).  In every memory reached from an empty waiting
list by `Waiting_threads_list::add` of unlinked nodes and `Double_list::remove`
of nodes that are in the list or unlinked, with the priority of a thread
changing only while none of its nodes is linked,
the head-to-tail traversal exists and every adjacent pair `(u, v)` of it, `u`
closer to the head, has `u.priority ≥ v.priority`. -/
theorem priority_ordering (self : Nat) (s : Memory) (h : Waiting_reach self s) :
    ∃ l, traverse self s = some l ∧
      l.Chain' (fun u v => s.sched_prio (s.thread u) ≥ s.sched_prio (s.thread v)) := by
  obtain ⟨l, howns, hs⟩ := waiting_reach_inv h
  exact ⟨l, holds_traverse howns.1, hs.chain'⟩

/-- An instance of the theorem above: the example memory `ex_w3`. -/
theorem priority_ordering_witness :
    Waiting_reach 0 ex_w3 ∧ ∃ l, traverse 0 ex_w3 = some l ∧
      l.Chain' (fun u v => ex_w3.sched_prio (ex_w3.thread u) ≥
        ex_w3.sched_prio (ex_w3.thread v)) :=
  ⟨ex_w3_reach, priority_ordering 0 ex_w3 ex_w3_reach⟩

/-- The effect of `resume_one` on a well-formed non-empty list: the head is
unlinked, the other nodes stay in order, and the thread of the head is
resumed unless it is destroyed. -/
theorem resume_one_spec {s : Memory} {self hd : Nat} {tl : List Nat}
    (h : Holds s self (hd :: tl)) :
    ∃ s', Waiting_threads_list.resume_one self s = .ok s' ∧ Holds s' self tl ∧
      s'.next hd = none ∧ s'.prev hd = none ∧ Frame self (hd :: tl) s s' ∧
      s'.calls = s.calls ++
        (if s.sched_state (s.thread hd) ≠ state_t.destroyed then [Call.resume (s.thread hd)]
         else []) := by
  obtain ⟨s₁, hrem, hholds, hnext, hprev, hframe, hcalls⟩ :=
    remove_member h (List.mem_cons_self hd tl)
  have hcount : s.count_ self = tl.length + 1 := by simpa using h.2.2.2
  have hhead : s.head_ self = some hd := by simpa using h.2.2.1
  have herase : (hd :: tl).erase hd = tl := by simp
  rw [herase] at hholds
  by_cases hst : s.sched_state (s.thread hd) = state_t.destroyed
  · refine ⟨s₁, ?_, hholds, hnext, hprev, hframe, by simp [hst, hcalls]⟩
    simp [Waiting_threads_list.resume_one, Double_list.empty, Double_list.head, hcount, hhead,
      deref, bind, Except.bind, hrem, hframe.sched_state, hst, pure, Except.pure]
  · refine ⟨{ s₁ with calls := s₁.calls ++ [Call.resume (s.thread hd)] }, ?_, hholds, hnext,
      hprev, ⟨hframe.next, hframe.prev, hframe.head_, hframe.count_, hframe.list,
        hframe.timestamp, hframe.thread, hframe.timer, hframe.cls, hframe.sched_prio,
        hframe.sched_state⟩, by simp [hst, hcalls]⟩
    simp [Waiting_threads_list.resume_one, Double_list.empty, Double_list.head, hcount, hhead,
      deref, bind, Except.bind, hrem, hframe.sched_state, hst, pure, Except.pure]

/-- C2 (highest-priority waiter first).  On every non-empty waiting list
reached by add and remove, `resume_one` returns and detaches exactly the head:
the traversal afterwards is the previous one without its first node, `count_`
is one less and the former head is unlinked; the priority of the detached
node's thread is at least that of every other waiter; its thread is resumed
unless destroyed. -/
theorem resume_one_detaches_highest (self : Nat) (s : Memory) (h : Waiting_reach self s)
    (hne : Double_list.empty self s = false) :
    ∃ hd tl s', traverse self s = some (hd :: tl) ∧ Double_list.head self s = some hd ∧
      Waiting_threads_list.resume_one self s = .ok s' ∧
      traverse self s' = some tl ∧ s'.count_ self + 1 = s.count_ self ∧
      s'.next hd = none ∧ s'.prev hd = none ∧
      (∀ x ∈ tl, s.sched_prio (s.thread hd) ≥ s.sched_prio (s.thread x)) ∧
      s'.calls = s.calls ++
        (if s.sched_state (s.thread hd) ≠ state_t.destroyed then [Call.resume (s.thread hd)]
         else []) := by
  obtain ⟨l, howns, hs⟩ := waiting_reach_inv h
  cases l with
  | nil =>
    have := howns.1.2.2.2
    simp [Double_list.empty] at hne this
    exact absurd this hne
  | cons hd tl =>
    obtain ⟨s', hres, hholds, hnext, hprev, -, hcalls⟩ := resume_one_spec howns.1
    refine ⟨hd, tl, s', holds_traverse howns.1, by simpa [Double_list.head] using howns.1.2.2.1,
      hres, holds_traverse hholds, ?_, hnext, hprev, ?_, hcalls⟩
    · have h1 := howns.1.2.2.2
      have h2 := hholds.2.2.2
      simp at h1; omega
    · intro x hx
      exact List.rel_of_pairwise_cons hs hx

/-- An instance of the theorem above: the example memory `ex_w3`. -/
theorem resume_one_detaches_highest_witness :
    Waiting_reach 0 ex_w3 ∧ Double_list.empty 0 ex_w3 = false ∧
    ∃ hd tl s', traverse 0 ex_w3 = some (hd :: tl) ∧ Double_list.head 0 ex_w3 = some hd ∧
      Waiting_threads_list.resume_one 0 ex_w3 = .ok s' ∧
      traverse 0 s' = some tl ∧ s'.count_ 0 + 1 = ex_w3.count_ 0 ∧
      s'.next hd = none ∧ s'.prev hd = none ∧
      (∀ x ∈ tl, ex_w3.sched_prio (ex_w3.thread hd) ≥ ex_w3.sched_prio (ex_w3.thread x)) ∧
      s'.calls = ex_w3.calls ++
        (if ex_w3.sched_state (ex_w3.thread hd) ≠ state_t.destroyed then
          [Call.resume (ex_w3.thread hd)]
         else []) :=
  ⟨ex_w3_reach, by decide, resume_one_detaches_highest 0 ex_w3 ex_w3_reach (by decide)⟩

/-- The `resume` calls depend on the threads only. -/
theorem resumes_congr {s s' : Memory} (h₁ : s'.sched_state = s.sched_state)
    (h₂ : s'.thread = s.thread) (l : List Nat) : resumes s' l = resumes s l := by
  simp [resumes, h₁, h₂]

/-- The example memory `ex_c0` is a starting memory. -/
theorem ex_c0_reach : Clock_reach 0 ex_c0 :=
  .init (fun _ => rfl) rfl rfl

/-- The example memory `ex_c1` is reached by one add. -/
theorem ex_c1_reach : Clock_reach 0 ex_c1 :=
  @Clock_reach.add 0 ex_c0 ex_c1 false 0 3 ex_c0_reach rfl rfl

/-- The example memory `ex_c2` is reached by two adds. -/
theorem ex_c2_reach : Clock_reach 0 ex_c2 :=
  @Clock_reach.add 0 ex_c1 ex_c2 false 1 0 ex_c1_reach (by decide) rfl

/-- The example memory `ex_c3` is reached by three adds. -/
theorem ex_c3_reach : Clock_reach 0 ex_c3 :=
  @Clock_reach.add 0 ex_c2 ex_c3 false 2 1 ex_c2_reach (by decide) rfl

/-- The example memory `ex_c4` is reached by four adds. -/
theorem ex_c4_reach : Clock_reach 0 ex_c4 :=
  @Clock_reach.add 0 ex_c3 ex_c4 false 3 2 ex_c3_reach (by decide) rfl

/-- The clock list of `ex_c4` holds the nodes 0, 1, 2, 3 in this order. -/
theorem ex_c4_holds : Holds ex_c4 0 [0, 1, 2, 3] := by decide

/-- C4 (timestamp ordering).  In every memory reached from an empty clock
list by calls of `Clock_timestamps_list::add` of unlinked nodes that return
(with the assertion compiled in or out) and by `Double_list::remove` of nodes
that are in the list or unlinked, the head-to-tail traversal exists and starts at
`head_`, timestamps do not decrease along it, and the head has the minimum
timestamp of the list. -/
theorem timestamp_ordering (self : Nat) (s : Memory) (h : Clock_reach self s) :
    ∃ l, traverse self s = some l ∧ s.head_ self = l.head? ∧
      l.Chain' (fun u v => s.timestamp u ≤ s.timestamp v) ∧
      ∀ hd ∈ l.head?, ∀ x ∈ l, s.timestamp hd ≤ s.timestamp x := by
  obtain ⟨l, howns, hs⟩ := clock_reach_inv h
  refine ⟨l, holds_traverse howns.1, howns.1.2.2.1, hs.chain', ?_⟩
  cases l with
  | nil => simp
  | cons a t =>
    intro hd hhd x hx
    simp at hhd; subst hhd
    rcases List.mem_cons.1 hx with rfl | hx'
    · exact le_refl _
    · exact List.rel_of_pairwise_cons hs hx'

/-- An instance of the theorem above: the example memory `ex_c4`. -/
theorem timestamp_ordering_witness :
    Clock_reach 0 ex_c4 ∧ ∃ l, traverse 0 ex_c4 = some l ∧ ex_c4.head_ 0 = l.head? ∧
      l.Chain' (fun u v => ex_c4.timestamp u ≤ ex_c4.timestamp v) ∧
      ∀ hd ∈ l.head?, ∀ x ∈ l, ex_c4.timestamp hd ≤ ex_c4.timestamp x :=
  ⟨ex_c4_reach, timestamp_ordering 0 ex_c4 ex_c4_reach⟩

/-- The effect of `Timeout_thread_node::action` on a member of its list. -/
theorem timeout_action_spec {s : Memory} {self : Nat} {l : List Nat} (h : Holds s self l)
    {n : Nat} (hn : n ∈ l) (hl : s.list n = self) :
    ∃ s', Timeout_thread_node.action n s = .ok s' ∧ Holds s' self (l.erase n) ∧
      s'.next n = none ∧ s'.prev n = none ∧ Frame self l s s' ∧
      s'.calls = s.calls ++
        (if s.sched_state (s.thread n) ≠ state_t.destroyed then [Call.resume (s.thread n)]
         else []) := by
  obtain ⟨s₁, hrem, hholds, hnext, hprev, hframe, hcalls⟩ := remove_member h hn
  by_cases hst : s.sched_state (s.thread n) = state_t.destroyed
  · refine ⟨s₁, ?_, hholds, hnext, hprev, hframe, by simp [hst, hcalls]⟩
    simp [Timeout_thread_node.action, hl, bind, Except.bind, hrem, hframe.sched_state, hst,
      pure, Except.pure]
  · refine ⟨{ s₁ with calls := s₁.calls ++ [Call.resume (s.thread n)] }, ?_, hholds, hnext,
      hprev, ⟨hframe.next, hframe.prev, hframe.head_, hframe.count_, hframe.list,
        hframe.timestamp, hframe.thread, hframe.timer, hframe.cls, hframe.sched_prio,
        hframe.sched_state⟩, by simp [hst, hcalls]⟩
    simp [Timeout_thread_node.action, hl, bind, Except.bind, hrem, hframe.sched_state, hst,
      pure, Except.pure]

/-- What every `action` does to the lists when it is run on a member of its
list: it returns, the node is removed and unlinked, the other links and the
constant members of the nodes are as before. -/
theorem action_spec (isr : Isr) {s : Memory} {self : Nat} {l : List Nat} (h : Holds s self l)
    {n : Nat} (hn : n ∈ l) (hl : s.list n = self)
    (hact : s.cls n = node_class.timeout_thread_node ∨ Isr.Quiet isr) :
    ∃ s', Timestamp_node.action isr n s = .ok s' ∧ Holds s' self (l.erase n) ∧
      (s'.next n = none ∧ s'.prev n = none) ∧
      (∀ z, z ∉ l → s'.next z = s.next z ∧ s'.prev z = s.prev z) ∧
      s'.list = s.list ∧ s'.timestamp = s.timestamp ∧ s'.cls = s.cls ∧ s'.thread = s.thread ∧
      (s.cls n = node_class.timeout_thread_node →
        s'.sched_state = s.sched_state ∧
        s'.calls = s.calls ++
          (if s.sched_state (s.thread n) ≠ state_t.destroyed then [Call.resume (s.thread n)]
           else [])) := by
  cases hc : s.cls n with
  | timeout_thread_node =>
    obtain ⟨s', hact', hholds, hnext, hprev, hframe, hcalls⟩ := timeout_action_spec h hn hl
    refine ⟨s', by simp [Timestamp_node.action, hc, hact'], hholds, ⟨hnext, hprev⟩,
      fun z hz => ⟨hframe.next z hz, hframe.prev z hz⟩, hframe.list, hframe.timestamp,
      hframe.cls, hframe.thread, fun _ => ⟨hframe.sched_state, hcalls⟩⟩
  | timer_node =>
    have hq : Isr.Quiet isr := by
      rcases hact with h1 | h1
      · rw [hc] at h1; cases h1
      · exact h1
    obtain ⟨s₁, hrem, hholds, hnext, hprev, hframe, -⟩ := remove_member h hn
    obtain ⟨s', hisr, e1, e2, e3, e4, e5, e6, e7, e8, -⟩ := hq (s₁.timer n)
      { s₁ with calls := s₁.calls ++ [Call.interrupt_service_routine (s₁.timer n)] }
    refine ⟨s', ?_, ?_, ?_, ?_, ?_, ?_, ?_, ?_, ?_⟩
    · simp [Timestamp_node.action, hc, Timer_node.action, hl, bind, Except.bind, hrem, hisr]
    · obtain ⟨g1, g2, g3, g4⟩ := hholds
      refine ⟨g1, ?_, by rw [e3]; exact g3, by rw [e4]; exact g4⟩
      unfold Circular Adj at g2 ⊢
      rw [e1, e2]; exact g2
    · rw [e1, e2]; exact ⟨hnext, hprev⟩
    · intro z hz; rw [e1, e2]; exact ⟨hframe.next z hz, hframe.prev z hz⟩
    · rw [e5]; exact hframe.list
    · rw [e6]; exact hframe.timestamp
    · rw [e7]; exact hframe.cls
    · rw [e8]; exact hframe.thread
    · intro hcontra; cases hcontra

/-- On an empty list `check_timestamp` returns at once. -/
theorem check_timestamp_empty (isr : Isr) {self : Nat} (now fuel : Nat) {s : Memory}
    (h : s.count_ self = 0) : Clock_timestamps_list.check_timestamp isr self now fuel s = .ok s := by
  unfold Clock_timestamps_list.check_timestamp
  simp [Double_list.empty, h]

/-- On a list whose head is not due `check_timestamp` returns at once. -/
theorem check_timestamp_undue (isr : Isr) {self hd : Nat} {now : Nat} (fuel : Nat) {s : Memory}
    (hh : s.head_ self = some hd) (hts : now < s.timestamp hd) :
    Clock_timestamps_list.check_timestamp isr self now fuel s = .ok s := by
  unfold Clock_timestamps_list.check_timestamp
  by_cases hc : s.count_ self = 0
  · simp [Double_list.empty, hc]
  · simp [Double_list.empty, hc, hh, deref, bind, Except.bind, not_le.2 hts]

/-- On a list whose head is due `check_timestamp` runs the action of the head and goes on. -/
theorem check_timestamp_due (isr : Isr) {self hd : Nat} {now : Nat} (fuel : Nat) {s : Memory}
    (hc : s.count_ self ≠ 0) (hh : s.head_ self = some hd) (hts : s.timestamp hd ≤ now) :
    Clock_timestamps_list.check_timestamp isr self now (fuel + 1) s =
      Timestamp_node.action isr hd s >>= Clock_timestamps_list.check_timestamp isr self now fuel := by
  rw [Clock_timestamps_list.check_timestamp]
  simp [Double_list.empty, Double_list.head, hc, hh, deref, bind, Except.bind, hts]

/-- More fuel does not change the result of `check_timestamp`. -/
theorem check_timestamp_mono (isr : Isr) (self now : Nat) {r : Memory} :
    ∀ (f f' : Nat) (s : Memory), Clock_timestamps_list.check_timestamp isr self now f s = .ok r →
      f ≤ f' → Clock_timestamps_list.check_timestamp isr self now f' s = .ok r
  | f, f', s, h, hle => by
    by_cases hc : s.count_ self = 0
    · rw [check_timestamp_empty isr now _ hc] at h ⊢; exact h
    · cases hh : s.head_ self with
      | none =>
        unfold Clock_timestamps_list.check_timestamp at h
        simp [Double_list.empty, hc, hh, deref, bind, Except.bind] at h
      | some hd =>
        by_cases hts : s.timestamp hd ≤ now
        · cases f with
          | zero =>
            unfold Clock_timestamps_list.check_timestamp at h
            simp [Double_list.empty, hc, hh, deref, bind, Except.bind, hts] at h
          | succ f =>
            cases f' with
            | zero => simp at hle
            | succ f' =>
              rw [check_timestamp_due isr _ hc hh hts] at h ⊢
              cases ha : Timestamp_node.action isr hd s with
              | error e => simp [ha, bind, Except.bind] at h
              | ok s₁ =>
                simp only [ha, bind, Except.bind] at h ⊢
                exact check_timestamp_mono isr self now f f' s₁ h (by omega)
        · rw [check_timestamp_undue isr _ hh (not_le.1 hts)] at h ⊢; exact h

/-- The drain of a well-formed clock list whose nodes are on that list and
whose actions are the timeout action or a timer action with a quiet routine:
with fuel for the due nodes at the front, `check_timestamp` returns; these
nodes are unlinked, the others are left in order. -/
theorem drain_spec (isr : Isr) (self now : Nat) (ts : Nat → Nat) :
    ∀ (l : List Nat) (s : Memory) (fuel : Nat), Holds s self l → s.timestamp = ts →
      (∀ n ∈ l, s.list n = self) →
      ((∀ n ∈ l, s.cls n = node_class.timeout_thread_node) ∨ Isr.Quiet isr) →
      (l.takeWhile (fun x => decide (ts x ≤ now))).length ≤ fuel →
      ∃ s', Clock_timestamps_list.check_timestamp isr self now fuel s = .ok s' ∧
        Holds s' self (l.dropWhile (fun x => decide (ts x ≤ now))) ∧
        (∀ x ∈ l.takeWhile (fun x => decide (ts x ≤ now)), s'.next x = none ∧ s'.prev x = none) ∧
        (∀ z, z ∉ l → s'.next z = s.next z ∧ s'.prev z = s.prev z) ∧
        s'.timestamp = ts ∧ s'.thread = s.thread ∧
        ((∀ n ∈ l, s.cls n = node_class.timeout_thread_node) →
          s'.sched_state = s.sched_state ∧
          s'.calls = s.calls ++ resumes s (l.takeWhile (fun x => decide (ts x ≤ now))))
  | [], s, fuel, h, hts, _, _, _ => by
    refine ⟨s, check_timestamp_empty isr now fuel (by simpa using h.2.2.2), by simpa using h,
      by simp, fun _ _ => ⟨rfl, rfl⟩, hts, rfl, fun _ => ⟨rfl, by simp [resumes]⟩⟩
  | hd :: tl, s, fuel, h, hts, hl, hact, hf => by
    have hhead : s.head_ self = some hd := by simpa using h.2.2.1
    have hcount : s.count_ self ≠ 0 := by
      have := h.2.2.2; simp at this; omega
    by_cases hdue : ts hd ≤ now
    · have htw : (hd :: tl).takeWhile (fun x => decide (ts x ≤ now)) =
          hd :: tl.takeWhile (fun x => decide (ts x ≤ now)) := by
        simp [List.takeWhile_cons, hdue]
      have hdw : (hd :: tl).dropWhile (fun x => decide (ts x ≤ now)) =
          tl.dropWhile (fun x => decide (ts x ≤ now)) := by
        simp [List.dropWhile_cons, hdue]
      rw [htw] at hf ⊢
      rw [hdw]
      cases fuel with
      | zero => simp at hf
      | succ fuel =>
        have hact₁ : s.cls hd = node_class.timeout_thread_node ∨ Isr.Quiet isr :=
          hact.imp (fun hc => hc hd (by simp)) id
        obtain ⟨s₁, ha, hholds, hun, hfr, e1, e2, e3, e4, hcalls⟩ :=
          action_spec isr h (List.mem_cons_self hd tl) (hl hd (by simp)) hact₁
        have herase : (hd :: tl).erase hd = tl := by simp
        rw [herase] at hholds
        have hhd : hd ∉ tl := (List.nodup_cons.1 h.1).1
        obtain ⟨s', hck, hholds', hun', hfr', hts', hth', hcalls'⟩ :=
          drain_spec isr self now ts tl s₁ fuel hholds (by rw [e2]; exact hts)
            (fun n hn => by rw [e1]; exact hl n (List.mem_cons_of_mem _ hn))
            (hact.imp (fun hc n hn => by rw [e3]; exact hc n (List.mem_cons_of_mem _ hn)) id)
            (by simpa using hf)
        refine ⟨s', ?_, hholds', ?_, ?_, hts', hth'.trans e4, ?_⟩
        · rw [check_timestamp_due isr _ hcount hhead (by rw [hts]; exact hdue)]
          simp [ha, bind, Except.bind, hck]
        · intro x hx
          rcases List.mem_cons.1 hx with rfl | hx'
          · rw [(hfr' x hhd).1, (hfr' x hhd).2]; exact hun
          · exact hun' x hx'
        · intro z hz
          have hz' : z ∉ tl := fun hm => hz (List.mem_cons_of_mem _ hm)
          rw [(hfr' z hz').1, (hfr' z hz').2]
          exact hfr z hz
        · intro hall
          obtain ⟨g1, g2⟩ := hcalls (hall hd (by simp))
          obtain ⟨g3, g4⟩ := hcalls'
            (fun n hn => by rw [e3]; exact hall n (List.mem_cons_of_mem _ hn))
          refine ⟨g3.trans g1, ?_⟩
          rw [g4, g2, resumes_congr g1 e4]
          by_cases hst : s.sched_state (s.thread hd) = state_t.destroyed <;>
            simp [resumes, hst, List.filter_cons]
    · have htw : (hd :: tl).takeWhile (fun x => decide (ts x ≤ now)) = [] := by
        simp [List.takeWhile_cons, hdue]
      have hdw : (hd :: tl).dropWhile (fun x => decide (ts x ≤ now)) = hd :: tl := by
        simp [List.dropWhile_cons, hdue]
      rw [htw, hdw]
      refine ⟨s, check_timestamp_undue isr fuel hhead (by rw [hts]; omega), h, by simp,
        fun _ _ => ⟨rfl, rfl⟩, hts, rfl, fun _ => ⟨rfl, by simp [resumes]⟩⟩

/-- Whatever the actions do, when `check_timestamp(now)` returns the list is
empty or the timestamp of its head is greater than `now`: this is the exit
condition of its loop. -/
theorem check_timestamp_drained (isr : Isr) (self now : Nat) :
    ∀ (fuel : Nat) (s s' : Memory),
      Clock_timestamps_list.check_timestamp isr self now fuel s = .ok s' →
      Double_list.empty self s' = true ∨
        ∃ hd, Double_list.head self s' = some hd ∧ now < s'.timestamp hd
  | fuel, s, s', h => by
    by_cases hc : s.count_ self = 0
    · rw [check_timestamp_empty isr now _ hc] at h
      cases h
      exact Or.inl (by simp [Double_list.empty, hc])
    · cases hh : s.head_ self with
      | none =>
        unfold Clock_timestamps_list.check_timestamp at h
        simp [Double_list.empty, hc, hh, deref, bind, Except.bind] at h
      | some hd =>
        by_cases hts : s.timestamp hd ≤ now
        · cases fuel with
          | zero =>
            unfold Clock_timestamps_list.check_timestamp at h
            simp [Double_list.empty, hc, hh, deref, bind, Except.bind, hts] at h
          | succ fuel =>
            rw [check_timestamp_due isr _ hc hh hts] at h
            cases ha : Timestamp_node.action isr hd s with
            | error e => simp [ha, bind, Except.bind] at h
            | ok s₁ =>
              simp only [ha, bind, Except.bind] at h
              exact check_timestamp_drained isr self now fuel s₁ s' h
        · rw [check_timestamp_undue isr _ hh (not_le.1 hts)] at h
          cases h
          exact Or.inr ⟨hd, hh, not_le.1 hts⟩

/-- The routine that does nothing is quiet. -/
theorem ex_isr_quiet : Isr.Quiet ex_isr :=
  fun _ s => ⟨s, rfl, rfl, rfl, rfl, rfl, rfl, rfl, rfl, rfl, rfl⟩

/-- The first node left by `dropWhile` fails the test. -/
theorem dropWhile_head_not (p : Nat → Bool) : ∀ (l : List Nat) {hd : Nat} {t : List Nat},
    l.dropWhile p = hd :: t → p hd = false
  | [], _, _, h => by simp at h
  | x :: l, hd, t, h => by
    by_cases hx : p x = true
    · rw [List.dropWhile_cons_of_pos hx] at h
      exact dropWhile_head_not p l h
    · rw [List.dropWhile_cons_of_neg hx] at h
      cases h; simpa using hx

/-- In a list sorted by timestamp the due nodes are a front segment. -/
theorem sorted_takeWhile {ts : Nat → Nat} (now : Nat) : ∀ (l : List Nat),
    l.Pairwise (fun u v => ts u ≤ ts v) →
    l.takeWhile (fun x => decide (ts x ≤ now)) = l.filter (fun x => decide (ts x ≤ now)) ∧
    l.dropWhile (fun x => decide (ts x ≤ now)) = l.filter (fun x => decide (now < ts x))
  | [], _ => by simp
  | x :: l, h => by
    obtain ⟨h1, h2⟩ := List.pairwise_cons.1 h
    obtain ⟨ih1, ih2⟩ := sorted_takeWhile now l h2
    by_cases hx : ts x ≤ now
    · simp [List.takeWhile_cons, List.dropWhile_cons, List.filter_cons, hx, ih1, ih2, not_lt.2 hx]
    · have hall : ∀ y ∈ l, now < ts y := fun y hy => by have := h1 y hy; omega
      have e1 : l.filter (fun x => decide (ts x ≤ now)) = [] := by
        rw [List.filter_eq_nil_iff]; intro y hy; have := hall y hy; simp; omega
      have e2 : l.filter (fun x => decide (now < ts x)) = l := by
        rw [List.filter_eq_self]; intro y hy; simpa using hall y hy
      simp [List.takeWhile_cons, List.dropWhile_cons, List.filter_cons, hx, e1, e2,
        not_le.1 hx]

/-- C6 (the drain fires exactly the due nodes, in order).  On every
well-formed clock list with timestamps in non-decreasing order whose nodes are
timeout nodes of that list with threads that are not destroyed,
`check_timestamp(now)` returns; it has made exactly one `resume` call for each
node with timestamp at most `now`, in head-to-tail order, and no other call;
these nodes are unlinked; the list holds exactly the nodes with timestamp
greater than `now`, in their previous order, and `count_` is their number. -/
theorem drain_fires_due_nodes (isr : Isr) (self now : Nat) (s : Memory) (l : List Nat)
    (h : Holds s self l) (hs : l.Pairwise (fun u v => s.timestamp u ≤ s.timestamp v))
    (hl : ∀ n ∈ l, s.cls n = node_class.timeout_thread_node ∧ s.list n = self ∧
      s.sched_state (s.thread n) ≠ state_t.destroyed) :
    ∃ s', Clock_timestamps_list.check_timestamp isr self now l.length s = .ok s' ∧
      s'.calls = s.calls ++
        (l.filter (fun n => decide (s.timestamp n ≤ now))).map (fun n => Call.resume (s.thread n)) ∧
      (∀ n ∈ l, s.timestamp n ≤ now → s'.next n = none ∧ s'.prev n = none) ∧
      traverse self s' = some (l.filter (fun n => decide (now < s.timestamp n))) ∧
      s'.count_ self = (l.filter (fun n => decide (now < s.timestamp n))).length := by
  have hlen : (l.takeWhile (fun x => decide (s.timestamp x ≤ now))).length ≤ l.length :=
    (List.takeWhile_sublist _).length_le
  obtain ⟨e1, e2⟩ := sorted_takeWhile now l hs
  obtain ⟨s', hck, hholds, hun, -, -, -, hcalls⟩ :=
    drain_spec isr self now s.timestamp l s l.length h rfl (fun n hn => (hl n hn).2.1)
      (Or.inl (fun n hn => (hl n hn).1)) hlen
  rw [e1] at hun hcalls
  rw [e2] at hholds
  refine ⟨s', hck, ?_, ?_, holds_traverse hholds, hholds.2.2.2⟩
  · rw [(hcalls (fun n hn => (hl n hn).1)).2]
    congr 1
    unfold resumes
    congr 1
    rw [List.filter_eq_self]
    intro x hx
    have := (hl x (List.mem_of_mem_filter hx)).2.2
    simpa using this
  · intro n hn hdue
    exact hun n (List.mem_filter.2 ⟨hn, by simpa using hdue⟩)

/-- An instance of the theorem above: the example memory `ex_c4`, timestamps 10, 20, 20,
30, with `now = 20`. -/
theorem drain_fires_due_nodes_witness :
    Holds ex_c4 0 [0, 1, 2, 3] ∧
    [0, 1, 2, 3].Pairwise (fun u v => ex_c4.timestamp u ≤ ex_c4.timestamp v) ∧
    (∀ n ∈ [0, 1, 2, 3], ex_c4.cls n = node_class.timeout_thread_node ∧ ex_c4.list n = 0 ∧
      ex_c4.sched_state (ex_c4.thread n) ≠ state_t.destroyed) ∧
    ∃ s', Clock_timestamps_list.check_timestamp ex_isr 0 20 [0, 1, 2, 3].length ex_c4 = .ok s' ∧
      s'.calls = ex_c4.calls ++
        ([0, 1, 2, 3].filter (fun n => decide (ex_c4.timestamp n ≤ 20))).map
          (fun n => Call.resume (ex_c4.thread n)) ∧
      (∀ n ∈ [0, 1, 2, 3], ex_c4.timestamp n ≤ 20 → s'.next n = none ∧ s'.prev n = none) ∧
      traverse 0 s' = some ([0, 1, 2, 3].filter (fun n => decide (20 < ex_c4.timestamp n))) ∧
      s'.count_ 0 = ([0, 1, 2, 3].filter (fun n => decide (20 < ex_c4.timestamp n))).length :=
  ⟨ex_c4_holds, by decide, by decide,
    drain_fires_due_nodes ex_isr 0 20 ex_c4 [0, 1, 2, 3] ex_c4_holds (by decide) (by decide)⟩

/-- The scenario of C6 evaluated: with timestamps 10, 20, 20, 30 and
`now = 20` there are three `resume` calls, for the nodes 0, 1, 2 in this
order, and one node is left. -/
theorem ex_c4_due :
    ([0, 1, 2, 3].filter (fun n => decide (ex_c4.timestamp n ≤ 20))).map
        (fun n => Call.resume (ex_c4.thread n)) =
      [Call.resume 0, Call.resume 1, Call.resume 2] ∧
    [0, 1, 2, 3].filter (fun n => decide (20 < ex_c4.timestamp n)) = [3] ∧
    ex_c4.calls = [] := by
  decide

/-! ## Linkage and count: C7, C8 -/

/-- Following `next` along a chain of links ends at its last node. -/
theorem iterate_next_chain {s : Memory} : ∀ (l : List Nat) (x y : Nat),
    List.Chain' (Adj s) (x :: l ++ [y]) →
    (fun p : Option Nat => p.bind s.next)^[l.length + 1] (some x) = some y
  | [], x, y, h => by
    have hxy : Adj s x y := List.chain'_pair.1 (by simpa using h)
    simp [hxy.1]
  | z :: l, x, y, h => by
    have h' : List.Chain' (Adj s) (x :: z :: (l ++ [y])) := by simpa using h
    rw [List.chain'_cons] at h'
    have ih := iterate_next_chain l z y (by simpa using h'.2)
    rw [List.length_cons, Function.iterate_succ_apply]
    simpa [h'.1.1] using ih

/-- Following `prev` along a chain of links from its last node ends at its first node. -/
theorem iterate_prev_chain {s : Memory} : ∀ (l : List Nat) (x y : Nat),
    List.Chain' (Adj s) (x :: l ++ [y]) →
    (fun p : Option Nat => p.bind s.prev)^[l.length + 1] (some y) = some x
  | [], x, y, h => by
    have hxy : Adj s x y := List.chain'_pair.1 (by simpa using h)
    simp [hxy.2]
  | z :: l, x, y, h => by
    have h' : List.Chain' (Adj s) (x :: z :: (l ++ [y])) := by simpa using h
    rw [List.chain'_cons] at h'
    have ih := iterate_prev_chain l z y (by simpa using h'.2)
    rw [List.length_cons, Function.iterate_succ_apply', ih]
    simpa using h'.1.2

/-- Along a chain of links from `x` to `h` that does not meet `h` before, `h` is met after as
many steps as the chain has links. -/
theorem steps_to_chain {s : Memory} {h : Nat} : ∀ (l : List Nat) (x fuel : Nat),
    List.Chain' (Adj s) (x :: l ++ [h]) → h ∉ l → l.length + 1 ≤ fuel →
    steps_to s h fuel x = some (l.length + 1)
  | _, _, 0, _, _, hf => by simp at hf
  | [], x, fuel + 1, hc, _, _ => by
    have hxy : Adj s x h := List.chain'_pair.1 (by simpa using hc)
    simp [steps_to, hxy.1]
  | z :: l, x, fuel + 1, hc, hn, hf => by
    have h' : List.Chain' (Adj s) (x :: z :: (l ++ [h])) := by simpa using hc
    rw [List.chain'_cons] at h'
    have hzh : z ≠ h := fun e => hn (by simp [e])
    have ih := steps_to_chain l z fuel (by simpa using h'.2)
      (fun hm => hn (List.mem_cons_of_mem _ hm)) (by simpa using hf)
    simp [steps_to, h'.1.1, hzh, ih]

/-- More fuel does not change the number of steps. -/
theorem steps_to_mono {s : Memory} {h k : Nat} : ∀ (f f' x : Nat),
    steps_to s h f x = some k → f ≤ f' → steps_to s h f' x = some k
  | 0, _, _, hs, _ => by simp [steps_to] at hs
  | f + 1, 0, _, _, hle => by simp at hle
  | f + 1, f' + 1, x, hs, hle => by
    unfold steps_to at hs ⊢
    cases hn : s.next x with
    | none => simp [hn] at hs
    | some n =>
      simp only [hn] at hs ⊢
      by_cases hnh : n = h
      · simpa [hnh] using hs
      · simp only [hnh, if_false] at hs ⊢
        cases hr : steps_to s h f n with
        | none => simp [hr] at hs
        | some r =>
          rw [steps_to_mono f f' n hr (by omega)]
          simpa [hr] using hs

/-- The head of a well-formed list is met again after exactly `count_`
steps along `next`. -/
theorem holds_ring_size {s : Memory} {self : Nat} {l : List Nat} (h : Holds s self l)
    {fuel : Nat} (hf : l.length ≤ fuel) : ring_size self s fuel = some l.length := by
  obtain ⟨hnd, hcirc, hhead, -⟩ := h
  unfold ring_size
  cases l with
  | nil => simp [hhead]
  | cons x xs =>
    simp only [hhead, List.head?_cons]
    exact steps_to_chain xs x fuel (circular_cons.1 hcirc) (List.nodup_cons.1 hnd).1
      (by simpa using hf)

/-- C7 (linkage consistency).  In every memory reached from an empty list by
either `add` of a node that is not linked and by `Double_list::remove` of a
node that is unlinked or in the list: following `next` from `head_` exactly
`count_` times gives `head_` again, likewise following `prev`, and every
linked node `n` has `n.prev.next == n` and `n.next.prev == n`. -/
theorem linkage_consistency (self : Nat) (s : Memory) (h : Reach self s) :
    (fun p : Option Nat => p.bind s.next)^[s.count_ self] (s.head_ self) = s.head_ self ∧
    (fun p : Option Nat => p.bind s.prev)^[s.count_ self] (s.head_ self) = s.head_ self ∧
    ∀ n, s.next n ≠ none →
      (s.prev n).bind s.next = some n ∧ (s.next n).bind s.prev = some n := by
  obtain ⟨l, howns⟩ := reach_inv h
  obtain ⟨⟨hnd, hcirc, hhead, hcount⟩, hall⟩ := howns
  refine ⟨?_, ?_, ?_⟩
  · cases l with
    | nil => simp [hcount]
    | cons x xs =>
      rw [hcount, hhead]
      exact iterate_next_chain xs x x (circular_cons.1 hcirc)
  · cases l with
    | nil => simp [hcount]
    | cons x xs =>
      rw [hcount, hhead]
      exact iterate_prev_chain xs x x (circular_cons.1 hcirc)
  · intro n hn
    have hm := hall n hn
    obtain ⟨b, -, hb⟩ := holds_adj_next ⟨hnd, hcirc, hhead, hcount⟩ hm
    obtain ⟨p, -, hp⟩ := holds_adj_prev ⟨hnd, hcirc, hhead, hcount⟩ hm
    simp [hb.1, hb.2, hp.1, hp.2]

/-- The example memory `ex_w3` is reached by three adds. -/
theorem ex_w3_reach_any : Reach 0 ex_w3 :=
  @Reach.waiting_add 0 ex_w2 ex_w3 2 2
    (@Reach.waiting_add 0 ex_w1 ex_w2 1 1
      (@Reach.waiting_add 0 ex_w0 ex_w1 0 0 (.init (fun _ => rfl) rfl rfl) rfl rfl)
      (by decide) rfl)
    (by decide) rfl

/-- The example memory `ex_w4` is reached by three adds and one remove. -/
theorem ex_w4_reach_any : Reach 0 ex_w4 :=
  @Reach.remove 0 ex_w3 ex_w4 0 ex_w3_reach_any
    (Or.inr ⟨[1, 0, 2], by decide, by decide⟩) rfl

/-- An instance of the theorem above: the example memory `ex_w4`. -/
theorem linkage_consistency_witness :
    Reach 0 ex_w4 ∧
    (fun p : Option Nat => p.bind ex_w4.next)^[ex_w4.count_ 0] (ex_w4.head_ 0) = ex_w4.head_ 0 ∧
    (fun p : Option Nat => p.bind ex_w4.prev)^[ex_w4.count_ 0] (ex_w4.head_ 0) = ex_w4.head_ 0 ∧
    ∀ n, ex_w4.next n ≠ none →
      (ex_w4.prev n).bind ex_w4.next = some n ∧ (ex_w4.next n).bind ex_w4.prev = some n :=
  ⟨ex_w4_reach_any, linkage_consistency 0 ex_w4 ex_w4_reach_any⟩

/-- C8 (count matches length).  In every memory reached from an empty list
by either `add` and by `remove` of member or unlinked nodes: the traversal of
`count_` nodes from the head has no repetition; following `next` from the
head, the head is met again after exactly `count_` steps (0 for the empty
list), whatever the step budget; `count_ == 0` exactly when `head_` is null;
each `add` of an unlinked node that returns makes `count_` one more, each
`remove` of a linked node makes it one less, and a `remove` of an unlinked
node leaves it. -/
theorem count_matches_length (self : Nat) (s : Memory) (h : Reach self s) :
    (∃ l, traverse self s = some l ∧ l.Nodup ∧ l.length = s.count_ self) ∧
    ring_size self s (s.count_ self) = some (s.count_ self) ∧
    (∀ fuel k, ring_size self s fuel = some k → k = s.count_ self) ∧
    (s.count_ self = 0 ↔ s.head_ self = none) ∧
    (∀ fuel n s', s.next n = none → Waiting_threads_list.add fuel self n s = .ok s' →
      s'.count_ self = s.count_ self + 1) ∧
    (∀ ndebug fuel n s', s.next n = none →
      Clock_timestamps_list.add ndebug fuel self n s = .ok s' →
      s'.count_ self = s.count_ self + 1) ∧
    (∀ n s', s.next n ≠ none → Double_list.remove self n s = .ok s' →
      s'.count_ self + 1 = s.count_ self) ∧
    (∀ n s', s.next n = none → Double_list.remove self n s = .ok s' →
      s'.count_ self = s.count_ self) := by
  obtain ⟨l, howns⟩ := reach_inv h
  have hcount : s.count_ self = l.length := howns.1.2.2.2
  refine ⟨⟨l, holds_traverse howns.1, howns.1.1, hcount.symm⟩, ?_, ?_, ?_, ?_, ?_, ?_, ?_⟩
  · rw [hcount]; exact holds_ring_size howns.1 (le_refl _)
  · intro fuel k hk
    have h1 := holds_ring_size howns.1 (le_max_right fuel l.length)
    have h2 : ring_size self s (max fuel l.length) = some k := by
      unfold ring_size at hk ⊢
      cases hh : s.head_ self with
      | none => simpa [hh] using hk
      | some x =>
        simp only [hh] at hk ⊢
        exact steps_to_mono fuel _ x hk (le_max_left _ _)
    rw [h1] at h2
    rw [hcount]; exact (Option.some.inj h2).symm
  · rw [hcount, howns.1.2.2.1]
    cases l <;> simp
  · intro fuel n s' hn hadd
    obtain ⟨l₁, l₂, hl, howns', -⟩ := owns_waiting_add howns hn hadd
    rw [howns'.1.2.2.2, hcount, hl]; simp; omega
  · intro ndebug fuel n s' hn hadd
    obtain ⟨l₁, l₂, hl, howns', -⟩ := owns_clock_add howns hn hadd
    rw [howns'.1.2.2.2, hcount, hl]; simp; omega
  · intro n s' hn hrem
    obtain ⟨howns', -⟩ := owns_remove howns hrem
    rw [howns'.1.2.2.2, hcount, List.length_erase_of_mem (howns.2 n hn)]
    have := List.length_pos_of_mem (howns.2 n hn)
    omega
  · intro n s' hn hrem
    rw [remove_unlinked hn] at hrem
    cases hrem; rfl

/-- An instance of the theorem above: the example memory `ex_w4`. -/
theorem count_matches_length_witness :
    Reach 0 ex_w4 ∧
    ((∃ l, traverse 0 ex_w4 = some l ∧ l.Nodup ∧ l.length = ex_w4.count_ 0) ∧
    ring_size 0 ex_w4 (ex_w4.count_ 0) = some (ex_w4.count_ 0) ∧
    (∀ fuel k, ring_size 0 ex_w4 fuel = some k → k = ex_w4.count_ 0) ∧
    (ex_w4.count_ 0 = 0 ↔ ex_w4.head_ 0 = none) ∧
    (∀ fuel n s', ex_w4.next n = none → Waiting_threads_list.add fuel 0 n ex_w4 = .ok s' →
      s'.count_ 0 = ex_w4.count_ 0 + 1) ∧
    (∀ ndebug fuel n s', ex_w4.next n = none →
      Clock_timestamps_list.add ndebug fuel 0 n ex_w4 = .ok s' →
      s'.count_ 0 = ex_w4.count_ 0 + 1) ∧
    (∀ n s', ex_w4.next n ≠ none → Double_list.remove 0 n ex_w4 = .ok s' →
      s'.count_ 0 + 1 = ex_w4.count_ 0) ∧
    (∀ n s', ex_w4.next n = none → Double_list.remove 0 n ex_w4 = .ok s' →
      s'.count_ 0 = ex_w4.count_ 0)) :=
  ⟨ex_w4_reach_any, count_matches_length 0 ex_w4 ex_w4_reach_any⟩

/-! ## Removal: C9, C10 -/

/-- After a `remove` that returned, the `next` of the node is null. -/
theorem remove_next_none {s s' : Memory} {self n : Nat}
    (h : Double_list.remove self n s = .ok s') : s'.next n = none := by
  by_cases hn : s.next n = none
  · rw [remove_unlinked hn] at h; cases h; exact hn
  · unfold Double_list.remove at h
    simp only [hn, if_false, bind, Except.bind, pure, Except.pure] at h
    split at h
    · cases h
    · cases h; simp

/-- C9 (remove idempotence).  On every well-formed list, for every node that
is in the list or unlinked, `remove` returns and a second `remove` of the same
node returns the memory of the first: head, count and all links are the same;
a `remove` of a node whose `next` is null changes nothing. -/
theorem remove_idempotent (self : Nat) (s : Memory) (l : List Nat) (n : Nat)
    (h : Holds s self l) (hn : n ∈ l ∨ s.next n = none) :
    ∃ s₁, Double_list.remove self n s = .ok s₁ ∧ Double_list.remove self n s₁ = .ok s₁ ∧
      (Double_list.remove self n s >>= Double_list.remove self n) =
        Double_list.remove self n s ∧
      (s.next n = none → s₁ = s) := by
  have hret : ∃ s₁, Double_list.remove self n s = .ok s₁ := by
    by_cases hu : s.next n = none
    · exact ⟨s, remove_unlinked hu⟩
    · rcases hn with hm | hu'
      · obtain ⟨s₁, h₁, -⟩ := remove_member h hm
        exact ⟨s₁, h₁⟩
      · exact absurd hu' hu
  obtain ⟨s₁, h₁⟩ := hret
  have h₂ : Double_list.remove self n s₁ = .ok s₁ := remove_unlinked (remove_next_none h₁)
  refine ⟨s₁, h₁, h₂, ?_, ?_⟩
  · simp [h₁, bind, Except.bind, h₂]
  · intro hu
    rw [remove_unlinked hu] at h₁
    cases h₁; rfl

/-- An instance of the theorem above: the example memory `ex_w3` and its member 0. -/
theorem remove_idempotent_witness :
    Holds ex_w3 0 [1, 0, 2] ∧ (0 ∈ [1, 0, 2] ∨ ex_w3.next 0 = none) ∧
    ∃ s₁, Double_list.remove 0 0 ex_w3 = .ok s₁ ∧ Double_list.remove 0 0 s₁ = .ok s₁ ∧
      (Double_list.remove 0 0 ex_w3 >>= Double_list.remove 0 0) =
        Double_list.remove 0 0 ex_w3 ∧
      (ex_w3.next 0 = none → s₁ = ex_w3) :=
  ⟨by decide, by decide,
    remove_idempotent 0 ex_w3 [1, 0, 2] 0 (by decide) (by decide)⟩

/-- C10 (remove leaves the node unlinked).  On every well-formed list and
for every member `n`, `remove(n)` returns with `n.prev` and `n.next` both
null, the other nodes left in order; when `n` was the only node the list is
empty afterwards, with a null head and `count_ == 0`. -/
theorem remove_unlinks_node (self : Nat) (s : Memory) (l : List Nat) (n : Nat)
    (h : Holds s self l) (hn : n ∈ l) :
    ∃ s', Double_list.remove self n s = .ok s' ∧ s'.prev n = none ∧ s'.next n = none ∧
      traverse self s' = some (l.erase n) ∧
      (l = [n] → Double_list.empty self s' = true ∧ s'.head_ self = none ∧
        s'.count_ self = 0) := by
  obtain ⟨s', hrem, hholds, hnext, hprev, -, -⟩ := remove_member h hn
  refine ⟨s', hrem, hprev, hnext, holds_traverse hholds, ?_⟩
  intro hl
  subst hl
  have h1 := hholds.2.2.1
  have h2 := hholds.2.2.2
  simp at h1 h2
  simp [Double_list.empty, h1, h2]

/-- An instance of the theorem above: the example memory `ex_w1`, whose only node is 0. -/
theorem remove_unlinks_node_witness :
    Holds ex_w1 0 [0] ∧ 0 ∈ [0] ∧
    ∃ s', Double_list.remove 0 0 ex_w1 = .ok s' ∧ s'.prev 0 = none ∧ s'.next 0 = none ∧
      traverse 0 s' = some ([0].erase 0) ∧
      ([0] = [0] → Double_list.empty 0 s' = true ∧ s'.head_ 0 = none ∧ s'.count_ 0 = 0) :=
  ⟨by decide, by decide, remove_unlinks_node 0 ex_w1 [0] 0 (by decide) (by decide)⟩

/-! ## Waking waiters: C11, C12 -/

/-- On an empty list `resume_one` returns at once. -/
theorem resume_one_empty {s : Memory} {self : Nat} (h : s.count_ self = 0) :
    Waiting_threads_list.resume_one self s = .ok s := by
  simp [Waiting_threads_list.resume_one, Double_list.empty, h]

/-- C11 (`resume_one` wakes iff there is a live head).  On every well-formed
waiting list `resume_one` returns.  When the list is empty the memory is
unchanged, so nothing is resumed.  Otherwise the head is removed and unlinked
and the other nodes stay in order; exactly one `resume` call is made, on the
thread of the head, when that thread is not destroyed, and no call at all when
it is destroyed. -/
theorem resume_one_wakes_live_head (self : Nat) (s : Memory) (l : List Nat)
    (h : Holds s self l) :
    ∃ s', Waiting_threads_list.resume_one self s = .ok s' ∧
      (l = [] → s' = s) ∧
      (∀ hd tl, l = hd :: tl →
        traverse self s' = some tl ∧ s'.count_ self = tl.length ∧
        s'.next hd = none ∧ s'.prev hd = none ∧
        (s.sched_state (s.thread hd) ≠ state_t.destroyed →
          s'.calls = s.calls ++ [Call.resume (s.thread hd)]) ∧
        (s.sched_state (s.thread hd) = state_t.destroyed → s'.calls = s.calls)) ∧
      (∃ made, s'.calls = s.calls ++ made ∧ made.length ≤ 1 ∧
        (made ≠ [] ↔ ∃ hd, l.head? = some hd ∧
          s.sched_state (s.thread hd) ≠ state_t.destroyed) ∧
        ∀ c ∈ made, ∃ hd, l.head? = some hd ∧ c = Call.resume (s.thread hd)) := by
  cases l with
  | nil =>
    refine ⟨s, resume_one_empty (by simpa using h.2.2.2), fun _ => rfl, ?_, [], by simp, by simp,
      by simp, by simp⟩
    intro hd tl hl; cases hl
  | cons hd tl =>
    obtain ⟨s', hres, hholds, hnext, hprev, -, hcalls⟩ := resume_one_spec h
    refine ⟨s', hres, ?_, ?_, ?_⟩
    · intro hl; cases hl
    · intro hd' tl' hl
      cases hl
      refine ⟨holds_traverse hholds, hholds.2.2.2, hnext, hprev, ?_, ?_⟩
      · intro hlive; simp [hcalls, hlive]
      · intro hdead; simp [hcalls, hdead]
    · by_cases hst : s.sched_state (s.thread hd) = state_t.destroyed
      · exact ⟨[], by simp [hcalls, hst], by simp, by simp [hst], by simp⟩
      · exact ⟨[Call.resume (s.thread hd)], by simp [hcalls, hst], by simp, by simp [hst],
          by simp⟩

/-- An instance of the theorem above: a list whose only node has a destroyed
thread. -/
theorem resume_one_wakes_live_head_witness :
    Holds ex_d1 0 [0] ∧
    ∃ s', Waiting_threads_list.resume_one 0 ex_d1 = .ok s' ∧
      ([0] = [] → s' = ex_d1) ∧
      (∀ hd tl, [0] = hd :: tl →
        traverse 0 s' = some tl ∧ s'.count_ 0 = tl.length ∧
        s'.next hd = none ∧ s'.prev hd = none ∧
        (ex_d1.sched_state (ex_d1.thread hd) ≠ state_t.destroyed →
          s'.calls = ex_d1.calls ++ [Call.resume (ex_d1.thread hd)]) ∧
        (ex_d1.sched_state (ex_d1.thread hd) = state_t.destroyed → s'.calls = ex_d1.calls)) ∧
      (∃ made, s'.calls = ex_d1.calls ++ made ∧ made.length ≤ 1 ∧
        (made ≠ [] ↔ ∃ hd, [0].head? = some hd ∧
          ex_d1.sched_state (ex_d1.thread hd) ≠ state_t.destroyed) ∧
        ∀ c ∈ made, ∃ hd, [0].head? = some hd ∧ c = Call.resume (ex_d1.thread hd)) :=
  ⟨by decide, resume_one_wakes_live_head 0 ex_d1 [0] (by decide)⟩

/-- The loop of `resume_all` on a well-formed list: with fuel for its nodes it
returns, every node is unlinked and the list is empty; the threads that are
not destroyed are resumed in head-to-tail order. -/
theorem resume_all_spec (self : Nat) : ∀ (l : List Nat) (s : Memory) (fuel : Nat),
    Holds s self l → l.length ≤ fuel →
    ∃ s', Waiting_threads_list.resume_all self fuel s = .ok s' ∧ Holds s' self [] ∧
      (∀ x ∈ l, s'.next x = none ∧ s'.prev x = none) ∧ Frame self l s s' ∧
      s'.calls = s.calls ++ resumes s l
  | [], s, fuel, h, _ => by
    refine ⟨s, ?_, h, by simp, Frame.refl _ _ _, by simp [resumes]⟩
    have hc : s.count_ self = 0 := by simpa using h.2.2.2
    unfold Waiting_threads_list.resume_all
    simp [Double_list.empty, hc]
  | hd :: tl, s, 0, _, hf => by simp at hf
  | hd :: tl, s, fuel + 1, h, hf => by
    obtain ⟨s₁, hres, hholds, hnext, hprev, hframe, hcalls⟩ := resume_one_spec h
    obtain ⟨s', hall, hholds', hun, hframe', hcalls'⟩ :=
      resume_all_spec self tl s₁ fuel hholds (by simpa using hf)
    have hhd : hd ∉ tl := (List.nodup_cons.1 h.1).1
    have hc : s.count_ self ≠ 0 := by
      have := h.2.2.2; simp at this; omega
    refine ⟨s', ?_, hholds', ?_, ?_, ?_⟩
    · rw [Waiting_threads_list.resume_all]
      simp [Double_list.empty, hc, hres, bind, Except.bind, hall]
    · intro x hx
      rcases List.mem_cons.1 hx with rfl | hx'
      · rw [hframe'.next x hhd, hframe'.prev x hhd]; exact ⟨hnext, hprev⟩
      · exact hun x hx'
    · exact hframe.trans (hframe'.mono (fun z hz => List.mem_cons_of_mem _ hz))
    · rw [hcalls', hcalls, resumes_congr hframe.sched_state hframe.thread]
      by_cases hst : s.sched_state (s.thread hd) = state_t.destroyed <;>
        simp [resumes, hst, List.filter_cons]

/-- C12 (`resume_all` drains in priority order).  On every well-formed waiting
list of `k` nodes sorted by priority whose threads are not destroyed,
`resume_all` returns within `k` iterations; it has made exactly `k` calls, the
`resume` of the thread of each node in head-to-tail order, which is the order
of non-increasing priority; every node is unlinked and the list is empty with
`count_ == 0`. -/
theorem resume_all_drains_in_order (self : Nat) (s : Memory) (l : List Nat)
    (h : Holds s self l)
    (hs : l.Pairwise (fun u v => s.sched_prio (s.thread u) ≥ s.sched_prio (s.thread v)))
    (hlive : ∀ n ∈ l, s.sched_state (s.thread n) ≠ state_t.destroyed) :
    ∃ s', Waiting_threads_list.resume_all self l.length s = .ok s' ∧
      s'.calls = s.calls ++ l.map (fun n => Call.resume (s.thread n)) ∧
      (l.map (fun n => s.sched_prio (s.thread n))).Pairwise (fun p q => p ≥ q) ∧
      (∀ n ∈ l, s'.next n = none ∧ s'.prev n = none) ∧
      Double_list.empty self s' = true ∧ s'.head_ self = none ∧ s'.count_ self = 0 ∧
      traverse self s' = some [] := by
  obtain ⟨s', hall, hholds, hun, -, hcalls⟩ := resume_all_spec self l s l.length h (le_refl _)
  have h1 := hholds.2.2.1
  have h2 := hholds.2.2.2
  simp at h1 h2
  refine ⟨s', hall, ?_, ?_, hun, by simp [Double_list.empty, h2], h1, h2,
    holds_traverse hholds⟩
  · rw [hcalls]
    congr 1
    unfold resumes
    congr 1
    rw [List.filter_eq_self]
    intro x hx
    simpa using hlive x hx
  · exact List.pairwise_map.2 hs

/-- The waiting list of `ex_q3` holds the nodes 0, 2, 1 in this order. -/
theorem ex_q3_holds : Holds ex_q3 0 [0, 2, 1] := by decide

/-- An instance of the theorem above: the nodes with priorities 8, 4, 6, added
in this order. -/
theorem resume_all_drains_in_order_witness :
    Holds ex_q3 0 [0, 2, 1] ∧
    [0, 2, 1].Pairwise
      (fun u v => ex_q3.sched_prio (ex_q3.thread u) ≥ ex_q3.sched_prio (ex_q3.thread v)) ∧
    (∀ n ∈ [0, 2, 1], ex_q3.sched_state (ex_q3.thread n) ≠ state_t.destroyed) ∧
    ∃ s', Waiting_threads_list.resume_all 0 [0, 2, 1].length ex_q3 = .ok s' ∧
      s'.calls = ex_q3.calls ++ [0, 2, 1].map (fun n => Call.resume (ex_q3.thread n)) ∧
      ([0, 2, 1].map (fun n => ex_q3.sched_prio (ex_q3.thread n))).Pairwise
        (fun p q => p ≥ q) ∧
      (∀ n ∈ [0, 2, 1], s'.next n = none ∧ s'.prev n = none) ∧
      Double_list.empty 0 s' = true ∧ s'.head_ 0 = none ∧ s'.count_ 0 = 0 ∧
      traverse 0 s' = some [] :=
  ⟨ex_q3_holds, by decide, by decide,
    resume_all_drains_in_order 0 ex_q3 [0, 2, 1] ex_q3_holds (by decide) (by decide)⟩

/-- The scenario of C12 evaluated: the priorities of the nodes 0, 2, 1 of
`ex_q3`, in the order of their `resume` calls, are 8, 6, 4. -/
theorem ex_q3_order :
    [0, 2, 1].map (fun n => ex_q3.sched_prio (ex_q3.thread n)) = [8, 6, 4] ∧
    [0, 2, 1].map (fun n => Call.resume (ex_q3.thread n)) =
      [Call.resume 0, Call.resume 2, Call.resume 1] := by
  decide

/-! ## Removal of one node: C18 -/

/-- C18 (remove erases exactly one element).  On every well-formed list and
for every member `n`, `remove(n)` returns; the head-to-tail sequence afterwards
is the previous one with `n` erased, the other nodes in the same order, and
`count_` is one less.  When `count_` was at least 2, the head is the old
`n.next` if `n` was the head and is unchanged otherwise; when `count_` was 1
the list is empty afterwards, with a null head and `count_ == 0`. -/
theorem remove_erases_one (self : Nat) (s : Memory) (l : List Nat) (n : Nat)
    (h : Holds s self l) (hn : n ∈ l) :
    ∃ s', Double_list.remove self n s = .ok s' ∧
      traverse self s' = some (l.erase n) ∧ l.erase n = l.filter (fun x => decide (x ≠ n)) ∧
      s'.count_ self + 1 = s.count_ self ∧
      (2 ≤ s.count_ self →
        s'.head_ self = if s.head_ self = some n then s.next n else s.head_ self) ∧
      (s.count_ self = 1 →
        s'.head_ self = none ∧ s'.count_ self = 0 ∧ traverse self s' = some []) := by
  obtain ⟨s', hrem, hholds, -, -, -, -⟩ := remove_member h hn
  have hcount : s.count_ self = l.length := h.2.2.2
  have hcount' : s'.count_ self = (l.erase n).length := hholds.2.2.2
  have hlen : (l.erase n).length + 1 = l.length := by
    rw [List.length_erase_of_mem hn]
    have := List.length_pos_of_mem hn
    omega
  refine ⟨s', hrem, holds_traverse hholds, ?_, by omega, ?_, ?_⟩
  · rw [h.1.erase_eq_filter]
    congr 1
    funext x
    by_cases hx : x = n <;> simp [hx]
  · intro h2
    cases l with
    | nil => simp at hn
    | cons x t =>
      have hhead : s.head_ self = some x := by simpa using h.2.2.1
      by_cases hx : x = n
      · subst hx
        cases t with
        | nil => simp at hcount; omega
        | cons y t' =>
          have hch : List.Chain' (Adj s) (x :: y :: (t' ++ [x])) := by
            simpa using circular_cons.1 h.2.1
          have hxy : Adj s x y := (List.chain'_cons.1 hch).1
          have := hholds.2.2.1
          simp at this
          simp [hhead, this, hxy.1]
      · have hne : s.head_ self ≠ some n := by
          rw [hhead]; intro e; exact hx (Option.some.inj e)
        have := hholds.2.2.1
        rw [List.erase_cons_tail (by simpa using hx)] at this
        simp at this
        simp [this, hhead, hx]
  · intro h1
    have hl : l.erase n = [] := by
      apply List.eq_nil_of_length_eq_zero; omega
    rw [hl] at hholds
    have e1 := hholds.2.2.1
    have e2 := hholds.2.2.2
    simp at e1 e2
    exact ⟨e1, e2, holds_traverse hholds⟩

/-- An instance of the theorem above: the head of the list of `ex_w3`. -/
theorem remove_erases_one_witness :
    Holds ex_w3 0 [1, 0, 2] ∧ 1 ∈ [1, 0, 2] ∧
    ∃ s', Double_list.remove 0 1 ex_w3 = .ok s' ∧
      traverse 0 s' = some ([1, 0, 2].erase 1) ∧
      [1, 0, 2].erase 1 = [1, 0, 2].filter (fun x => decide (x ≠ 1)) ∧
      s'.count_ 0 + 1 = ex_w3.count_ 0 ∧
      (2 ≤ ex_w3.count_ 0 →
        s'.head_ 0 = if ex_w3.head_ 0 = some 1 then ex_w3.next 1 else ex_w3.head_ 0) ∧
      (ex_w3.count_ 0 = 1 →
        s'.head_ 0 = none ∧ s'.count_ 0 = 0 ∧ traverse 0 s' = some []) :=
  ⟨by decide, by decide, remove_erases_one 0 ex_w3 [1, 0, 2] 1 (by decide) (by decide)⟩

/-! ## The backward walk: C19 -/

/-- The backward walk over nodes `w` the new node goes before runs out of
fuel when given less than `w.length` steps. -/
theorem walk_back_short {s : Memory} {go : Nat → Bool} {a : Nat} :
    ∀ (w : List Nat) (fuel : Nat),
      List.Chain' (fun x y => s.prev x = some y) (w ++ [a]) → (∀ x ∈ w, go x = true) →
      fuel < w.length → walk_back s go fuel (w.head?.getD a) = .error .fuel
  | [], fuel, _, _, hf => by simp at hf
  | x :: w, 0, _, hgo, _ => by
    have hx : go x = true := hgo x (by simp)
    unfold walk_back
    simp [hx]
  | x :: w, fuel + 1, hc, hgo, hf => by
    have hx : go x = true := hgo x (by simp)
    have hc' : List.Chain' (fun x y => s.prev x = some y) (x :: (w ++ [a])) := by simpa using hc
    rw [List.chain'_cons'] at hc'
    have hp : s.prev x = some (w.head?.getD a) := by
      apply hc'.1
      cases w <;> simp
    have ih := walk_back_short w fuel hc'.2 (fun y hy => hgo y (by simp [hy]))
      (by simpa using hf)
    unfold walk_back
    simp [hx, hp, deref, bind, Except.bind, ih]

/-- In a well-formed list the nodes behind a member `a`, read from the tail,
are linked by `prev` down to `a`, and the first of them is the tail. -/
theorem holds_prev_chain {s : Memory} {self : Nat} {l₁ l₂ : List Nat} {a : Nat}
    (h : Holds s self (l₁ ++ a :: l₂)) :
    List.Chain' (fun x y => s.prev x = some y) (l₂.reverse ++ [a]) ∧
      (l₁ ++ a :: l₂).getLast? = some (l₂.reverse.head?.getD a) := by
  constructor
  · have hch : List.Chain' (Adj s) (l₁ ++ a :: l₂) := by
      have := h.2.1; unfold Circular at this
      exact this.left_of_append
    have hch2 : List.Chain' (Adj s) (a :: l₂) := hch.right_of_append
    have h3 : List.Chain' (flip (Adj s)) ((a :: l₂).reverse) :=
      List.chain'_reverse.2 (by simpa [flip] using hch2)
    have h4 : List.Chain' (flip (Adj s)) (l₂.reverse ++ [a]) := by simpa using h3
    exact h4.imp (fun x y hxy => hxy.2)
  · rcases List.eq_nil_or_concat' l₂ with e | ⟨q, t, e⟩
    · subst e; simp
    · subst e
      have e' : l₁ ++ a :: (q ++ [t]) = (l₁ ++ a :: q) ++ [t] := by simp
      rw [e', List.getLast?_concat]; simp

/-- The walk of an `add` that takes the middle branch on a well-formed list:
it stops at the last node the new node does not go before, after as many steps
as there are nodes behind that node. -/
theorem walk_back_middle {s : Memory} {self : Nat} {l : List Nat} (h : Holds s self l)
    (go : Nat → Bool) {hd tl : Nat} (hhd : l.head? = some hd) (htl : l.getLast? = some tl)
    (hgo : go hd = false) :
    ∃ l₁ a l₂, l = l₁ ++ a :: l₂ ∧ l₂.length ≤ s.count_ self - 1 ∧ go a = false ∧
      (∀ x ∈ l₂, go x = true) ∧
      (∀ fuel, l₂.length ≤ fuel → walk_back s go fuel tl = .ok a) ∧
      (∀ fuel, fuel < l₂.length → walk_back s go fuel tl = .error .fuel) := by
  have hex : ∃ x ∈ l, go x = false := ⟨hd, List.mem_of_mem_head? hhd, hgo⟩
  obtain ⟨l₁, a, l₂, hl, ha, hl₂⟩ := exists_last_stop go l hex
  subst hl
  obtain ⟨hch, hlast⟩ := holds_prev_chain h
  rw [htl] at hlast
  have htl' : l₂.reverse.head?.getD a = tl := (Option.some.inj hlast).symm
  have hcount : s.count_ self = (l₁ ++ a :: l₂).length := h.2.2.2
  refine ⟨l₁, a, l₂, rfl, by rw [hcount]; simp, ha, hl₂, ?_, ?_⟩
  · intro fuel hf
    have := walk_back_spec (s := s) ha l₂.reverse fuel hch
      (fun x hx => hl₂ x (by simpa using hx)) (by simpa using hf)
    rwa [htl'] at this
  · intro fuel hf
    have := @walk_back_short s go a l₂.reverse fuel hch
      (fun x hx => hl₂ x (by simpa using hx)) (by simpa using hf)
    rwa [htl'] at this

/-- C19 (the backward walk in `add` terminates).  On every well-formed list
of `count_` nodes, sorted or not, with head `hd` and tail `tl`: when
`tl.priority < prio ≤ hd.priority`, the loop of `Waiting_threads_list::add`
started at the tail stops at a node `a` of the list with priority at least
`prio`, after exactly as many steps as there are nodes behind `a`, which is at
most `count_ - 1`; all the nodes stepped over have a priority below `prio`, so
the walk stays between `a` and the tail and does not step back past the head.
The same holds for the loop of `Clock_timestamps_list::add` when
`hd.timestamp ≤ timestamp < tl.timestamp`. -/
theorem backward_walk_terminates (self : Nat) (s : Memory) (l : List Nat) (hd tl : Nat)
    (h : Holds s self l) (hhd : l.head? = some hd) (htl : l.getLast? = some tl) :
    (∀ prio, s.sched_prio (s.thread tl) < prio → prio ≤ s.sched_prio (s.thread hd) →
      ∃ l₁ a l₂, l = l₁ ++ a :: l₂ ∧ l₂.length ≤ s.count_ self - 1 ∧
        prio ≤ s.sched_prio (s.thread a) ∧ (∀ x ∈ l₂, s.sched_prio (s.thread x) < prio) ∧
        (∀ fuel, l₂.length ≤ fuel → Waiting_threads_list.add_loop s prio fuel tl = .ok a) ∧
        (∀ fuel, fuel < l₂.length →
          Waiting_threads_list.add_loop s prio fuel tl = .error .fuel)) ∧
    (∀ timestamp, timestamp < s.timestamp tl → s.timestamp hd ≤ timestamp →
      ∃ l₁ a l₂, l = l₁ ++ a :: l₂ ∧ l₂.length ≤ s.count_ self - 1 ∧
        s.timestamp a ≤ timestamp ∧ (∀ x ∈ l₂, timestamp < s.timestamp x) ∧
        (∀ fuel, l₂.length ≤ fuel →
          Clock_timestamps_list.add_loop s timestamp fuel tl = .ok a) ∧
        (∀ fuel, fuel < l₂.length →
          Clock_timestamps_list.add_loop s timestamp fuel tl = .error .fuel)) := by
  constructor
  · intro prio _ hp
    obtain ⟨l₁, a, l₂, hl, hlen, ha, hl₂, hok, hshort⟩ :=
      walk_back_middle h (fun a => decide (prio > s.sched_prio (s.thread a))) hhd htl
        (by simpa using hp)
    refine ⟨l₁, a, l₂, hl, hlen, by simpa using ha, fun x hx => by simpa using hl₂ x hx, ?_, ?_⟩
    · intro fuel hf; rw [wadd_loop_eq]; exact hok fuel hf
    · intro fuel hf; rw [wadd_loop_eq]; exact hshort fuel hf
  · intro timestamp _ ht
    obtain ⟨l₁, a, l₂, hl, hlen, ha, hl₂, hok, hshort⟩ :=
      walk_back_middle h (fun a => decide (timestamp < s.timestamp a)) hhd htl
        (by simpa using ht)
    refine ⟨l₁, a, l₂, hl, hlen, by simpa using ha, fun x hx => by simpa using hl₂ x hx, ?_, ?_⟩
    · intro fuel hf; rw [cadd_loop_eq]; exact hok fuel hf
    · intro fuel hf; rw [cadd_loop_eq]; exact hshort fuel hf

/-- The waiting list of `ex_m3` holds the nodes 0, 1, 2 in this order. -/
theorem ex_m3_holds : Holds ex_m3 0 [0, 1, 2] := by decide

/-- An instance of the theorem above: the list of `ex_m3`, with priorities 10,
5, 5 and timestamps 10, 20, 30, walked with priority 7 and with timestamp
15. -/
theorem backward_walk_terminates_witness :
    Holds ex_m3 0 [0, 1, 2] ∧ [0, 1, 2].head? = some 0 ∧ [0, 1, 2].getLast? = some 2 ∧
    ex_m3.sched_prio (ex_m3.thread 2) < 7 ∧ 7 ≤ ex_m3.sched_prio (ex_m3.thread 0) ∧
    (∃ l₁ a l₂, [0, 1, 2] = l₁ ++ a :: l₂ ∧ l₂.length ≤ ex_m3.count_ 0 - 1 ∧
      7 ≤ ex_m3.sched_prio (ex_m3.thread a) ∧
      (∀ x ∈ l₂, ex_m3.sched_prio (ex_m3.thread x) < 7) ∧
      (∀ fuel, l₂.length ≤ fuel → Waiting_threads_list.add_loop ex_m3 7 fuel 2 = .ok a) ∧
      (∀ fuel, fuel < l₂.length →
        Waiting_threads_list.add_loop ex_m3 7 fuel 2 = .error .fuel)) ∧
    15 < ex_m3.timestamp 2 ∧ ex_m3.timestamp 0 ≤ 15 ∧
    (∃ l₁ a l₂, [0, 1, 2] = l₁ ++ a :: l₂ ∧ l₂.length ≤ ex_m3.count_ 0 - 1 ∧
      ex_m3.timestamp a ≤ 15 ∧ (∀ x ∈ l₂, 15 < ex_m3.timestamp x) ∧
      (∀ fuel, l₂.length ≤ fuel → Clock_timestamps_list.add_loop ex_m3 15 fuel 2 = .ok a) ∧
      (∀ fuel, fuel < l₂.length →
        Clock_timestamps_list.add_loop ex_m3 15 fuel 2 = .error .fuel)) :=
  ⟨ex_m3_holds, by decide, by decide, by decide, by decide,
    (backward_walk_terminates 0 ex_m3 [0, 1, 2] 0 2 ex_m3_holds (by decide) (by decide)).1 7
      (by decide) (by decide),
    by decide, by decide,
    (backward_walk_terminates 0 ex_m3 [0, 1, 2] 0 2 ex_m3_holds (by decide) (by decide)).2 15
      (by decide) (by decide)⟩

/-- The scenario of C19 evaluated on `ex_m3`: with priority 7 the walk from
the tail stops at the head after two steps, one step is not enough; likewise
with timestamp 15. -/
theorem ex_m3_walks :
    ex_m3.sched_prio (ex_m3.thread 2) < 7 ∧ 7 ≤ ex_m3.sched_prio (ex_m3.thread 0) ∧
    Waiting_threads_list.add_loop ex_m3 7 2 2 = .ok 0 ∧
    Waiting_threads_list.add_loop ex_m3 7 1 2 = .error .fuel ∧
    15 < ex_m3.timestamp 2 ∧ ex_m3.timestamp 0 ≤ 15 ∧
    Clock_timestamps_list.add_loop ex_m3 15 2 2 = .ok 0 ∧
    Clock_timestamps_list.add_loop ex_m3 15 1 2 = .error .fuel :=
  ⟨by decide, by decide, rfl, rfl, by decide, by decide, rfl, rfl⟩

/-! ## A timer that re-arms: C20 -/

/-- C20 (a timer that re-arms itself is not fired in the same drain).  Let a
well-formed clock list hold the single timer node `n`, due at `now`, whose
routine adds the node `m` with a timestamp greater than `now` to the same
list.  Then `check_timestamp(now)` returns after one iteration; the routine
is called exactly once, in a memory in which `n` is already unlinked and the
list is empty; afterwards the list holds exactly `m`, as its head, with
`count_ == 1`. -/
theorem timer_rearm_not_fired (isr : Isr) (ndebug : Bool) (fuel self now : Nat) (s : Memory)
    (n m : Nat) (h : Holds s self [n]) (hcls : s.cls n = node_class.timer_node)
    (hl : s.list n = self) (hdue : s.timestamp n ≤ now) (hm : now < s.timestamp m)
    (hisr : ∀ s₁, isr (s.timer n) s₁ = Clock_timestamps_list.add ndebug fuel self m s₁) :
    ∃ s₁ s', Double_list.remove self n s = .ok s₁ ∧
      s₁.next n = none ∧ s₁.prev n = none ∧ Double_list.empty self s₁ = true ∧
      isr (s.timer n)
        { s₁ with calls := s₁.calls ++ [Call.interrupt_service_routine (s.timer n)] } = .ok s' ∧
      (∀ k, Clock_timestamps_list.check_timestamp isr self now (k + 1) s = .ok s') ∧
      s'.calls = s.calls ++ [Call.interrupt_service_routine (s.timer n)] ∧
      traverse self s' = some [m] ∧ Double_list.head self s' = some m ∧ s'.count_ self = 1 ∧
      s'.next n = none ∧ s'.prev n = none := by
  have hmn : m ≠ n := by
    rintro rfl; omega
  obtain ⟨s₁, hrem, hholds, hnext, hprev, hframe, hcalls⟩ := remove_member h (List.mem_singleton_self n)
  have herase : [n].erase n = [] := by simp
  rw [herase] at hholds
  have hhead₁ : s₁.head_ self = none := by simpa using hholds.2.2.1
  have hcount₁ : s₁.count_ self = 0 := by simpa using hholds.2.2.2
  have hadd : isr (s.timer n)
      { s₁ with calls := s₁.calls ++ [Call.interrupt_service_routine (s.timer n)] } =
      .ok (link_first self m
        { s₁ with calls := s₁.calls ++ [Call.interrupt_service_routine (s.timer n)] }) := by
    rw [hisr, cadd_eq]
    simp [hhead₁]
  obtain ⟨hholds', -, -⟩ := link_first_spec
    { s₁ with calls := s₁.calls ++ [Call.interrupt_service_routine (s.timer n)] } self m
  refine ⟨s₁, _, hrem, hnext, hprev, by simp [Double_list.empty, hcount₁], hadd, ?_, ?_,
    holds_traverse hholds', by simpa [Double_list.head] using hholds'.2.2.1,
    by simpa using hholds'.2.2.2, ?_, ?_⟩
  · intro k
    have hc : s.count_ self ≠ 0 := by
      have := h.2.2.2; simp at this; omega
    have hh : s.head_ self = some n := by simpa using h.2.2.1
    rw [check_timestamp_due isr k hc hh hdue]
    have hact : Timestamp_node.action isr n s = .ok (link_first self m
        { s₁ with calls := s₁.calls ++ [Call.interrupt_service_routine (s.timer n)] }) := by
      have ht : s₁.timer n = s.timer n := by rw [hframe.timer]
      simp [Timestamp_node.action, hcls, Timer_node.action, hl, hrem, bind, Except.bind,
        ht, hadd]
    simp only [hact, bind, Except.bind]
    refine @check_timestamp_undue isr self m now k _ ?_ ?_
    · simp [link_first]
    · simp [link_first, hframe.timestamp]; exact hm
  · simp [link_first, hcalls]
  · simp [link_first, Function.update, hmn.symm, hnext]
  · simp [link_first, Function.update, hmn.symm, hprev]

/-- The clock list of `ex_t1` holds node 0 only. -/
theorem ex_t1_holds : Holds ex_t1 0 [0] := by decide

/-- An instance of the theorem above: the timer node at timestamp 100 whose
routine adds a node at timestamp 150, with `now = 100`. -/
theorem timer_rearm_not_fired_witness :
    Holds ex_t1 0 [0] ∧ ex_t1.cls 0 = node_class.timer_node ∧ ex_t1.list 0 = 0 ∧
    ex_t1.timestamp 0 ≤ 100 ∧ 100 < ex_t1.timestamp 1 ∧
    (∀ s₁, ex_rearm (ex_t1.timer 0) s₁ = Clock_timestamps_list.add false 1 0 1 s₁) ∧
    ∃ s₁ s', Double_list.remove 0 0 ex_t1 = .ok s₁ ∧
      s₁.next 0 = none ∧ s₁.prev 0 = none ∧ Double_list.empty 0 s₁ = true ∧
      ex_rearm (ex_t1.timer 0)
        { s₁ with calls := s₁.calls ++ [Call.interrupt_service_routine (ex_t1.timer 0)] } =
          .ok s' ∧
      (∀ k, Clock_timestamps_list.check_timestamp ex_rearm 0 100 (k + 1) ex_t1 = .ok s') ∧
      s'.calls = ex_t1.calls ++ [Call.interrupt_service_routine (ex_t1.timer 0)] ∧
      traverse 0 s' = some [1] ∧ Double_list.head 0 s' = some 1 ∧ s'.count_ 0 = 1 ∧
      s'.next 0 = none ∧ s'.prev 0 = none :=
  ⟨ex_t1_holds, by decide, by decide, by decide, by decide, fun _ => rfl,
    timer_rearm_not_fired ex_rearm false 1 0 100 ex_t1 0 1 ex_t1_holds (by decide) (by decide)
      (by decide) (by decide) (fun _ => rfl)⟩

/-! ## Runs of clock adds and of actions -/

/-- The drain of a well-formed clock list that starts with the due nodes `d`:
`check_timestamp` first runs the actions of the nodes `d`, in this order, and
then goes on with the rest of the list. -/
theorem check_timestamp_actions (isr : Isr) (self now : Nat) :
    ∀ (d r : List Nat) (s : Memory), Holds s self (d ++ r) →
      (∀ x ∈ d, s.timestamp x ≤ now) → (∀ x ∈ d ++ r, s.list x = self) →
      ((∀ x ∈ d ++ r, s.cls x = node_class.timeout_thread_node) ∨ Isr.Quiet isr) →
      ∃ s', actions isr d s = .ok s' ∧ Holds s' self r ∧
        (∀ x ∈ d, s'.next x = none ∧ s'.prev x = none) ∧
        (∀ z, z ∉ d ++ r → s'.next z = s.next z ∧ s'.prev z = s.prev z) ∧
        s'.list = s.list ∧ s'.timestamp = s.timestamp ∧ s'.cls = s.cls ∧
        ∀ fuel, Clock_timestamps_list.check_timestamp isr self now (fuel + d.length) s =
          Clock_timestamps_list.check_timestamp isr self now fuel s'
  | [], r, s, h, _, _, _ =>
    ⟨s, rfl, by simpa using h, by simp, fun _ _ => ⟨rfl, rfl⟩, rfl, rfl, rfl, fun _ => rfl⟩
  | x :: d, r, s, h, hdue, hl, hact => by
    have hhead : s.head_ self = some x := by simpa using h.2.2.1
    have hcount : s.count_ self ≠ 0 := by
      have := h.2.2.2; simp at this; omega
    obtain ⟨s₁, ha, hholds, hun, hfr, e1, e2, e3, -, -⟩ :=
      action_spec isr h (List.mem_cons_self x (d ++ r)) (hl x (by simp))
        (hact.imp (fun hc => hc x (by simp)) id)
    have herase : (x :: d ++ r).erase x = d ++ r := by simp
    rw [herase] at hholds
    have hx : x ∉ d ++ r := (List.nodup_cons.1 h.1).1
    obtain ⟨s', hacts, hholds', hun', hfr', e1', e2', e3', hck⟩ :=
      check_timestamp_actions isr self now d r s₁ hholds
        (fun y hy => by rw [e2]; exact hdue y (List.mem_cons_of_mem _ hy))
        (fun y hy => by rw [e1]; exact hl y (List.mem_cons_of_mem _ hy))
        (hact.imp (fun hc y hy => by rw [e3]; exact hc y (List.mem_cons_of_mem _ hy)) id)
    refine ⟨s', ?_, hholds', ?_, ?_, e1'.trans e1, e2'.trans e2, e3'.trans e3, ?_⟩
    · simp [actions, ha, bind, Except.bind, hacts]
    · intro y hy
      rcases List.mem_cons.1 hy with rfl | hy'
      · rw [(hfr' y hx).1, (hfr' y hx).2]; exact hun
      · exact hun' y hy'
    · intro z hz
      have hz' : z ∉ d ++ r := fun hm => hz (List.mem_cons_of_mem _ hm)
      rw [(hfr' z hz').1, (hfr' z hz').2]
      exact hfr z hz
    · intro fuel
      have : fuel + (x :: d).length = (fuel + d.length) + 1 := by simp; omega
      rw [this, check_timestamp_due isr _ hcount hhead (hdue x (by simp))]
      simp only [ha, bind, Except.bind]
      exact hck fuel

/-- The example memory `ex_c3` follows itself by no add. -/
theorem ex_c33_adds : Clock_adds 0 ex_c3 ex_c3 := Clock_adds.refl ex_c3

/-! ## `add` as a stable sort: C14 -/

/-- Two sequences sorted by non-increasing key with the same elements of each
key, in the same order, are equal. -/
theorem sorted_bands_unique (key : Nat → Nat) : ∀ (l₁ l₂ : List Nat),
    l₁.Pairwise (fun u v => key u ≥ key v) → l₂.Pairwise (fun u v => key u ≥ key v) →
    (∀ p, l₁.filter (fun x => decide (key x = p)) = l₂.filter (fun x => decide (key x = p))) →
    l₁ = l₂
  | [], [], _, _, _ => rfl
  | [], y :: l₂, _, _, h => by
    have := h (key y); simp at this
  | x :: l₁, [], _, _, h => by
    have := h (key x); simp at this
  | x :: l₁, y :: l₂, h₁, h₂, h => by
    have hx : x ∈ y :: l₂ := by
      have : x ∈ (y :: l₂).filter (fun z => decide (key z = key x)) := by
        rw [← h (key x)]; simp
      exact List.mem_of_mem_filter this
    have hy : y ∈ x :: l₁ := by
      have : y ∈ (x :: l₁).filter (fun z => decide (key z = key y)) := by
        rw [h (key y)]; simp
      exact List.mem_of_mem_filter this
    have hxy : key y ≥ key x := by
      rcases List.mem_cons.1 hx with e | hm
      · rw [e]
      · exact List.rel_of_pairwise_cons h₂ hm
    have hyx : key x ≥ key y := by
      rcases List.mem_cons.1 hy with e | hm
      · rw [e]
      · exact List.rel_of_pairwise_cons h₁ hm
    have hk : key x = key y := le_antisymm hxy hyx
    have hhead := h (key x)
    simp only [List.filter_cons, hk, decide_True, if_true] at hhead
    have e : x = y := (List.cons.inj hhead).1
    subst e
    have htail : l₁ = l₂ := by
      apply sorted_bands_unique key l₁ l₂ (List.Pairwise.of_cons h₁) (List.Pairwise.of_cons h₂)
      intro p
      have := h p
      by_cases hp : key x = p
      · simp only [List.filter_cons, hp, decide_True, if_true] at this
        exact (List.cons.inj this).2
      · simpa [List.filter_cons, hp] using this
    rw [htail]

/-- The elements of each priority are in the stable sort in the order of the
sequence. -/
theorem stable_sort_desc_band (prio : Nat → Nat) (ns : List Nat) (p : Nat) :
    (stable_sort_desc prio ns).filter (fun x => decide (prio x = p)) =
      ns.filter (fun x => decide (prio x = p)) := by
  have hsub : List.Sublist (ns.filter (fun x => decide (prio x = p))) (stable_sort_desc prio ns) := by
    apply List.sublist_insertionSort
    · rw [List.pairwise_iff_forall_sublist]
      intro a b hab
      have ha : a ∈ ns.filter (fun x => decide (prio x = p)) := hab.subset (by simp)
      have hb : b ∈ ns.filter (fun x => decide (prio x = p)) := hab.subset (by simp)
      simp at ha hb
      show prio a ≥ prio b
      omega
    · exact List.filter_sublist ns
  have hsub' := hsub.filter (fun x => decide (prio x = p))
  rw [List.filter_filter] at hsub'
  simp only [Bool.and_self] at hsub'
  have hperm : List.Perm ((stable_sort_desc prio ns).filter (fun x => decide (prio x = p)))
      (ns.filter (fun x => decide (prio x = p))) :=
    (List.perm_insertionSort _ ns).filter _
  exact (hsub'.eq_of_length hperm.length_eq.symm).symm

/-- The stable sort is sorted by non-increasing priority. -/
theorem stable_sort_desc_sorted (prio : Nat → Nat) (ns : List Nat) :
    (stable_sort_desc prio ns).Pairwise (fun u v => prio u ≥ prio v) := by
  haveI : IsTotal Nat (fun a b => prio a ≥ prio b) := ⟨fun a b => Nat.le_total _ _⟩
  haveI : IsTrans Nat (fun a b => prio a ≥ prio b) := ⟨fun a b c h₁ h₂ => le_trans h₂ h₁⟩
  exact List.sorted_insertionSort (fun a b => prio a ≥ prio b) ns

/-- Adding the nodes `ns` to a well-formed sorted list that holds the nodes
`pre` by bands: the calls return and the list holds the nodes `pre ++ ns` by
bands, sorted. -/
theorem add_seq_spec (self : Nat) : ∀ (ns pre : List Nat) (s : Memory) (l : List Nat),
    Holds s self l →
    l.Pairwise (fun u v => s.sched_prio (s.thread u) ≥ s.sched_prio (s.thread v)) →
    (∀ p, l.filter (fun x => decide (s.sched_prio (s.thread x) = p)) =
      pre.filter (fun x => decide (s.sched_prio (s.thread x) = p))) →
    (∀ x, x ∈ l ↔ x ∈ pre) → (pre ++ ns).Nodup →
    ∃ s' l', add_seq self ns s = .ok s' ∧ Holds s' self l' ∧
      s'.sched_prio = s.sched_prio ∧ s'.thread = s.thread ∧
      l'.Pairwise (fun u v => s.sched_prio (s.thread u) ≥ s.sched_prio (s.thread v)) ∧
      (∀ p, l'.filter (fun x => decide (s.sched_prio (s.thread x) = p)) =
        (pre ++ ns).filter (fun x => decide (s.sched_prio (s.thread x) = p))) ∧
      (∀ x, x ∈ l' ↔ x ∈ pre ++ ns)
  | [], pre, s, l, h, hs, hb, hm, _ =>
    ⟨s, l, rfl, h, rfl, rfl, hs, by simpa using hb, by simpa using hm⟩
  | n :: ns, pre, s, l, h, hs, hb, hm, hnd => by
    have hn : n ∉ l := by
      rw [hm]
      intro hmem
      have := List.nodup_append.1 hnd
      exact this.2.2 hmem (by simp)
    obtain ⟨s₁, l₁, l₂, hadd, hl, hholds, hframe, -, hpl⟩ :=
      wadd_spec h hn (s.count_ self) (by rw [h.2.2.2]; omega)
    subst hl
    have H1 : ∀ x y, s.sched_prio (s.thread x) ≥ s.sched_prio (s.thread y) →
        (fun a => decide (s.sched_prio (s.thread n) > s.sched_prio (s.thread a))) x = true →
        (fun a => decide (s.sched_prio (s.thread n) > s.sched_prio (s.thread a))) y = true := by
      intro x y hxy hx; simp at hx ⊢; omega
    obtain ⟨h1, h2⟩ := placed_split H1 hs hpl
    have hs₁ : (l₁ ++ n :: l₂).Pairwise
        (fun u v => s.sched_prio (s.thread u) ≥ s.sched_prio (s.thread v)) :=
      placed_pairwise H1 (fun x hx => by simp at hx; omega) (fun x hx => by simp at hx; omega)
        hs hpl
    have hb₁ : ∀ p, (l₁ ++ n :: l₂).filter (fun x => decide (s.sched_prio (s.thread x) = p)) =
        (pre ++ [n]).filter (fun x => decide (s.sched_prio (s.thread x) = p)) := by
      intro p
      have hbp := hb p
      rw [List.filter_append] at hbp
      rw [List.filter_append, List.filter_append, ← hbp, List.filter_cons]
      by_cases hp : s.sched_prio (s.thread n) = p
      · have hl₂ : l₂.filter (fun x => decide (s.sched_prio (s.thread x) = p)) = [] := by
          rw [List.filter_eq_nil_iff]
          intro x hx
          have := h2 x hx
          simp at this ⊢; omega
        simp [hp, hl₂]
      · simp [hp]
    have hm₁ : ∀ x, x ∈ l₁ ++ n :: l₂ ↔ x ∈ pre ++ [n] := by
      intro x
      have := hm x
      simp at this ⊢
      tauto
    obtain ⟨s', l', hseq, hholds', e1, e2, hs', hb', hm'⟩ :=
      add_seq_spec self ns (pre ++ [n]) s₁ (l₁ ++ n :: l₂) hholds
        (by rw [hframe.sched_prio, hframe.thread]; exact hs₁)
        (by rw [hframe.sched_prio, hframe.thread]; exact hb₁) hm₁ (by simpa using hnd)
    rw [hframe.sched_prio, hframe.thread] at hs' hb'
    refine ⟨s', l', ?_, hholds', e1.trans hframe.sched_prio, e2.trans hframe.thread, hs',
      by simpa using hb', by simpa using hm'⟩
    simp [add_seq, hadd, bind, Except.bind, hseq]

/-- C14 (waiting-list `add` is a stable descending insertion sort).  For
every sequence `ns` of distinct nodes added one by one with
`Waiting_threads_list::add` to an empty list, the calls return and the
head-to-tail traversal is the stable sort of `ns` by descending priority: it
is sorted by non-increasing priority and the nodes of each priority are in the
order of `ns`. -/
theorem add_is_stable_sort (self : Nat) (s : Memory) (ns : List Nat)
    (hhead : s.head_ self = none) (hcount : s.count_ self = 0) (hnd : ns.Nodup) :
    ∃ s', add_seq self ns s = .ok s' ∧
      traverse self s' =
        some (stable_sort_desc (fun n => s.sched_prio (s.thread n)) ns) ∧
      (∃ l, traverse self s' = some l ∧
        l.Pairwise (fun u v => s.sched_prio (s.thread u) ≥ s.sched_prio (s.thread v)) ∧
        ∀ p, l.filter (fun x => decide (s.sched_prio (s.thread x) = p)) =
          ns.filter (fun x => decide (s.sched_prio (s.thread x) = p))) := by
  have h0 : Holds s self [] := ⟨List.nodup_nil, circular_nil s, by simpa using hhead,
    by simpa using hcount⟩
  obtain ⟨s', l', hseq, hholds, -, -, hs, hb, -⟩ :=
    add_seq_spec self ns [] s [] h0 List.Pairwise.nil (by simp) (by simp) (by simpa using hnd)
  have hb' : ∀ p, l'.filter (fun x => decide (s.sched_prio (s.thread x) = p)) =
      ns.filter (fun x => decide (s.sched_prio (s.thread x) = p)) := by simpa using hb
  have heq : l' = stable_sort_desc (fun n => s.sched_prio (s.thread n)) ns := by
    apply sorted_bands_unique (fun n => s.sched_prio (s.thread n)) _ _ hs
      (stable_sort_desc_sorted _ ns)
    intro p
    rw [hb' p, stable_sort_desc_band]
  refine ⟨s', hseq, ?_, l', holds_traverse hholds, hs, hb'⟩
  rw [← heq]; exact holds_traverse hholds

/-- An instance of the theorem above: the nodes 0, 1, 2, 3, 4 with priorities
5, 10, 5, 7, 10. -/
theorem add_is_stable_sort_witness :
    ex_p0.head_ 0 = none ∧ ex_p0.count_ 0 = 0 ∧ [0, 1, 2, 3, 4].Nodup ∧
    ∃ s', add_seq 0 [0, 1, 2, 3, 4] ex_p0 = .ok s' ∧
      traverse 0 s' =
        some (stable_sort_desc (fun n => ex_p0.sched_prio (ex_p0.thread n)) [0, 1, 2, 3, 4]) ∧
      (∃ l, traverse 0 s' = some l ∧
        l.Pairwise
          (fun u v => ex_p0.sched_prio (ex_p0.thread u) ≥ ex_p0.sched_prio (ex_p0.thread v)) ∧
        ∀ p, l.filter (fun x => decide (ex_p0.sched_prio (ex_p0.thread x) = p)) =
          [0, 1, 2, 3, 4].filter (fun x => decide (ex_p0.sched_prio (ex_p0.thread x) = p))) :=
  ⟨rfl, rfl, by decide, add_is_stable_sort 0 ex_p0 [0, 1, 2, 3, 4] rfl rfl (by decide)⟩

/-- The scenario of C14 evaluated: the stable sort of the nodes with
priorities 5, 10, 5, 7, 10 is the sequence of the nodes 1, 4, 3, 0, 2, with
priorities 10, 10, 7, 5, 5. -/
theorem ex_p0_sorted :
    stable_sort_desc (fun n => ex_p0.sched_prio (ex_p0.thread n)) [0, 1, 2, 3, 4] =
      [1, 4, 3, 0, 2] ∧
    [1, 4, 3, 0, 2].map (fun n => ex_p0.sched_prio (ex_p0.thread n)) = [10, 10, 7, 5, 5] := by
  decide

/-! ## Failure of `add`: C15 -/

/-- On a well-formed, timestamp-ordered, non-empty list the assertion of
`Clock_timestamps_list::add` fails exactly when the list has a node with the
timestamp 0 and no node with a timestamp up to the one of the new node has
another timestamp; otherwise `add` returns. -/
theorem cadd_assert {s : Memory} {self : Nat} {l : List Nat} (h : Holds s self l)
    {n : Nat} (hn : n ∉ l) (hs : l.Pairwise (fun u v => s.timestamp u ≤ s.timestamp v))
    (fuel : Nat) (hf : l.length ≤ fuel + 1) :
    (((∃ x ∈ l, s.timestamp x = 0) ∧
        ∀ x ∈ l, s.timestamp x ≤ s.timestamp n → s.timestamp x = 0) →
      Clock_timestamps_list.add false fuel self n s = .error .assertion) ∧
    (¬ ((∃ x ∈ l, s.timestamp x = 0) ∧
        ∀ x ∈ l, s.timestamp x ≤ s.timestamp n → s.timestamp x = 0) →
      ∃ s', Clock_timestamps_list.add false fuel self n s = .ok s') := by
  rw [cadd_eq]
  cases l with
  | nil =>
    have hh : s.head_ self = none := by simpa using h.2.2.1
    rw [if_pos hh]
    exact ⟨fun hc => by simp at hc, fun _ => ⟨_, rfl⟩⟩
  | cons c cs =>
    have hh : s.head_ self ≠ none := by
      have := h.2.2.1; simp at this; simp [this]
    rw [if_neg hh]
    obtain ⟨front, a, l₁, l₂, hpos, hl, hfr, hnf⟩ :=
      position_spec h (by simp) (fun a => decide (s.timestamp n < s.timestamp a)) hf
    rw [hl] at h hn hs
    obtain ⟨s', hlink, -⟩ := link_spec h hn front (fun hf => (hfr hf).1)
    have hiff : s.timestamp a = 0 ↔ ((∃ x ∈ c :: cs, s.timestamp x = 0) ∧
        ∀ x ∈ c :: cs, s.timestamp x ≤ s.timestamp n → s.timestamp x = 0) := by
      rw [hl]
      have hs' := List.pairwise_append.1 hs
      have hle₁ : ∀ y ∈ l₁, s.timestamp y ≤ s.timestamp a :=
        fun y hy => hs'.2.2 y hy a (by simp)
      cases front with
      | true =>
        obtain ⟨hl₂, hgo⟩ := hfr rfl
        subst hl₂
        have hhead : ∀ y ∈ l₁ ++ [a], ∃ z ∈ l₁ ++ [a],
            s.timestamp n < s.timestamp z ∧ s.timestamp z ≤ s.timestamp y := by
          intro y hy
          cases l₁ with
          | nil =>
            have e : y = a := by simpa using hy
            have := hgo a (by rw [hl]; simp)
            exact ⟨a, by simp, by simpa using this, by rw [e]⟩
          | cons z t =>
            have hz := hgo z (by rw [hl]; simp)
            refine ⟨z, by simp, by simpa using hz, ?_⟩
            have hs2 : (z :: (t ++ [a])).Pairwise
                (fun u v => s.timestamp u ≤ s.timestamp v) := by simpa using hs
            rcases List.mem_cons.1 (by simpa using hy : y ∈ z :: (t ++ [a])) with e | hm
            · rw [e]
            · exact List.rel_of_pairwise_cons hs2 hm
        constructor
        · intro ha
          obtain ⟨z, -, h1, h2⟩ := hhead a (by simp)
          omega
        · rintro ⟨⟨y, hy, hy0⟩, -⟩
          obtain ⟨z, -, h1, h2⟩ := hhead y hy
          omega
      | false =>
        obtain ⟨hga, hgo⟩ := hnf rfl
        have hga' : s.timestamp a ≤ s.timestamp n := by simpa using hga
        constructor
        · intro ha
          refine ⟨⟨a, by simp, ha⟩, ?_⟩
          intro y hy hyn
          rcases List.mem_append.1 hy with h1 | h2
          · have := hle₁ y h1; omega
          · rcases List.mem_cons.1 h2 with e | h3
            · rw [e]; exact ha
            · have := hgo y h3
              simp at this; omega
        · rintro ⟨-, hall⟩
          exact hall a (by simp) hga'
    constructor
    · intro hc
      have ha := hiff.2 hc
      simp [hpos, bind, Except.bind, ha]
    · intro hc
      have ha : s.timestamp a ≠ 0 := fun e => hc (hiff.1 e)
      refine ⟨s', ?_⟩
      simp [hpos, bind, Except.bind, ha, hlink]

/-- The claim C15 fails on the code: in the clock list 0 of `ex_z1`, reached
by one `add`, well formed and ordered with the single node 0 of timestamp 0,
`Clock_timestamps_list::add` of the unlinked node 1 of timestamp 5 fails its
assertion `after->timestamp != 0`, whatever the bound on its loop. -/
theorem add_assertion_fails :
    Clock_reach 0 ex_z1 ∧ Holds ex_z1 0 [0] ∧
    [0].Pairwise (fun u v => ex_z1.timestamp u ≤ ex_z1.timestamp v) ∧
    ex_z1.next 1 = none ∧ ex_z1.prev 1 = none ∧
    ex_z1.timestamp 0 = 0 ∧ ex_z1.timestamp 1 = 5 ∧
    ∀ fuel, Clock_timestamps_list.add false fuel 0 1 ex_z1 = .error .assertion :=
  ⟨@Clock_reach.add 0 ex_z0 ex_z1 false 0 0 (Clock_reach.init (fun _ => rfl) rfl rfl) rfl rfl,
    by decide, by decide, rfl, rfl, rfl, rfl, fun _ => rfl⟩

/-- C15 (when `add` fails), amended.  For every well-formed list with the
nodes `l` and every node `n` not in it, with any priorities and timestamps,
and every bound of at least `count_ - 1` steps on the loop:
`Waiting_threads_list::add` returns; `Clock_timestamps_list::add` returns when
the assertion is compiled out; and with the assertion compiled in, on a
timestamp-ordered list, `Clock_timestamps_list::add` fails the assertion
`after->timestamp != 0` when the list has a node with the timestamp 0 and every
node with a timestamp up to the one of `n` has the timestamp 0, and returns
otherwise, in particular when no node of the list has the timestamp 0. -/
theorem add_fails_only_on_zero_timestamp (self : Nat) (s : Memory) (l : List Nat) (n : Nat)
    (h : Holds s self l) (hn : n ∉ l) (fuel : Nat) (hf : s.count_ self - 1 ≤ fuel) :
    (∃ s', Waiting_threads_list.add fuel self n s = .ok s') ∧
    (∃ s', Clock_timestamps_list.add true fuel self n s = .ok s') ∧
    (l.Pairwise (fun u v => s.timestamp u ≤ s.timestamp v) →
      (((∃ x ∈ l, s.timestamp x = 0) ∧
          ∀ x ∈ l, s.timestamp x ≤ s.timestamp n → s.timestamp x = 0) →
        Clock_timestamps_list.add false fuel self n s = .error .assertion) ∧
      (¬ ((∃ x ∈ l, s.timestamp x = 0) ∧
          ∀ x ∈ l, s.timestamp x ≤ s.timestamp n → s.timestamp x = 0) →
        ∃ s', Clock_timestamps_list.add false fuel self n s = .ok s') ∧
      ((∀ x ∈ l, s.timestamp x ≠ 0) →
        ∃ s', Clock_timestamps_list.add false fuel self n s = .ok s')) := by
  have hf' : l.length ≤ fuel + 1 := by rw [← h.2.2.2]; omega
  refine ⟨?_, ?_, ?_⟩
  · obtain ⟨s', -, -, hadd, -⟩ := wadd_spec h hn fuel hf'
    exact ⟨s', hadd⟩
  · rcases cadd_spec h hn true fuel hf' with ⟨s', -, -, hadd, -⟩ | ⟨-, hnd, -⟩
    · exact ⟨s', hadd⟩
    · simp at hnd
  · intro hs
    obtain ⟨h1, h2⟩ := cadd_assert h hn hs fuel hf'
    refine ⟨h1, h2, fun hz => h2 ?_⟩
    rintro ⟨⟨x, hx, hx0⟩, -⟩
    exact hz x hx hx0

/-- The clock list 0 of `ex_y2` is well formed with the nodes 0 and 2. -/
theorem ex_y2_holds : Holds ex_y2 0 [0, 2] := by decide

/-- An instance of the theorem above: the clock list of `ex_y2` holds the
nodes 0 and 2 with the timestamps 0 and 7, and node 1 has the timestamp 0. -/
theorem add_fails_only_on_zero_timestamp_witness :
    Holds ex_y2 0 [0, 2] ∧ 1 ∉ [0, 2] ∧ ex_y2.count_ 0 - 1 ≤ 1 ∧
    (∃ s', Waiting_threads_list.add 1 0 1 ex_y2 = .ok s') ∧
    (∃ s', Clock_timestamps_list.add true 1 0 1 ex_y2 = .ok s') ∧
    ([0, 2].Pairwise (fun u v => ex_y2.timestamp u ≤ ex_y2.timestamp v) →
      (((∃ x ∈ [0, 2], ex_y2.timestamp x = 0) ∧
          ∀ x ∈ [0, 2], ex_y2.timestamp x ≤ ex_y2.timestamp 1 → ex_y2.timestamp x = 0) →
        Clock_timestamps_list.add false 1 0 1 ex_y2 = .error .assertion) ∧
      (¬ ((∃ x ∈ [0, 2], ex_y2.timestamp x = 0) ∧
          ∀ x ∈ [0, 2], ex_y2.timestamp x ≤ ex_y2.timestamp 1 → ex_y2.timestamp x = 0) →
        ∃ s', Clock_timestamps_list.add false 1 0 1 ex_y2 = .ok s') ∧
      ((∀ x ∈ [0, 2], ex_y2.timestamp x ≠ 0) →
        ∃ s', Clock_timestamps_list.add false 1 0 1 ex_y2 = .ok s')) :=
  ⟨ex_y2_holds, by decide, by decide,
    add_fails_only_on_zero_timestamp 0 ex_y2 [0, 2] 1 ex_y2_holds (by decide) 1 (by decide)⟩

/-- The scenario of C15 evaluated: adding node 1 of timestamp 0 to the clock
list with the nodes 0 and 2 of timestamps 0 and 7 fails the assertion, and with
the assertion compiled out gives the list of the nodes 0, 1, 2. -/
theorem ex_y2_asserts :
    Clock_timestamps_list.add false 1 0 1 ex_y2 = .error .assertion ∧
    Clock_timestamps_list.add true 2 0 1 ex_y2 = .ok ex_y3 ∧ Holds ex_y3 0 [0, 1, 2] :=
  ⟨rfl, rfl, by decide⟩

/-! ## `add` of a node that is in the list: C16 -/

/-- The writes of `link`, whether the node is linked or not. -/
theorem link_eval_any {s : Memory} {self n a b : Nat} (front : Bool)
    (hb : s.next a = some b) :
    link self n a front s = .ok
      { s with head_ := if front then Function.update s.head_ self (some n) else s.head_,
               prev := Function.update (Function.update s.prev n (some a)) b (some n),
               next := Function.update (Function.update s.next n (some b)) a (some n),
               count_ := Function.update s.count_ self (s.count_ self + 1) } := by
  by_cases hna : n = a
  · subst hna
    cases front <;>
      simp [link, hb, deref, bind, Except.bind, pure, Except.pure, Function.update]
  · exact link_eval front hb hna

/-- A property of the head that is passed on along `next` holds for all the
nodes of a chain. -/
theorem chain_closed {s : Memory} {P : Nat → Prop}
    (hcl : ∀ x y, P x → s.next x = some y → P y) :
    ∀ l : List Nat, List.Chain' (Adj s) l → (∀ x ∈ l.head?, P x) → ∀ x ∈ l, P x
  | [], _, _ => by simp
  | [a], _, hh => by
    intro x hx
    have e : x = a := by simpa using hx
    rw [e]; exact hh a (by simp)
  | a :: b :: l, hc, hh => by
    have ha : P a := hh a (by simp)
    have hab := (List.chain'_cons.1 hc).1
    have hb : P b := hcl a b ha hab.1
    have := chain_closed hcl (b :: l) (List.chain'_cons.1 hc).2 (by simpa using hb)
    intro x hx
    rcases List.mem_cons.1 hx with e | hx'
    · rw [e]; exact ha
    · exact this x hx'

/-- Linking a node of the list after a node of the list: `link` returns, the
count is one more and the node follows `a`; the list is no longer well
formed. -/
theorem link_member_spec {s : Memory} {self : Nat} {l : List Nat} {a n : Nat}
    (h : Holds s self l) (ha : a ∈ l) (hn : n ∈ l) (front : Bool) :
    ∃ s', link self n a front s = .ok s' ∧ s'.count_ self = s.count_ self + 1 ∧
      s'.next a = some n ∧ (¬ ∃ l', Holds s' self l') ∧
      s'.timestamp = s.timestamp ∧ s'.sched_prio = s.sched_prio ∧ s'.thread = s.thread ∧
      s'.calls = s.calls := by
  obtain ⟨b, hbl, hb⟩ := holds_next_ne_none h ha
  refine ⟨_, link_eval_any front hb, by simp, by simp, ?_, rfl, rfl, rfl, rfl⟩
  rintro ⟨l', hnd', hcirc', hhead', hcount'⟩
  have hlen : l'.length = l.length + 1 := by
    rw [← hcount', ← h.2.2.2]; simp
  have hne : l ≠ [] := List.ne_nil_of_mem hn
  have hcl : ∀ x y, x ∈ l → (Function.update (Function.update s.next n (some b)) a (some n)) x
      = some y → y ∈ l := by
    intro x y hx hxy
    by_cases hxa : x = a
    · subst hxa
      simp at hxy
      rw [← hxy]; exact hn
    · by_cases hxn : x = n
      · subst hxn
        simp [Function.update, hxa] at hxy
        rw [← hxy]; exact hbl
      · simp [Function.update, hxa, hxn] at hxy
        obtain ⟨y', hy', hxy'⟩ := holds_next_ne_none h hx
        rw [hxy] at hxy'
        rw [Option.some.inj hxy']; exact hy'
  have hsub : ∀ x ∈ l', x ∈ l := by
    apply chain_closed (P := fun x => x ∈ l) hcl l' (List.Chain'.left_of_append hcirc')
    intro x hx
    have hx' : x ∈ (if front = true then Function.update s.head_ self (some n)
        else s.head_) self := by
      have : (if front = true then Function.update s.head_ self (some n)
          else s.head_) self = l'.head? := hhead'
      rw [this]; exact hx
    cases front with
    | true =>
      simp at hx'
      rw [← hx']; exact hn
    | false =>
      simp at hx'
      rw [h.2.2.1] at hx'
      exact List.mem_of_mem_head? hx'
  have := (List.Nodup.subperm hnd' hsub).length_le
  omega

/-- The claim C16 fails on the code: node 2 is the tail of the well-formed
waiting list 0 of `ex_w3` and node 3 the tail of the well-formed clock list 0
of `ex_c4`; `add` of these nodes to their lists returns, with no assertion
failed, and has changed the links of the node, which is then linked to
itself. -/
theorem add_of_member_not_detected :
    Holds ex_w3 0 [1, 0, 2] ∧ ex_w3.next 2 = some 1 ∧ ex_w3.prev 2 = some 0 ∧
    (∀ fuel, Waiting_threads_list.add fuel 0 2 ex_w3 = .ok ex_r4) ∧
    ex_r4.next 2 = some 2 ∧ ex_r4.prev 2 = some 2 ∧ ex_r4.count_ 0 = 4 ∧
    Holds ex_c4 0 [0, 1, 2, 3] ∧ ex_c4.next 3 = some 0 ∧ ex_c4.prev 3 = some 2 ∧
    (∀ fuel, Clock_timestamps_list.add false fuel 0 3 ex_c4 = .ok ex_r5) ∧
    ex_r5.next 3 = some 3 ∧ ex_r5.prev 3 = some 3 ∧ ex_r5.count_ 0 = 5 :=
  ⟨by decide, rfl, rfl, fun _ => rfl, rfl, rfl, rfl,
    by decide, rfl, rfl, fun _ => rfl, rfl, rfl, rfl⟩

/-- C16 (linking a node that is linked), amended.  Neither `add` checks the
links of the node.  For every well-formed list and every node `n` that is in
it, and every bound of at least `count_ - 1` steps on the loop,
`Waiting_threads_list::add` returns, and `Clock_timestamps_list::add` returns
when its assertion on the timestamp is compiled out or no node of the list has
the timestamp 0; `count_` is then one more than the number of nodes, `n` is
the `next` of a node of the list, and the list is no longer well formed. -/
theorem add_of_member_unchecked (self : Nat) (s : Memory) (l : List Nat) (n : Nat)
    (h : Holds s self l) (hn : n ∈ l) (fuel : Nat) (hf : s.count_ self - 1 ≤ fuel) :
    (∃ s', Waiting_threads_list.add fuel self n s = .ok s' ∧
      s'.count_ self = l.length + 1 ∧ (∃ a ∈ l, s'.next a = some n) ∧
      ¬ ∃ l', Holds s' self l') ∧
    (∃ s', Clock_timestamps_list.add true fuel self n s = .ok s' ∧
      s'.count_ self = l.length + 1 ∧ (∃ a ∈ l, s'.next a = some n) ∧
      ¬ ∃ l', Holds s' self l') ∧
    ((∀ x ∈ l, s.timestamp x ≠ 0) →
      ∃ s', Clock_timestamps_list.add false fuel self n s = .ok s' ∧
        s'.count_ self = l.length + 1 ∧ (∃ a ∈ l, s'.next a = some n) ∧
        ¬ ∃ l', Holds s' self l') := by
  have hf' : l.length ≤ fuel + 1 := by rw [← h.2.2.2]; omega
  have hne : l ≠ [] := List.ne_nil_of_mem hn
  have hh : s.head_ self ≠ none := by
    rw [h.2.2.1]
    cases l with
    | nil => exact absurd rfl hne
    | cons x xs => simp
  refine ⟨?_, ?_, ?_⟩
  · obtain ⟨front, a, l₁, l₂, hpos, hl, -⟩ := position_spec h hne
      (fun a => decide (s.sched_prio (s.thread n) > s.sched_prio (s.thread a))) hf'
    have ha : a ∈ l := by rw [hl]; simp
    obtain ⟨s', hlink, hc, hnext, hill, -⟩ := link_member_spec h ha hn front
    refine ⟨s', ?_, by rw [hc, h.2.2.2], ⟨a, ha, hnext⟩, hill⟩
    rw [wadd_eq, if_neg hh]
    simp [hpos, bind, Except.bind, hlink]
  · obtain ⟨front, a, l₁, l₂, hpos, hl, -⟩ := position_spec h hne
      (fun a => decide (s.timestamp n < s.timestamp a)) hf'
    have ha : a ∈ l := by rw [hl]; simp
    obtain ⟨s', hlink, hc, hnext, hill, -⟩ := link_member_spec h ha hn front
    refine ⟨s', ?_, by rw [hc, h.2.2.2], ⟨a, ha, hnext⟩, hill⟩
    rw [cadd_eq, if_neg hh]
    simp [hpos, bind, Except.bind, hlink]
  · intro hz
    obtain ⟨front, a, l₁, l₂, hpos, hl, -⟩ := position_spec h hne
      (fun a => decide (s.timestamp n < s.timestamp a)) hf'
    have ha : a ∈ l := by rw [hl]; simp
    obtain ⟨s', hlink, hc, hnext, hill, -⟩ := link_member_spec h ha hn front
    refine ⟨s', ?_, by rw [hc, h.2.2.2], ⟨a, ha, hnext⟩, hill⟩
    rw [cadd_eq, if_neg hh]
    simp [hpos, bind, Except.bind, hlink, hz a ha]

/-- An instance of the theorem above: node 1 of the clock list of `ex_c4`
with the nodes 0, 1, 2, 3, none of which has the timestamp 0. -/
theorem add_of_member_unchecked_witness :
    Holds ex_c4 0 [0, 1, 2, 3] ∧ 1 ∈ [0, 1, 2, 3] ∧ ex_c4.count_ 0 - 1 ≤ 3 ∧
    (∀ x ∈ [0, 1, 2, 3], ex_c4.timestamp x ≠ 0) ∧
    (∃ s', Waiting_threads_list.add 3 0 1 ex_c4 = .ok s' ∧
      s'.count_ 0 = [0, 1, 2, 3].length + 1 ∧ (∃ a ∈ [0, 1, 2, 3], s'.next a = some 1) ∧
      ¬ ∃ l', Holds s' 0 l') ∧
    (∃ s', Clock_timestamps_list.add true 3 0 1 ex_c4 = .ok s' ∧
      s'.count_ 0 = [0, 1, 2, 3].length + 1 ∧ (∃ a ∈ [0, 1, 2, 3], s'.next a = some 1) ∧
      ¬ ∃ l', Holds s' 0 l') ∧
    (∃ s', Clock_timestamps_list.add false 3 0 1 ex_c4 = .ok s' ∧
      s'.count_ 0 = [0, 1, 2, 3].length + 1 ∧ (∃ a ∈ [0, 1, 2, 3], s'.next a = some 1) ∧
      ¬ ∃ l', Holds s' 0 l') :=
  have H := add_of_member_unchecked 0 ex_c4 [0, 1, 2, 3] 1 ex_c4_holds (by decide) 3
    (by decide)
  ⟨ex_c4_holds, by decide, by decide, by decide, H.1, H.2.1, H.2.2 (by decide)⟩

/-! ## `remove` through another list: C17 -/

/-- The result of `remove` of a node with both links set, by the value of
`count_`. -/
theorem remove_eval {s : Memory} {self n p b : Nat} (hb : s.next n = some b)
    (hp : s.prev n = some p) :
    Double_list.remove self n s = .ok
      (if 1 < s.count_ self then
        { s with head_ := if s.head_ self = some n then Function.update s.head_ self (some b)
                          else s.head_,
                 count_ := Function.update s.count_ self (s.count_ self - 1),
                 prev := Function.update (Function.update s.prev b (some p)) n none,
                 next := Function.update (Function.update s.next p (some b)) n none }
      else if s.count_ self = 1 then
        { s with head_ := Function.update s.head_ self none,
                 count_ := Function.update s.count_ self 0,
                 prev := Function.update s.prev n none,
                 next := Function.update s.next n none }
      else
        { s with prev := Function.update s.prev n none,
                 next := Function.update s.next n none }) := by
  by_cases hc : 1 < s.count_ self
  · rw [if_pos hc]
    by_cases hpn : p = n
    · subst hpn
      by_cases hh : s.head_ self = some p
      · simp [Double_list.remove, hb, hp, hc, hh, deref, bind, Except.bind, pure, Except.pure,
          Function.update]
      · simp [Double_list.remove, hb, hp, hc, hh, deref, bind, Except.bind, pure, Except.pure,
          Function.update]
    · exact remove_many hb hp hpn hc
  · rw [if_neg hc]
    by_cases h1 : s.count_ self = 1
    · rw [if_pos h1]
      exact remove_single (by simp [hb]) h1
    · rw [if_neg h1]
      simp [Double_list.remove, hb, hc, h1, bind, Except.bind, pure, Except.pure]

/-- The claim C17 fails on the code: in `ex_ab` the lists 0 and 1 are well
formed with the nodes 0 and 1; `remove` of node 1 through list 0 returns, with
no assertion failed, and has set the head of list 0 to null and its count to
0, while node 0 is still linked. -/
theorem remove_through_other_list_not_detected :
    Holds ex_ab 0 [0] ∧ Holds ex_ab 1 [1] ∧
    Double_list.remove 0 1 ex_ab = .ok ex_ax ∧
    ex_ab.head_ 0 = some 0 ∧ ex_ab.count_ 0 = 1 ∧
    ex_ax.head_ 0 = none ∧ ex_ax.count_ 0 = 0 ∧ ex_ax.next 0 = some 0 ∧
    ex_ax.next 1 = none ∧ ex_ax.prev 1 = none ∧
    ex_ax.head_ 1 = some 1 ∧ ex_ax.count_ 1 = 1 :=
  ⟨by decide, by decide, rfl, rfl, rfl, rfl, rfl, rfl, rfl, rfl, rfl, rfl⟩

/-- C17 (removing through another list), amended.  `Double_list::remove`
checks nothing but the `next` of the node.  For every two distinct well-formed
lists `A` and `B` and every node `n` of `B`, `A.remove(n)` returns, with no
assertion failed; it leaves both links of `n` null, and the head and the count
of `B` as they were; the count of `A` is one less, if it was not 0, and the
head of `A` is null if its count was 1; if `n` is not in `A` and the count of
`A` was not 1, the head of `A` is unchanged. -/
theorem remove_through_other_list_unchecked (A B : Nat) (s : Memory) (la lb : List Nat)
    (n : Nat) (hA : Holds s A la) (hB : Holds s B lb) (hAB : A ≠ B) (hn : n ∈ lb) :
    ∃ s', Double_list.remove A n s = .ok s' ∧ s'.next n = none ∧ s'.prev n = none ∧
      s'.head_ B = s.head_ B ∧ s'.count_ B = s.count_ B ∧
      s'.count_ A = s.count_ A - 1 ∧
      (la ≠ [] → s'.count_ A ≠ la.length) ∧
      (s.count_ A = 1 → s'.head_ A = none) ∧
      (n ∉ la → s.count_ A ≠ 1 → s'.head_ A = s.head_ A) := by
  obtain ⟨b, -, hb⟩ := holds_next_ne_none hB hn
  obtain ⟨p, -, hp⟩ := holds_prev_ne_none hB hn
  have hBA : B ≠ A := fun e => hAB e.symm
  have hlen : la ≠ [] → 0 < la.length := fun h => List.length_pos.2 h
  have hcount := hA.2.2.2
  refine ⟨_, remove_eval hb hp, ?_⟩
  by_cases hc : 1 < s.count_ A
  · rw [if_pos hc]
    refine ⟨by simp, by simp, ?_, by simp [Function.update, hBA], by simp, ?_, ?_, ?_⟩
    · by_cases hh : s.head_ A = some n
      · simp [hh, Function.update, hBA]
      · simp [hh]
    · intro hne; simp; omega
    · intro h1; omega
    · intro hna _
      have hh : s.head_ A ≠ some n := by
        rw [hA.2.2.1]
        intro e
        exact hna (List.mem_of_mem_head? e)
      simp [hh]
  · rw [if_neg hc]
    by_cases h1 : s.count_ A = 1
    · rw [if_pos h1]
      refine ⟨by simp, by simp, by simp [Function.update, hBA], by simp [Function.update, hBA],
        by simp [h1], ?_, ?_, ?_⟩
      · intro hne; simp; have := hlen hne; omega
      · intro _; simp
      · intro _ h; exact absurd h1 h
    · rw [if_neg h1]
      refine ⟨by simp, by simp, rfl, rfl, ?_, ?_, ?_, ?_⟩
      · show s.count_ A = s.count_ A - 1
        omega
      · intro hne; have := hlen hne
        show s.count_ A ≠ la.length
        omega
      · intro h; exact absurd h h1
      · intro _ _; rfl

/-- An instance of the theorem above: in `ex_b3` list 0 holds the nodes 1,
0, 2 and list 1 holds node 3, which is removed through list 0. -/
theorem remove_through_other_list_unchecked_witness :
    Holds ex_b3 0 [1, 0, 2] ∧ Holds ex_b3 1 [3] ∧ 0 ≠ 1 ∧ 3 ∈ [3] ∧
    ∃ s', Double_list.remove 0 3 ex_b3 = .ok s' ∧ s'.next 3 = none ∧ s'.prev 3 = none ∧
      s'.head_ 1 = ex_b3.head_ 1 ∧ s'.count_ 1 = ex_b3.count_ 1 ∧
      s'.count_ 0 = ex_b3.count_ 0 - 1 ∧
      ([1, 0, 2] ≠ [] → s'.count_ 0 ≠ [1, 0, 2].length) ∧
      (ex_b3.count_ 0 = 1 → s'.head_ 0 = none) ∧
      (3 ∉ [1, 0, 2] → ex_b3.count_ 0 ≠ 1 → s'.head_ 0 = ex_b3.head_ 0) :=
  ⟨by decide, by decide, by decide, by decide,
    remove_through_other_list_unchecked 0 1 ex_b3 [1, 0, 2] [3] 3 (by decide) (by decide)
      (by decide) (by decide)⟩

/-! ## The action of a timeout node: C21 -/

/-- C21 (the timeout action removes, then resumes unless destroyed).  For
every well-formed list and every node `n` of it whose stored list is that list,
`Timeout_thread_node::action` returns; the memory is the one after `remove(n)`
but for the calls made: both links of `n` are null and the list holds the
other nodes in order; exactly one call is made, the `resume` of the thread of
`n`, if the state of that thread is not destroyed, and no call at all if it is
destroyed.  The virtual call `action` of a node of the class of the timeout
nodes does the same. -/
theorem timeout_action_removes_then_resumes (self : Nat) (s : Memory) (l : List Nat)
    (n : Nat) (h : Holds s self l) (hn : n ∈ l) (hl : s.list n = self) :
    ∃ s₁ s', Double_list.remove self n s = .ok s₁ ∧
      Timeout_thread_node.action n s = .ok s' ∧
      s'.next n = none ∧ s'.prev n = none ∧
      s'.next = s₁.next ∧ s'.prev = s₁.prev ∧ s'.head_ = s₁.head_ ∧ s'.count_ = s₁.count_ ∧
      traverse self s' = some (l.erase n) ∧ s'.count_ self + 1 = s.count_ self ∧
      (s.sched_state (s.thread n) ≠ state_t.destroyed →
        s' = { s₁ with calls := s₁.calls ++ [Call.resume (s.thread n)] } ∧
        s'.calls = s.calls ++ [Call.resume (s.thread n)]) ∧
      (s.sched_state (s.thread n) = state_t.destroyed → s' = s₁ ∧ s'.calls = s.calls) ∧
      (∀ isr : Isr, s.cls n = node_class.timeout_thread_node →
        Timestamp_node.action isr n s = .ok s') := by
  obtain ⟨s₁, hrem, hholds, hnext, hprev, hframe, hcalls⟩ := remove_member h hn
  have hcount : s₁.count_ self + 1 = s.count_ self := by
    rw [hholds.2.2.2, h.2.2.2, List.length_erase_of_mem hn]
    have := List.length_pos_of_mem hn
    omega
  by_cases hst : s.sched_state (s.thread n) = state_t.destroyed
  · have hact : Timeout_thread_node.action n s = .ok s₁ := by
      simp [Timeout_thread_node.action, hl, bind, Except.bind, hrem, hframe.sched_state, hst,
        pure, Except.pure]
    refine ⟨s₁, s₁, hrem, hact, hnext, hprev, rfl, rfl, rfl, rfl, holds_traverse hholds,
      hcount, fun hne => absurd hst hne, fun _ => ⟨rfl, hcalls⟩, ?_⟩
    intro isr hc
    simp [Timestamp_node.action, hc, hact]
  · have hact : Timeout_thread_node.action n s =
        .ok { s₁ with calls := s₁.calls ++ [Call.resume (s.thread n)] } := by
      simp [Timeout_thread_node.action, hl, bind, Except.bind, hrem, hframe.sched_state, hst,
        pure, Except.pure]
    have hholds' : Holds { s₁ with calls := s₁.calls ++ [Call.resume (s.thread n)] } self
        (l.erase n) := hholds
    refine ⟨s₁, _, hrem, hact, hnext, hprev, rfl, rfl, rfl, rfl, holds_traverse hholds',
      hcount, fun _ => ⟨rfl, by simp [hcalls]⟩, fun he => absurd he hst, ?_⟩
    intro isr hc
    simp [Timestamp_node.action, hc, hact]

/-- The clock list 0 of `ex_k4` is well formed with the nodes 0, 1, 2, 3. -/
theorem ex_k4_holds : Holds ex_k4 0 [0, 1, 2, 3] := by decide

/-- An instance of the theorem above: node 2 of the clock list of `ex_k4`
with the nodes 0, 1, 2, 3; its thread is ready. -/
theorem timeout_action_removes_then_resumes_witness :
    Holds ex_k4 0 [0, 1, 2, 3] ∧ 2 ∈ [0, 1, 2, 3] ∧ ex_k4.list 2 = 0 ∧
    ∃ s₁ s', Double_list.remove 0 2 ex_k4 = .ok s₁ ∧
      Timeout_thread_node.action 2 ex_k4 = .ok s' ∧
      s'.next 2 = none ∧ s'.prev 2 = none ∧
      s'.next = s₁.next ∧ s'.prev = s₁.prev ∧ s'.head_ = s₁.head_ ∧ s'.count_ = s₁.count_ ∧
      traverse 0 s' = some ([0, 1, 2, 3].erase 2) ∧ s'.count_ 0 + 1 = ex_k4.count_ 0 ∧
      (ex_k4.sched_state (ex_k4.thread 2) ≠ state_t.destroyed →
        s' = { s₁ with calls := s₁.calls ++ [Call.resume (ex_k4.thread 2)] } ∧
        s'.calls = ex_k4.calls ++ [Call.resume (ex_k4.thread 2)]) ∧
      (ex_k4.sched_state (ex_k4.thread 2) = state_t.destroyed →
        s' = s₁ ∧ s'.calls = ex_k4.calls) ∧
      (∀ isr : Isr, ex_k4.cls 2 = node_class.timeout_thread_node →
        Timestamp_node.action isr 2 ex_k4 = .ok s') :=
  ⟨ex_k4_holds, by decide, rfl,
    timeout_action_removes_then_resumes 0 ex_k4 [0, 1, 2, 3] 2 ex_k4_holds (by decide) rfl⟩

/-- The scenario of C21 evaluated on the clock list of `ex_k4` with the nodes
0, 1, 2, 3: the action of node 1, whose thread is destroyed, unlinks the node
and makes no call; the action of node 2, whose thread is ready, unlinks the node
and makes the one call `resume` of thread 2. -/
theorem ex_k4_actions :
    ex_k4.sched_state (ex_k4.thread 1) = state_t.destroyed ∧
    Timeout_thread_node.action 1 ex_k4 = .ok ex_k5 ∧
    ex_k5.next 1 = none ∧ ex_k5.prev 1 = none ∧ Holds ex_k5 0 [0, 2, 3] ∧ ex_k5.calls = [] ∧
    ex_k4.sched_state (ex_k4.thread 2) = state_t.ready ∧
    Timeout_thread_node.action 2 ex_k4 = .ok ex_k6 ∧
    ex_k6.next 2 = none ∧ ex_k6.prev 2 = none ∧ Holds ex_k6 0 [0, 1, 3] ∧
    ex_k6.calls = [Call.resume 2] :=
  ⟨rfl, rfl, rfl, rfl, by decide, rfl, rfl, rfl, rfl, rfl, by decide, rfl⟩

/-! ## `add` followed by `remove`: C22 -/

/-- Two memories with the same members are the same memory. -/
theorem Memory.eq_of_fields {s t : Memory} (h1 : s.prev = t.prev) (h2 : s.next = t.next)
    (h3 : s.list = t.list) (h4 : s.timestamp = t.timestamp) (h5 : s.thread = t.thread)
    (h6 : s.timer = t.timer) (h7 : s.cls = t.cls) (h8 : s.head_ = t.head_)
    (h9 : s.count_ = t.count_) (h10 : s.sched_prio = t.sched_prio)
    (h11 : s.sched_state = t.sched_state) (h12 : s.calls = t.calls) : s = t := by
  cases s; cases t; simp_all

/-- The links of the nodes of a well-formed list are given by the sequence of
its nodes. -/
theorem holds_links_eq {s s' : Memory} {self : Nat} {l : List Nat} (h : Holds s self l)
    (h' : Holds s' self l) {x : Nat} (hx : x ∈ l) :
    s'.next x = s.next x ∧ s'.prev x = s.prev x := by
  obtain ⟨l₁, l₂, rfl⟩ := List.append_of_mem hx
  constructor
  · have hc : Circular s ((l₂ ++ l₁) ++ [x]) := by
      have := circular_rotate (l₁ ++ [x]) (l₂) (by simpa using h.2.1)
      simpa using this
    have hc' : Circular s' ((l₂ ++ l₁) ++ [x]) := by
      have := circular_rotate (l₁ ++ [x]) (l₂) (by simpa using h'.2.1)
      simpa using this
    cases hm : (l₂ ++ l₁ ++ [x]).head? with
    | none => simp at hm
    | some b =>
      rw [(circular_wrap hc hm).1, (circular_wrap hc' hm).1]
  · have hc : Circular s (x :: (l₂ ++ l₁)) := by
      have := circular_rotate (l₁) (x :: l₂) h.2.1
      simpa using this
    have hc' : Circular s' (x :: (l₂ ++ l₁)) := by
      have := circular_rotate (l₁) (x :: l₂) h'.2.1
      simpa using this
    rcases List.eq_nil_or_concat' (l₂ ++ l₁) with hm | ⟨m, p, hm⟩
    · rw [hm] at hc hc'
      rw [(circular_wrap (m := []) hc rfl).2, (circular_wrap (m := []) hc' rfl).2]
    · rw [hm] at hc hc'
      have g : Circular s ((x :: m) ++ [p]) := by simpa using hc
      have g' : Circular s' ((x :: m) ++ [p]) := by simpa using hc'
      rw [(circular_wrap g rfl).2, (circular_wrap g' rfl).2]

/-- Removal of a node that `add` has just linked into a well-formed list. -/
theorem remove_added {s s₁ : Memory} {self : Nat} {l l₁ l₂ : List Nat} {n : Nat}
    (h : Holds s self l) (hn : s.next n = none) (hl : l = l₁ ++ l₂)
    (h₁ : Holds s₁ self (l₁ ++ n :: l₂)) (hframe : Frame self (n :: l) s s₁)
    (hcalls : s₁.calls = s.calls) :
    ∃ s₂, Double_list.remove self n s₁ = .ok s₂ ∧
      s₂.head_ self = s.head_ self ∧ s₂.count_ self = s.count_ self ∧
      (∀ x ∈ l, s₂.next x = s.next x ∧ s₂.prev x = s.prev x) ∧
      s₂.next n = none ∧ s₂.prev n = none ∧ traverse self s₂ = some l ∧
      (s.prev n = none → s₂ = s) := by
  have hnl : n ∉ l := by
    intro hm
    obtain ⟨b, -, hb⟩ := holds_next_ne_none h hm
    rw [hn] at hb; cases hb
  subst hl
  have hn1 : n ∉ l₁ := fun hm => hnl (by simp [hm])
  obtain ⟨s₂, hrem, hholds, hnext, hprev, hframe₂, hcalls₂⟩ :=
    remove_member h₁ (by simp : n ∈ l₁ ++ n :: l₂)
  have he : (l₁ ++ n :: l₂).erase n = l₁ ++ l₂ := by
    rw [List.erase_append_right _ hn1]; simp
  rw [he] at hholds
  have hlinks : ∀ x ∈ l₁ ++ l₂, s₂.next x = s.next x ∧ s₂.prev x = s.prev x :=
    fun x hx => holds_links_eq h hholds hx
  have hhead : s₂.head_ self = s.head_ self := by rw [hholds.2.2.1, h.2.2.1]
  have hcount : s₂.count_ self = s.count_ self := by rw [hholds.2.2.2, h.2.2.2]
  refine ⟨s₂, hrem, hhead, hcount, hlinks, hnext, hprev, holds_traverse hholds, ?_⟩
  intro hp
  apply Memory.eq_of_fields
  · funext x
    by_cases hxn : x = n
    · rw [hxn, hprev, hp]
    · by_cases hx : x ∈ l₁ ++ l₂
      · exact (hlinks x hx).2
      · rw [hframe₂.prev x (by simp at hx ⊢; tauto), hframe.prev x (by simp at hx ⊢; tauto)]
  · funext x
    by_cases hxn : x = n
    · rw [hxn, hnext, hn]
    · by_cases hx : x ∈ l₁ ++ l₂
      · exact (hlinks x hx).1
      · rw [hframe₂.next x (by simp at hx ⊢; tauto), hframe.next x (by simp at hx ⊢; tauto)]
  · rw [hframe₂.list, hframe.list]
  · rw [hframe₂.timestamp, hframe.timestamp]
  · rw [hframe₂.thread, hframe.thread]
  · rw [hframe₂.timer, hframe.timer]
  · rw [hframe₂.cls, hframe.cls]
  · funext o
    by_cases ho : o = self
    · rw [ho]; exact hhead
    · rw [hframe₂.head_ o ho, hframe.head_ o ho]
  · funext o
    by_cases ho : o = self
    · rw [ho]; exact hcount
    · rw [hframe₂.count_ o ho, hframe.count_ o ho]
  · rw [hframe₂.sched_prio, hframe.sched_prio]
  · rw [hframe₂.sched_state, hframe.sched_state]
  · rw [hcalls₂, hcalls]

/-- C22 (`add` followed by `remove` is the identity on the list).  For every
well-formed list with the nodes `l` and every unlinked node `n`:
`Waiting_threads_list::add` of `n` returns, and the `remove` of `n` after it,
or after a `Clock_timestamps_list::add` of `n` that returns, returns with the
head, the count and the `prev` and `next` of every node of `l` as they were
before the `add`, the same head-to-tail sequence, and both links of `n` null;
the whole memory is then the one before the `add`, when `n.prev` was null as
well. -/
theorem add_then_remove_identity (self : Nat) (s : Memory) (l : List Nat) (n : Nat)
    (h : Holds s self l) (hn : s.next n = none) :
    (∀ fuel, s.count_ self - 1 ≤ fuel →
      ∃ s₁, Waiting_threads_list.add fuel self n s = .ok s₁) ∧
    (∀ fuel s₁, Waiting_threads_list.add fuel self n s = .ok s₁ →
      ∃ s₂, Double_list.remove self n s₁ = .ok s₂ ∧
        s₂.head_ self = s.head_ self ∧ s₂.count_ self = s.count_ self ∧
        (∀ x ∈ l, s₂.next x = s.next x ∧ s₂.prev x = s.prev x) ∧
        s₂.next n = none ∧ s₂.prev n = none ∧ traverse self s₂ = some l ∧
        (s.prev n = none → s₂ = s)) ∧
    (∀ ndebug fuel s₁, Clock_timestamps_list.add ndebug fuel self n s = .ok s₁ →
      ∃ s₂, Double_list.remove self n s₁ = .ok s₂ ∧
        s₂.head_ self = s.head_ self ∧ s₂.count_ self = s.count_ self ∧
        (∀ x ∈ l, s₂.next x = s.next x ∧ s₂.prev x = s.prev x) ∧
        s₂.next n = none ∧ s₂.prev n = none ∧ traverse self s₂ = some l ∧
        (s.prev n = none → s₂ = s)) := by
  have hnl : n ∉ l := by
    intro hm
    obtain ⟨b, -, hb⟩ := holds_next_ne_none h hm
    rw [hn] at hb; cases hb
  refine ⟨?_, ?_, ?_⟩
  · intro fuel hf
    obtain ⟨s₁, -, -, hadd, -⟩ := wadd_spec h hnl fuel (by rw [← h.2.2.2]; omega)
    exact ⟨s₁, hadd⟩
  · intro fuel s₁ hadd
    have hm := wadd_mono hadd (le_max_left fuel l.length)
    obtain ⟨s', l₁, l₂, hadd', hl, hholds, hframe, hcalls, -⟩ :=
      wadd_spec h hnl (max fuel l.length) (by omega)
    rw [hm] at hadd'
    cases hadd'
    exact remove_added h hn hl hholds hframe hcalls
  · intro ndebug fuel s₁ hadd
    have hm := cadd_mono hadd (le_max_left fuel l.length)
    rcases cadd_spec h hnl ndebug (max fuel l.length) (by omega) with
      ⟨s', l₁, l₂, hadd', hl, hholds, hframe, hcalls, -⟩ | ⟨herr, -⟩
    · rw [hm] at hadd'
      cases hadd'
      exact remove_added h hn hl hholds hframe hcalls
    · rw [hm] at herr; cases herr

/-- The clock list 0 of `ex_c3` is well formed with the nodes 0, 1, 3. -/
theorem ex_c3_holds : Holds ex_c3 0 [0, 1, 3] := by decide

/-- An instance of the theorem above: node 2 added to the list of `ex_c3`
with the nodes 0, 1, 3, as a waiting list and as a clock list, which gives
`ex_c4`, and removed again: the memory is `ex_c3` again. -/
theorem add_then_remove_identity_witness :
    Holds ex_c3 0 [0, 1, 3] ∧ ex_c3.next 2 = none ∧ ex_c3.prev 2 = none ∧
    (∃ s₁ s₂, Waiting_threads_list.add 2 0 2 ex_c3 = .ok s₁ ∧
      Double_list.remove 0 2 s₁ = .ok s₂ ∧ s₂ = ex_c3) ∧
    Clock_timestamps_list.add false 3 0 2 ex_c3 = .ok ex_c4 ∧
    ∃ s₂, Double_list.remove 0 2 ex_c4 = .ok s₂ ∧
      s₂.head_ 0 = ex_c3.head_ 0 ∧ s₂.count_ 0 = ex_c3.count_ 0 ∧
      (∀ x ∈ [0, 1, 3], s₂.next x = ex_c3.next x ∧ s₂.prev x = ex_c3.prev x) ∧
      s₂.next 2 = none ∧ s₂.prev 2 = none ∧ traverse 0 s₂ = some [0, 1, 3] ∧
      (ex_c3.prev 2 = none → s₂ = ex_c3) := by
  have H := add_then_remove_identity 0 ex_c3 [0, 1, 3] 2 ex_c3_holds rfl
  obtain ⟨s₁, h1⟩ := H.1 2 (by decide)
  obtain ⟨s₂, h2, -, -, -, -, -, -, heq⟩ := H.2.1 2 s₁ h1
  exact ⟨ex_c3_holds, rfl, rfl, ⟨s₁, s₂, h1, h2, heq rfl⟩, rfl, H.2.2 false 3 ex_c4 rfl⟩

/-! ## The invocations of `action` by `check_timestamp` -/

/-- On an empty list `check_timestamp` invokes no action. -/
theorem check_timestamp_log_empty (isr : Isr) {self : Nat} (now fuel : Nat) {s : Memory}
    (h : s.count_ self = 0) :
    Clock_timestamps_list.check_timestamp_log isr self now fuel s = .ok ([], s) := by
  unfold Clock_timestamps_list.check_timestamp_log
  simp [Double_list.empty, h]

/-- On a list whose head is not due `check_timestamp` invokes no action. -/
theorem check_timestamp_log_undue (isr : Isr) {self hd : Nat} {now : Nat} (fuel : Nat)
    {s : Memory} (hh : s.head_ self = some hd) (hts : now < s.timestamp hd) :
    Clock_timestamps_list.check_timestamp_log isr self now fuel s = .ok ([], s) := by
  unfold Clock_timestamps_list.check_timestamp_log
  by_cases hc : s.count_ self = 0
  · simp [Double_list.empty, hc]
  · simp [Double_list.empty, hc, hh, deref, bind, Except.bind, not_le.2 hts]

/-- On a list whose head is due `check_timestamp` invokes the action of the
head and goes on. -/
theorem check_timestamp_log_due (isr : Isr) {self hd : Nat} {now : Nat} (fuel : Nat)
    {s : Memory} (hc : s.count_ self ≠ 0) (hh : s.head_ self = some hd)
    (hts : s.timestamp hd ≤ now) :
    Clock_timestamps_list.check_timestamp_log isr self now (fuel + 1) s =
      Timestamp_node.action isr hd s >>= fun s₁ =>
        Clock_timestamps_list.check_timestamp_log isr self now fuel s₁ >>= fun r =>
          pure (hd :: r.1, r.2) := by
  rw [Clock_timestamps_list.check_timestamp_log]
  simp [Double_list.empty, Double_list.head, hc, hh, deref, bind, Except.bind, hts]

/-- The memory returned with the record of the invocations is the result of
`check_timestamp`: the record changes nothing. -/
theorem check_timestamp_log_erase (isr : Isr) (self now : Nat) :
    ∀ (fuel : Nat) (s : Memory),
      Clock_timestamps_list.check_timestamp isr self now fuel s =
        (Clock_timestamps_list.check_timestamp_log isr self now fuel s).map Prod.snd
  | fuel, s => by
    by_cases hc : s.count_ self = 0
    · rw [check_timestamp_empty isr now _ hc, check_timestamp_log_empty isr now _ hc]
      rfl
    · cases hh : s.head_ self with
      | none =>
        unfold Clock_timestamps_list.check_timestamp
          Clock_timestamps_list.check_timestamp_log
        simp [Double_list.empty, hc, hh, deref, bind, Except.bind, Except.map]
      | some hd =>
        by_cases hts : s.timestamp hd ≤ now
        · cases fuel with
          | zero =>
            unfold Clock_timestamps_list.check_timestamp
              Clock_timestamps_list.check_timestamp_log
            simp [Double_list.empty, hc, hh, deref, bind, Except.bind, hts, Except.map]
          | succ fuel =>
            rw [check_timestamp_due isr _ hc hh hts, check_timestamp_log_due isr _ hc hh hts]
            cases ha : Timestamp_node.action isr hd s with
            | error e => rfl
            | ok s₁ =>
              simp only [bind, Except.bind]
              rw [check_timestamp_log_erase isr self now fuel s₁]
              cases Clock_timestamps_list.check_timestamp_log isr self now fuel s₁ with
              | error e => rfl
              | ok r => rfl
        · rw [check_timestamp_undue isr _ hh (not_le.1 hts),
            check_timestamp_log_undue isr _ hh (not_le.1 hts)]
          rfl

/-- The links and counts decide whether a list is well formed. -/
theorem holds_congr {s s' : Memory} {self : Nat} {l : List Nat} (h : Holds s self l)
    (h1 : s'.prev = s.prev) (h2 : s'.next = s.next) (h3 : s'.head_ = s.head_)
    (h4 : s'.count_ = s.count_) : Holds s' self l := by
  obtain ⟨g1, g2, g3, g4⟩ := h
  refine ⟨g1, ?_, by rw [h3]; exact g3, by rw [h4]; exact g4⟩
  unfold Circular Adj at g2 ⊢
  rw [h1, h2]; exact g2

/-- A quiet routine spares the due nodes. -/
theorem quiet_spares {isr : Isr} (hq : Isr.Quiet isr) (self now : Nat) :
    Isr.Spares self now isr := by
  intro t s l h hs
  obtain ⟨s', hisr, e1, e2, e3, e4, e5, e6, e7, -⟩ := hq t s
  exact ⟨s', l, hisr, holds_congr h e1 e2 e3 e4, by rw [e6]; exact hs, by rw [e6], e5, e7⟩

/-- The routine `ex_periodic`, which re-arms a node with a timestamp after
`now`, spares the due nodes. -/
theorem ex_periodic_spares (self now m : Nat) : Isr.Spares self now (ex_periodic self now m) := by
  intro t s l h hs
  by_cases hg : s.next m = none ∧ now < s.timestamp m
  · obtain ⟨hm, hts⟩ := hg
    have hnl : m ∉ l := by
      intro hmem
      obtain ⟨b, -, hb⟩ := holds_next_ne_none h hmem
      rw [hm] at hb; cases hb
    rcases cadd_spec h hnl true (s.count_ self) (by rw [h.2.2.2]; omega) with
      ⟨s', l₁, l₂, hadd, hl, hholds, hframe, -, hpl⟩ | ⟨-, hnd, -⟩
    · subst hl
      have H1 : ∀ x y, s.timestamp x ≤ s.timestamp y →
          (fun a => decide (s.timestamp m < s.timestamp a)) x = true →
          (fun a => decide (s.timestamp m < s.timestamp a)) y = true := by
        intro x y hxy hx; simp at hx ⊢; omega
      refine ⟨s', l₁ ++ m :: l₂, ?_, hholds, ?_, ?_, hframe.list, hframe.cls⟩
      · simp [ex_periodic, hm, hts, hadd]
      · rw [hframe.timestamp]
        exact placed_pairwise H1 (fun x hx => by simp at hx; omega)
          (fun x hx => by simp at hx; omega) hs hpl
      · rw [hframe.timestamp]
        simp [List.filter_append, List.filter_cons, not_le.2 hts]
    · simp at hnd
  · refine ⟨s, l, ?_, h, hs, rfl, rfl, rfl⟩
    simp [ex_periodic, hg]

/-- The drain of a well-formed clock list in timestamp order whose due nodes
have that list as their list and are timeout nodes or timers with routines that
spare the due nodes: given a bound of at least the number of due nodes,
`check_timestamp` returns after invoking the actions of exactly the due nodes
`d`, in the order of the list; no due node is left. -/
theorem drain_log (isr : Isr) (self now : Nat) :
    ∀ (d l : List Nat) (s : Memory) (fuel : Nat), Holds s self l →
      l.Pairwise (fun u v => s.timestamp u ≤ s.timestamp v) →
      l.filter (fun x => decide (s.timestamp x ≤ now)) = d →
      (∀ n ∈ d, s.list n = self) →
      ((∀ n ∈ d, s.cls n = node_class.timeout_thread_node) ∨ Isr.Spares self now isr) →
      d.length ≤ fuel →
      ∃ s' l', Clock_timestamps_list.check_timestamp_log isr self now fuel s = .ok (d, s') ∧
        Holds s' self l' ∧ l'.Pairwise (fun u v => s'.timestamp u ≤ s'.timestamp v) ∧
        l'.filter (fun x => decide (s'.timestamp x ≤ now)) = [] ∧
        s'.list = s.list ∧ s'.cls = s.cls
  | [], l, s, fuel, h, hs, hd, _, _, _ => by
    refine ⟨s, l, ?_, h, hs, hd, rfl, rfl⟩
    cases l with
    | nil => exact check_timestamp_log_empty isr now fuel (by simpa using h.2.2.2)
    | cons x tl =>
      have hx : now < s.timestamp x := by
        have := List.filter_eq_nil_iff.1 hd x (by simp)
        simpa using this
      exact check_timestamp_log_undue isr fuel (by simpa using h.2.2.1) hx
  | x :: d, l, s, fuel, h, hs, hd, hl, hact, hf => by
    obtain ⟨e1, -⟩ := sorted_takeWhile now l hs
    rw [← e1] at hd
    cases l with
    | nil => simp at hd
    | cons y tl =>
      by_cases hy : s.timestamp y ≤ now
      · rw [List.takeWhile_cons_of_pos (by simpa using hy)] at hd
        obtain ⟨hyx, htl⟩ := List.cons.inj hd
        subst hyx
        have htl' : tl.filter (fun x => decide (s.timestamp x ≤ now)) = d := by
          rw [← (sorted_takeWhile now tl (List.Pairwise.of_cons hs)).1]; exact htl
        have hhead : s.head_ self = some y := by simpa using h.2.2.1
        have hcount : s.count_ self ≠ 0 := by
          have := h.2.2.2; simp at this; omega
        have herase : (y :: tl).erase y = tl := by simp
        cases fuel with
        | zero => simp at hf
        | succ fuel =>
          have hstep : ∃ s₁ l₁, Timestamp_node.action isr y s = .ok s₁ ∧ Holds s₁ self l₁ ∧
              l₁.Pairwise (fun u v => s₁.timestamp u ≤ s₁.timestamp v) ∧
              l₁.filter (fun x => decide (s₁.timestamp x ≤ now)) = d ∧
              s₁.list = s.list ∧ s₁.cls = s.cls := by
            cases hc : s.cls y with
            | timeout_thread_node =>
              obtain ⟨s₁, ha, hholds, -, -, hframe, -⟩ :=
                timeout_action_spec h (List.mem_cons_self y tl) (hl y (by simp))
              rw [herase] at hholds
              refine ⟨s₁, tl, by simp [Timestamp_node.action, hc, ha], hholds, ?_, ?_,
                hframe.list, hframe.cls⟩
              · rw [hframe.timestamp]; exact List.Pairwise.of_cons hs
              · rw [hframe.timestamp]; exact htl'
            | timer_node =>
              have hsp : Isr.Spares self now isr := by
                rcases hact with h1 | h1
                · have := h1 y (by simp)
                  rw [hc] at this; cases this
                · exact h1
              obtain ⟨s₁, hrem, hholds, -, -, hframe, -⟩ :=
                remove_member h (List.mem_cons_self y tl)
              rw [herase] at hholds
              have hholds₁ : Holds
                  { s₁ with calls := s₁.calls ++
                    [Call.interrupt_service_routine (s₁.timer y)] } self tl := hholds
              obtain ⟨s₂, l₂, hisr, hholds₂, hs₂, hd₂, g1, g2⟩ :=
                hsp (s₁.timer y) _ tl hholds₁
                  (by show tl.Pairwise (fun u v => s₁.timestamp u ≤ s₁.timestamp v)
                      rw [hframe.timestamp]; exact List.Pairwise.of_cons hs)
              refine ⟨s₂, l₂, ?_, hholds₂, hs₂, ?_, g1.trans hframe.list, g2.trans hframe.cls⟩
              · simp [Timestamp_node.action, hc, Timer_node.action, hl y (by simp), bind,
                  Except.bind, hrem, hisr]
              · rw [hd₂]
                show tl.filter (fun x => decide (s₁.timestamp x ≤ now)) = d
                rw [hframe.timestamp]; exact htl'
          obtain ⟨s₁, l₁, ha, hholds₁, hs₁, hd₁, g1, g2⟩ := hstep
          obtain ⟨s', l', hck, hholds', hs', hd', g1', g2'⟩ :=
            drain_log isr self now d l₁ s₁ fuel hholds₁ hs₁ hd₁
              (fun n hn => by rw [g1]; exact hl n (List.mem_cons_of_mem _ hn))
              (hact.imp (fun hc n hn => by rw [g2]; exact hc n (List.mem_cons_of_mem _ hn)) id)
              (by simpa using hf)
          refine ⟨s', l', ?_, hholds', hs', hd', g1'.trans g1, g2'.trans g2⟩
          rw [check_timestamp_log_due isr _ hcount hhead hy]
          simp [ha, bind, Except.bind, hck, pure, Except.pure]
      · rw [List.takeWhile_cons_of_neg (by simpa using hy)] at hd
        cases hd

/-- The drain of a well-formed clock list in timestamp order, for every bound
of at least the number of due nodes: `check_timestamp` returns the same memory
after invoking the actions of exactly the due nodes, in the order of the
list. -/
theorem drain_log_all (isr : Isr) (self now : Nat) (d l : List Nat) (s : Memory)
    (h : Holds s self l) (hs : l.Pairwise (fun u v => s.timestamp u ≤ s.timestamp v))
    (hd : l.filter (fun x => decide (s.timestamp x ≤ now)) = d)
    (hl : ∀ n ∈ d, s.list n = self)
    (hact : (∀ n ∈ d, s.cls n = node_class.timeout_thread_node) ∨ Isr.Spares self now isr) :
    ∃ s' l', (∀ fuel, d.length ≤ fuel →
        Clock_timestamps_list.check_timestamp_log isr self now fuel s = .ok (d, s') ∧
        Clock_timestamps_list.check_timestamp isr self now fuel s = .ok s') ∧
      Holds s' self l' ∧ l'.Pairwise (fun u v => s'.timestamp u ≤ s'.timestamp v) ∧
      l'.filter (fun x => decide (s'.timestamp x ≤ now)) = [] := by
  obtain ⟨s', l', hlog, hholds, hs', hd', -⟩ :=
    drain_log isr self now d l s d.length h hs hd hl hact (le_refl _)
  refine ⟨s', l', ?_, hholds, hs', hd'⟩
  have hck : Clock_timestamps_list.check_timestamp isr self now d.length s = .ok s' := by
    rw [check_timestamp_log_erase, hlog]; rfl
  intro fuel hf
  have hck' := check_timestamp_mono isr self now d.length fuel s hck hf
  obtain ⟨s'', l'', hlog', -⟩ := drain_log isr self now d l s fuel h hs hd hl hact hf
  have hck'' : Clock_timestamps_list.check_timestamp isr self now fuel s = .ok s'' := by
    rw [check_timestamp_log_erase, hlog']; rfl
  rw [hck'] at hck''
  cases hck''
  exact ⟨hlog', hck'⟩

/-! ## Tick drain completeness: C5 -/

/-- C5 (tick drain completeness).  On every well-formed clock list in
timestamp order whose nodes have that list as their list, and whatever the
routines of the timers do: whenever `check_timestamp(now)` returns, the list is
empty or the timestamp of its head is greater than `now`.  And
`check_timestamp(now)` does return, within `count_` iterations, with the list
empty or its head not due, when the nodes are timeout nodes or the routines of
the timers spare the due nodes, as does a timer that re-arms with a later
timestamp. -/
theorem tick_drain_completeness (isr : Isr) (self now : Nat) (s : Memory) (l : List Nat)
    (h : Holds s self l) (hs : l.Pairwise (fun u v => s.timestamp u ≤ s.timestamp v))
    (hl : ∀ n ∈ l, s.list n = self) :
    (∀ fuel s', Clock_timestamps_list.check_timestamp isr self now fuel s = .ok s' →
      Double_list.empty self s' = true ∨
      ∃ hd, Double_list.head self s' = some hd ∧ now < s'.timestamp hd) ∧
    (((∀ n ∈ l, s.cls n = node_class.timeout_thread_node) ∨ Isr.Spares self now isr) →
      ∃ s', (∀ fuel, l.length ≤ fuel →
          Clock_timestamps_list.check_timestamp isr self now fuel s = .ok s') ∧
        ((Double_list.empty self s' = true ∧ s'.head_ self = none) ∨
          ∃ hd, Double_list.head self s' = some hd ∧ now < s'.timestamp hd)) := by
  refine ⟨fun fuel s' hck => check_timestamp_drained isr self now fuel s s' hck, ?_⟩
  intro hact
  have hsub : ∀ n ∈ l.filter (fun x => decide (s.timestamp x ≤ now)), n ∈ l :=
    fun n hn => List.mem_of_mem_filter hn
  have hlen : (l.filter (fun x => decide (s.timestamp x ≤ now))).length ≤ l.length :=
    List.length_filter_le _ l
  obtain ⟨s', l', hck, hholds, -, hd'⟩ :=
    drain_log_all isr self now _ l s h hs rfl (fun n hn => hl n (hsub n hn))
      (hact.imp (fun hc n hn => hc n (hsub n hn)) id)
  refine ⟨s', fun fuel hf => (hck fuel (le_trans hlen hf)).2, ?_⟩
  cases l' with
  | nil =>
    left
    exact ⟨by simpa [Double_list.empty] using hholds.2.2.2, by simpa using hholds.2.2.1⟩
  | cons x t =>
    right
    refine ⟨x, by simpa [Double_list.head] using hholds.2.2.1, ?_⟩
    have := List.filter_eq_nil_iff.1 hd' x (by simp)
    simpa using this

/-- An instance of the theorem above: the clock list of `ex_t1`, which holds
the timer node 0 of timestamp 100, with `now = 100` and the routine that
re-arms node 1, of timestamp 150. -/
theorem tick_drain_completeness_witness :
    Holds ex_t1 0 [0] ∧ [0].Pairwise (fun u v => ex_t1.timestamp u ≤ ex_t1.timestamp v) ∧
    (∀ n ∈ [0], ex_t1.list n = 0) ∧ Isr.Spares 0 100 (ex_periodic 0 100 1) ∧
    (∀ fuel s',
      Clock_timestamps_list.check_timestamp (ex_periodic 0 100 1) 0 100 fuel ex_t1 = .ok s' →
      Double_list.empty 0 s' = true ∨
      ∃ hd, Double_list.head 0 s' = some hd ∧ 100 < s'.timestamp hd) ∧
    ∃ s', (∀ fuel, [0].length ≤ fuel →
        Clock_timestamps_list.check_timestamp (ex_periodic 0 100 1) 0 100 fuel ex_t1 =
          .ok s') ∧
      ((Double_list.empty 0 s' = true ∧ s'.head_ 0 = none) ∨
        ∃ hd, Double_list.head 0 s' = some hd ∧ 100 < s'.timestamp hd) :=
  have H := tick_drain_completeness (ex_periodic 0 100 1) 0 100 ex_t1 [0] ex_t1_holds
    (by decide) (by decide)
  ⟨ex_t1_holds, by decide, by decide, ex_periodic_spares 0 100 1, H.1,
    H.2 (Or.inr (ex_periodic_spares 0 100 1))⟩

/-- The scenario of C5 evaluated with a timer that re-arms: on the list with
the timer node 0 of timestamp 100, `check_timestamp(100)` invokes the action of
node 0 and returns; the list then holds node 1, of timestamp 150. -/
theorem ex_t1_drain :
    Clock_timestamps_list.check_timestamp (ex_periodic 0 100 1) 0 100 1 ex_t1 = .ok ex_t2 ∧
    Clock_timestamps_list.check_timestamp_log (ex_periodic 0 100 1) 0 100 1 ex_t1 =
      .ok ([0], ex_t2) ∧
    Holds ex_t2 0 [1] ∧ Double_list.head 0 ex_t2 = some 1 ∧ ex_t2.timestamp 1 = 150 := by
  have ha : Timestamp_node.action (ex_periodic 0 100 1) 0 ex_t1 = .ok ex_t2 := rfl
  have hc : ex_t1.count_ 0 ≠ 0 := by decide
  have hh : ex_t1.head_ 0 = some 0 := rfl
  have hts : ex_t1.timestamp 0 ≤ 100 := by decide
  have hh' : ex_t2.head_ 0 = some 1 := rfl
  have hts' : 100 < ex_t2.timestamp 1 := by decide
  refine ⟨?_, ?_, by decide, rfl, rfl⟩
  · rw [check_timestamp_due (ex_periodic 0 100 1) 0 hc hh hts, ha]
    exact check_timestamp_undue (ex_periodic 0 100 1) 0 hh' hts'
  · rw [check_timestamp_log_due (ex_periodic 0 100 1) 0 hc hh hts, ha]
    simp only [bind, Except.bind]
    rw [check_timestamp_log_undue (ex_periodic 0 100 1) 0 hh' hts']
    rfl

/-! ## Ties in the clock list: C13 -/

/-- The scenario of C13 evaluated with timers that re-arm: the list holds the
timer nodes 0, 1, 2 of timestamps 10, 20, 20, the nodes 1 and 2 added in this
order; `check_timestamp(20)` invokes the actions of the nodes 0, 1, 2 in this
order and returns; the list then holds node 3, of timestamp 150, which the
routine has added. -/
theorem ex_u3_drain :
    traverse 0 ex_u3 = some [0, 1, 2] ∧
    Clock_timestamps_list.check_timestamp (ex_periodic 0 20 3) 0 20 3 ex_u3 = .ok ex_u6 ∧
    Clock_timestamps_list.check_timestamp_log (ex_periodic 0 20 3) 0 20 3 ex_u3 =
      .ok ([0, 1, 2], ex_u6) ∧
    Holds ex_u6 0 [3] ∧ ex_u6.timestamp 3 = 150 ∧
    ex_u6.calls = [Call.interrupt_service_routine 0, Call.interrupt_service_routine 1,
      Call.interrupt_service_routine 2] := by
  have ha₀ : Timestamp_node.action (ex_periodic 0 20 3) 0 ex_u3 = .ok ex_u4 := rfl
  have ha₁ : Timestamp_node.action (ex_periodic 0 20 3) 1 ex_u4 = .ok ex_u5 := rfl
  have ha₂ : Timestamp_node.action (ex_periodic 0 20 3) 2 ex_u5 = .ok ex_u6 := rfl
  have hc₀ : ex_u3.count_ 0 ≠ 0 := by decide
  have hc₁ : ex_u4.count_ 0 ≠ 0 := by decide
  have hc₂ : ex_u5.count_ 0 ≠ 0 := by decide
  have hh₀ : ex_u3.head_ 0 = some 0 := rfl
  have hh₁ : ex_u4.head_ 0 = some 1 := rfl
  have hh₂ : ex_u5.head_ 0 = some 2 := rfl
  have hh₃ : ex_u6.head_ 0 = some 3 := rfl
  have ht₀ : ex_u3.timestamp 0 ≤ 20 := by decide
  have ht₁ : ex_u4.timestamp 1 ≤ 20 := by decide
  have ht₂ : ex_u5.timestamp 2 ≤ 20 := by decide
  have ht₃ : 20 < ex_u6.timestamp 3 := by decide
  refine ⟨holds_traverse (by decide : Holds ex_u3 0 [0, 1, 2]), ?_, ?_, by decide, rfl, rfl⟩
  · rw [check_timestamp_due (ex_periodic 0 20 3) 2 hc₀ hh₀ ht₀, ha₀]
    simp only [bind, Except.bind]
    rw [check_timestamp_due (ex_periodic 0 20 3) 1 hc₁ hh₁ ht₁, ha₁]
    simp only [bind, Except.bind]
    rw [check_timestamp_due (ex_periodic 0 20 3) 0 hc₂ hh₂ ht₂, ha₂]
    exact check_timestamp_undue (ex_periodic 0 20 3) 0 hh₃ ht₃
  · rw [check_timestamp_log_due (ex_periodic 0 20 3) 2 hc₀ hh₀ ht₀, ha₀]
    simp only [bind, Except.bind]
    rw [check_timestamp_log_due (ex_periodic 0 20 3) 1 hc₁ hh₁ ht₁, ha₁]
    simp only [bind, Except.bind]
    rw [check_timestamp_log_due (ex_periodic 0 20 3) 0 hc₂ hh₂ ht₂, ha₂]
    simp only [bind, Except.bind]
    rw [check_timestamp_log_undue (ex_periodic 0 20 3) 0 hh₃ ht₃]
    rfl

end os.rtos
